import Mathlib

/-! KernelDFGPass: a shallow embedding and its verified properties

The development embeds `src/prompt_enhanc/KernelDFGPass.cpp` (an LLVM function
pass that extracts the loop nest and a dataflow graph of a compute kernel).

Conventions of the embedding:

* Objects that the C++ code identifies by address (instructions, arguments,
  basic blocks, loops) carry a natural-number `handle`; pointer comparison is
  comparison of handles.  Distinct objects have distinct addresses, which the
  theorems state as `Nodup` hypotheses on handles.
* `std::map<K*, V>` is an association list read with `List.lookup`; the pass
  only ever calls `find` and `operator[]` on its maps.
* `unsigned` counters are natural numbers reduced modulo `2 ^ 32`.
* The unbounded `while (true)` of `traceBasePtr` and the `while (!stk.empty())`
  of `collectLoopTree` take a fuel argument; `none` means that the fuel ran out,
  that is, the loop had not finished after that many iterations.
* The LLVM analyses consulted by the pass (`LoopInfo`, `ScalarEvolution`) are
  parameters: records of the answers they give.
-/

namespace KernelDFG

/-! ## The IR data model -/

/-- Modulus of the C++ type `unsigned`. -/
def UNSIGNED_MOD : Nat := 2 ^ 32

/-- The part of `llvm::Type` that the pass inspects. -/
inductive Ty where
  | integer (bits : Nat)
  | half
  | float
  | double
  | vector (scalarBits : Nat)
  | pointer
  | void
  | other
  deriving DecidableEq, Repr

/-- Model of `Type::isPointerTy`. -/
def Ty.isPointerTy : Ty → Bool
  | .pointer => true
  | _ => false

/-- Model of `Type::isVoidTy`. -/
def Ty.isVoidTy : Ty → Bool
  | .void => true
  | _ => false

/-- An `llvm::Value` as an operand.  Instructions, arguments and basic blocks
are referred to by handle.  `constBitCast` and `constGEP` are the constant
expression (pure operator) forms of a bitcast and of a GEP; of a constant GEP
only the pointer operand can be a non-literal, its indices are integers. -/
inductive Value where
  | inst (h : Nat)
  | arg (h : Nat)
  | global (name : String)
  | constBitCast (src : Value)
  | constGEP (ptr : Value) (idx : List Int)
  | const (text : String)
  | block (h : Nat)
  deriving DecidableEq, Repr

/-- Opcodes of `llvm::BinaryOperator`. -/
inductive BinOp where
  | Add | FAdd | Sub | FSub | Mul | FMul | UDiv | SDiv | FDiv
  | URem | SRem | FRem | Shl | LShr | AShr | And | Or | Xor
  deriving DecidableEq, Repr

/-- Opcodes of the instructions the pass never looks into. -/
inductive OtherOp where
  | Ret | Br | Switch | Unreachable | Alloca | ICmp | FCmp | Call | Select
  | Trunc | ZExt | SExt | FPToSI | SIToFP | FPExt | FPTrunc | PtrToInt | IntToPtr
  deriving DecidableEq, Repr

/-- Values of `Instruction::getOpcode`. -/
inductive Opcode where
  | Add | FAdd | Sub | FSub | Mul | FMul | UDiv | SDiv | FDiv
  | URem | SRem | FRem | Shl | LShr | AShr | And | Or | Xor
  | PHI | Load | Store | GetElementPtr | BitCast
  | Ret | Br | Switch | Unreachable | Alloca | ICmp | FCmp | Call | Select
  | Trunc | ZExt | SExt | FPToSI | SIToFP | FPExt | FPTrunc | PtrToInt | IntToPtr
  deriving DecidableEq, Repr

/-- Opcode of a binary operator. -/
def BinOp.toOpcode : BinOp → Opcode
  | .Add => .Add | .FAdd => .FAdd | .Sub => .Sub | .FSub => .FSub
  | .Mul => .Mul | .FMul => .FMul | .UDiv => .UDiv | .SDiv => .SDiv
  | .FDiv => .FDiv | .URem => .URem | .SRem => .SRem | .FRem => .FRem
  | .Shl => .Shl | .LShr => .LShr | .AShr => .AShr | .And => .And
  | .Or => .Or | .Xor => .Xor

/-- Opcode of an instruction of the remaining classes. -/
def OtherOp.toOpcode : OtherOp → Opcode
  | .Ret => .Ret | .Br => .Br | .Switch => .Switch | .Unreachable => .Unreachable
  | .Alloca => .Alloca | .ICmp => .ICmp | .FCmp => .FCmp | .Call => .Call
  | .Select => .Select | .Trunc => .Trunc | .ZExt => .ZExt | .SExt => .SExt
  | .FPToSI => .FPToSI | .SIToFP => .SIToFP | .FPExt => .FPExt
  | .FPTrunc => .FPTrunc | .PtrToInt => .PtrToInt | .IntToPtr => .IntToPtr

/-- The instruction classes, each with the operands its C++ class fixes:
a binary operator has two, a load one, a store two (value, pointer), a GEP its
pointer followed by indices, a bitcast one, and a phi has one incoming block
per incoming value. -/
inductive InstKind where
  | binary (op : BinOp) (lhs rhs : Value)
  | phi (incoming : List (Value × Nat))
  | load (ptr : Value)
  | store (val ptr : Value)
  | gep (ptr : Value) (idx : List Value)
  | bitcast (src : Value)
  | other (op : OtherOp) (operands : List Value)
  deriving DecidableEq, Repr

/-- An `llvm::Instruction`: its address, result type and class. -/
structure Instruction where
  handle : Nat
  type : Ty
  kind : InstKind
  deriving DecidableEq, Repr

/-- Model of `Instruction::getOpcode`. -/
def Instruction.getOpcode (I : Instruction) : Opcode :=
  match I.kind with
  | .binary op _ _ => op.toOpcode
  | .phi _ => .PHI
  | .load _ => .Load
  | .store _ _ => .Store
  | .gep _ _ => .GetElementPtr
  | .bitcast _ => .BitCast
  | .other op _ => op.toOpcode

/-- Model of `User::operands`, in operand order. -/
def Instruction.operands (I : Instruction) : List Value :=
  match I.kind with
  | .binary _ lhs rhs => [lhs, rhs]
  | .phi incoming => incoming.map Prod.fst
  | .load ptr => [ptr]
  | .store val ptr => [val, ptr]
  | .gep ptr idx => ptr :: idx
  | .bitcast src => [src]
  | .other _ ops => ops

/-- An `llvm::Argument`.  An unnamed argument has the empty name, as
`Value::getName` returns for it. -/
structure Argument where
  handle : Nat
  name : String
  type : Ty
  deriving DecidableEq, Repr

/-- Model of `Value::hasName`. -/
def Argument.hasName (a : Argument) : Bool := a.name != ""

/-- An `llvm::BasicBlock`. -/
structure BasicBlock where
  handle : Nat
  name : String
  insts : List Instruction
  deriving DecidableEq, Repr

/-- An `llvm::Function`. -/
structure Function where
  name : String
  args : List Argument
  blocks : List BasicBlock
  deriving DecidableEq, Repr

/-- All instructions of the function, in block order and program order. -/
def Function.insts (F : Function) : List Instruction :=
  F.blocks.flatMap BasicBlock.insts

/-- The instruction object a handle points to. -/
def Function.findInst (F : Function) (h : Nat) : Option Instruction :=
  F.insts.find? (fun I => I.handle == h)

/-- Model of `Value::users` for an instruction of the function: one entry per
use, here listed in program order of the users. -/
def Function.users (F : Function) (h : Nat) : List Instruction :=
  F.insts.flatMap (fun U => (U.operands.filter (fun v => v == Value.inst h)).map (fun _ => U))

/-- Model of `std::map` keyed by an object address. -/
abbrev PtrMap (β : Type) := List (Nat × β)

/-! ## Helpers of the pass -/

/-- Model of `tyBits`. -/
def tyBits : Ty → String
  | .integer b => toString b
  | .half => "16"
  | .float => "32"
  | .double => "64"
  | .vector s => toString (s % UNSIGNED_MOD) ++ "v"
  | _ => "unknown"

/-- A SCEV expression as far as the pass observes it: the text `print` writes,
and for a `SCEVAddRecExpr` its step recurrence. -/
inductive SCEV where
  | expr (printed : String)
  | addRec (printed : String) (step : SCEV)
  deriving DecidableEq, Repr

/-- Text written by `SCEV::print`. -/
def SCEV.printed : SCEV → String
  | .expr p => p
  | .addRec p _ => p

/-- Model of `scevToStr`; `none` is the null pointer. -/
def scevToStr : Option SCEV → String
  | some s => s.printed
  | none => "?"

/-- The opcodes for which the pass creates a node: the case labels of the
switch in the node pass. -/
def Opcode.interesting : Opcode → Bool
  | .Add | .FAdd | .Mul | .FMul | .Sub | .FSub | .PHI | .Load | .Store => true
  | _ => false

/-- Model of `opKind`. -/
def opKind (I : Instruction) : String :=
  match I.getOpcode with
  | .Add | .FAdd => "add"
  | .Mul | .FMul => "mul"
  | .Sub | .FSub => "sub"
  | .PHI => "phi"
  | .Load => "load"
  | .Store => "store"
  | _ => "other"

/-- Model of `dyn_cast<BitCastOperator>`: the operand 0 of `v` when `v` is a
bitcast, as an instruction or as a constant expression. -/
def asBitCastOperator (F : Function) : Value → Option Value
  | .constBitCast src => some src
  | .inst h =>
    match F.findInst h with
    | some I =>
      match I.kind with
      | .bitcast src => some src
      | _ => none
    | none => none
  | _ => none

/-- Model of `dyn_cast<GEPOperator>`: the pointer operand of `v` when `v` is a
GEP, as an instruction or as a constant expression. -/
def asGEPOperator (F : Function) : Value → Option Value
  | .constGEP ptr _ => some ptr
  | .inst h =>
    match F.findInst h with
    | some I =>
      match I.kind with
      | .gep ptr _ => some ptr
      | _ => none
    | none => none
  | _ => none

/-- Model of `dyn_cast<Instruction>`. -/
def asInstruction (F : Function) : Value → Option Instruction
  | .inst h => F.findInst h
  | _ => none

/-- One iteration of the loop of `traceBasePtr`: `some next` when the
iteration ends in `continue` with `Cur = next`, `none` when it reaches
`break`. -/
def traceStep (F : Function) (cur : Value) : Option Value :=
  match asBitCastOperator F cur with
  | some src => some src
  | none =>
    match asGEPOperator F cur with
    | some ptr => some ptr
    | none =>
      match asInstruction F cur with
      | some I =>
        match I.kind with
        | .bitcast src => some src
        | .gep ptr _ => some ptr
        | _ => none
      | none => none

/-- Model of `traceBasePtr`: at most `fuel` iterations of its loop. -/
def traceBasePtr (F : Function) : Nat → Value → Option Value
  | 0, _ => none
  | fuel + 1, cur =>
    match traceStep F cur with
    | some next => traceBasePtr F fuel next
    | none => some cur

/-! ## Tensor labels of the pointer arguments -/

/-- The array `DefaultNames`. -/
def DefaultNames : List String := ["A", "B", "C", "D", "E"]

/-- Model of `DefaultNames[std::min(tix, 4u)]`; the index is within the array. -/
def defaultName (tix : Nat) : String :=
  DefaultNames.get ⟨min tix 4, Nat.lt_of_le_of_lt (Nat.min_le_right tix 4) (by decide)⟩

/-- The test `nm == "A" || ... || nm == "E"`. -/
def isKnownTensor (nm : String) : Bool :=
  nm == "A" || nm == "B" || nm == "C" || nm == "D" || nm == "E"

/-- Body of the loop over `F.args()`; the state is `tensorOfArg` with `tix`.
The new entry is put in front, so that it shadows an older entry with the same
key, as the assignment through `operator[]` overwrites it. -/
def tensorStep (st : PtrMap String × Nat) (a : Argument) : PtrMap String × Nat :=
  if a.type.isPointerTy then
    let nm := if a.hasName then a.name else defaultName st.2
    let nm := if !(isKnownTensor nm) then defaultName st.2 else nm
    ((a.handle, nm) :: st.1, (st.2 + 1) % UNSIGNED_MOD)
  else st

/-- The map `tensorOfArg` after the loop over the arguments. -/
def tensorOfArg (args : List Argument) : PtrMap String :=
  (args.foldl tensorStep ([], 0)).1

/-! ## Analyses provided by LLVM -/

/-- An `llvm::Loop` as the pass observes it: its address, the name of its
header block (`none` for a null header, the empty name for an unnamed block),
the handles of the blocks it contains (those of nested loops included, as
`Loop::contains` counts them), the handle of its canonical induction variable
if it has one, and its sub-loops in the order of `Loop::begin` .. `Loop::end`. -/
inductive Loop where
  | mk (handle : Nat) (header : Option String) (blocks : List Nat)
      (canonicalIV : Option Nat) (subLoops : List Loop)

/-- Address of the loop object. -/
def Loop.handle : Loop → Nat
  | .mk h _ _ _ _ => h

/-- Name of the header block; see `Loop`. -/
def Loop.header : Loop → Option String
  | .mk _ hd _ _ _ => hd

/-- Handles of the blocks of the loop. -/
def Loop.blocks : Loop → List Nat
  | .mk _ _ bs _ _ => bs

/-- Model of `Loop::getCanonicalInductionVariable`. -/
def Loop.canonicalIV : Loop → Option Nat
  | .mk _ _ _ iv _ => iv

/-- Model of `Loop::getSubLoops`. -/
def Loop.subLoops : Loop → List Loop
  | .mk _ _ _ _ subs => subs

/-- Model of `Loop::contains(const BasicBlock *)`. -/
def Loop.contains (L : Loop) (block : Nat) : Bool := L.blocks.contains block

/-- Model of `isInnermost` for a non-null loop. -/
def isInnermost (L : Loop) : Bool := L.subLoops.isEmpty

/-- The answers of `LoopInfo`. -/
structure LoopInfo where
  getTopLevelLoops : List Loop
  getLoopFor : Nat → Option Loop

/-- The answers of `ScalarEvolution`; `none` is a null pointer. -/
structure ScalarEvolution where
  getSCEV : Value → Option SCEV
  getBackedgeTakenCount : Loop → Option SCEV

/-! ## Loop records -/

/-- The local struct `LoopRec`. -/
structure LoopRec where
  name : String
  lb : String
  ub : String
  step : String
  innermost : Bool
  deriving DecidableEq, Repr

/-- The pointer `Step` computed for a loop: the step recurrence of the SCEV of
the canonical induction variable when that SCEV is an add recurrence. -/
def loopStep (SE : ScalarEvolution) (L : Loop) : Option SCEV :=
  match L.canonicalIV with
  | some iv =>
    match SE.getSCEV (Value.inst iv) with
    | some (SCEV.addRec _ step) => some step
    | _ => none
  | none => none

/-- The record `R` that one iteration of `collectLoopTree` appends. -/
def loopRec (SE : ScalarEvolution) (L : Loop) : LoopRec :=
  { name := match L.header with
      | some nm => if nm != "" then nm else "loop"
      | none => "loop"
    lb := "0"
    ub := scevToStr (SE.getBackedgeTakenCount L)
    step := scevToStr (loopStep SE L)
    innermost := isInnermost L }

/-- The vector `loops` together with the set `loopSet`. -/
structure WalkState where
  loops : List LoopRec
  loopSet : List Nat
  deriving DecidableEq, Repr

/-- Model of `std::set::insert`. -/
def setInsert (s : List Nat) (x : Nat) : List Nat :=
  if s.contains x then s else s ++ [x]

/-- The `while (!stk.empty())` loop of `collectLoopTree`, at most `fuel`
iterations.  The stack is listed bottom first: `pop_back_val` takes the last
element and `append` adds the sub-loops after the remaining ones. -/
def walkStack (SE : ScalarEvolution) : Nat → List Loop → WalkState → Option WalkState
  | 0, stk, st => if stk.isEmpty then some st else none
  | fuel + 1, stk, st =>
    match stk.getLast? with
    | none => some st
    | some L =>
      walkStack SE fuel (stk.dropLast ++ L.subLoops)
        { loops := st.loops ++ [loopRec SE L], loopSet := setInsert st.loopSet L.handle }

/-- Model of the lambda `collectLoopTree`. -/
def collectLoopTree (SE : ScalarEvolution) (fuel : Nat) (st : WalkState) (top : Loop) :
    Option WalkState :=
  walkStack SE fuel [top] st

/-- The loop `for (auto *Top : LI.getTopLevelLoops()) collectLoopTree(Top)`. -/
def collectLoops (SE : ScalarEvolution) (fuel : Nat) (tops : List Loop) : Option WalkState :=
  tops.foldlM (collectLoopTree SE fuel) { loops := [], loopSet := [] }

/-! ## Nodes and edges -/

/-- The local struct `Node`. -/
structure Node where
  id : Nat
  op : String
  bw : String
  tensor : String
  index : String
  redVar : String
  deriving DecidableEq, Repr

/-- The local struct `Edge`. -/
structure Edge where
  src : Nat
  dst : Nat
  type : String
  deriving DecidableEq, Repr

/-- The variables `idOf`, `nodes` and `nextId`. -/
structure BuildState where
  idOf : PtrMap Nat
  nodes : List Node
  nextId : Nat
  deriving DecidableEq, Repr

/-- Model of the lambda `addNode`: the returned id and the new state. -/
def addNode (I : Instruction) (kind : String) (st : BuildState) : Nat × BuildState :=
  match st.idOf.lookup I.handle with
  | some id => (id, st)
  | none =>
    let bw := if I.type.isVoidTy then "void" else tyBits I.type
    (st.nextId,
      { idOf := (I.handle, st.nextId) :: st.idOf
        nodes := st.nodes ++ [{ id := st.nextId, op := kind, bw := bw,
                                tensor := "", index := "", redVar := "" }]
        nextId := (st.nextId + 1) % UNSIGNED_MOD })

/-- The string `tensor` computed for a load or store from the traced base. -/
def tensorOfBase (tmap : PtrMap String) : Value → String
  | .arg a =>
    match tmap.lookup a with
    | some nm => nm
    | none => ""
  | _ => ""

/-- The two assignments `nodes[nid].tensor = ...; nodes[nid].index = ...`. -/
def annotate (nodes : List Node) (nid : Nat) (tensor index : String) : List Node :=
  nodes.modify (fun n => { n with tensor := tensor, index := index }) nid

/-- Body of the inner loop of the node pass for one instruction; `none` when
`traceBasePtr` does not return within `fuel` iterations. -/
def nodeStep (F : Function) (SE : ScalarEvolution) (tmap : PtrMap String) (fuel : Nat)
    (st : BuildState) (I : Instruction) : Option BuildState :=
  let kind := opKind I
  if I.getOpcode.interesting then
    let r := addNode I kind st
    match I.kind with
    | .load ptr =>
      match traceBasePtr F fuel ptr with
      | some base =>
        some { r.2 with nodes := annotate r.2.nodes r.1 (tensorOfBase tmap base)
                                   (scevToStr (SE.getSCEV ptr)) }
      | none => none
    | .store _ ptr =>
      match traceBasePtr F fuel ptr with
      | some base =>
        some { r.2 with nodes := annotate r.2.nodes r.1 (tensorOfBase tmap base)
                                   (scevToStr (SE.getSCEV ptr)) }
      | none => none
    | _ => some r.2
  else some st

/-- The node pass: `for (auto &BB : F) for (auto &I : BB)`. -/
def nodePass (F : Function) (SE : ScalarEvolution) (tmap : PtrMap String) (fuel : Nat) :
    Option BuildState :=
  F.blocks.foldlM (fun st BB => BB.insts.foldlM (nodeStep F SE tmap fuel) st)
    { idOf := [], nodes := [], nextId := 0 }

/-- Body of the operand loop of the edge pass, for the user with node `j`. -/
def edgeOperand (idOf : PtrMap Nat) (j : Nat) (edges : List Edge) (op : Value) : List Edge :=
  match op with
  | .inst d =>
    match idOf.lookup d with
    | some i => edges ++ [{ src := i, dst := j, type := "data" }]
    | none => edges
  | _ => edges

/-- Body of the inner loop of the edge pass for one instruction. -/
def edgeStep (idOf : PtrMap Nat) (edges : List Edge) (I : Instruction) : List Edge :=
  match idOf.lookup I.handle with
  | none => edges
  | some j => I.operands.foldl (edgeOperand idOf j) edges

/-- The edge pass. -/
def edgePass (F : Function) (idOf : PtrMap Nat) : List Edge :=
  F.blocks.foldl (fun es BB => BB.insts.foldl (edgeStep idOf) es) []

/-! ## Reduction detection -/

/-- The flag `feedsBack`: some incoming value of the phi is the instruction
`add` and comes from a block of the loop. -/
def feedsBack (L : Loop) (phi add : Instruction) : Bool :=
  match phi.kind with
  | .phi incoming => incoming.any (fun vb => vb.1 == Value.inst add.handle && L.contains vb.2)
  | _ => false

/-- The string `red`: the header name of the loop, `"k"` without one. -/
def redName (L : Loop) : String :=
  match L.header with
  | some nm => if nm != "" then nm else "k"
  | none => "k"

/-- The assignment `nodes[id].redVar = red`. -/
def setRedVar (nodes : List Node) (id : Nat) (red : String) : List Node :=
  nodes.modify (fun n => { n with redVar := red }) id

/-- Body of the loop over `Phi->users()` for one user `U`. -/
def tagUser (L : Loop) (idOf : PtrMap Nat) (phi : Instruction) (nodes : List Node)
    (U : Instruction) : List Node :=
  match U.kind with
  | .binary op lhs rhs =>
    if op != BinOp.FAdd && op != BinOp.Add then nodes
    else if lhs != Value.inst phi.handle && rhs != Value.inst phi.handle then nodes
    else if !(feedsBack L phi U) then nodes
    else
      match idOf.lookup phi.handle with
      | some id => setRedVar nodes id (redName L)
      | none => nodes
  | _ => nodes

/-- Body of the loop over the instructions of a block of the loop `L`. -/
def tagInst (users : Nat → List Instruction) (L : Loop) (idOf : PtrMap Nat)
    (nodes : List Node) (I : Instruction) : List Node :=
  match I.kind with
  | .phi _ => (users I.handle).foldl (tagUser L idOf I) nodes
  | _ => nodes

/-- Body of the loop over the blocks in the reduction detection. -/
def tagBlock (users : Nat → List Instruction) (LI : LoopInfo) (idOf : PtrMap Nat)
    (nodes : List Node) (BB : BasicBlock) : List Node :=
  match LI.getLoopFor BB.handle with
  | none => nodes
  | some L =>
    if !L.subLoops.isEmpty then nodes
    else BB.insts.foldl (tagInst users L idOf) nodes

/-- The reduction detection, with `users` enumerating the users of a phi. -/
def reductionPass (users : Nat → List Instruction) (F : Function) (LI : LoopInfo)
    (idOf : PtrMap Nat) (nodes : List Node) : List Node :=
  F.blocks.foldl (tagBlock users LI idOf) nodes

/-! ## The analysis -/

/-- Model of `Function::isDeclaration`: a function without a body.  `run`
returns at once for a declaration; the body modelled by `analyzeWith` would
build empty lists for it. -/
def Function.isDeclaration (F : Function) : Bool := F.blocks.isEmpty

/-- Everything `run` has built when it reaches the JSON dump. -/
structure Analysis where
  tensorOfArg : PtrMap String
  loops : List LoopRec
  loopSet : List Nat
  idOf : PtrMap Nat
  nodes : List Node
  edges : List Edge

/-- The body of `KernelDFGPass::run` up to the JSON dump, with the users of a
phi enumerated by `users`.  `none` when one of its loops does not finish within
`fuel` iterations. -/
def analyzeWith (users : Nat → List Instruction) (F : Function) (LI : LoopInfo)
    (SE : ScalarEvolution) (fuel : Nat) : Option Analysis :=
  let tmap := tensorOfArg F.args
  match collectLoops SE fuel LI.getTopLevelLoops with
  | none => none
  | some w =>
    match nodePass F SE tmap fuel with
    | none => none
    | some st =>
      some { tensorOfArg := tmap
             loops := w.loops
             loopSet := w.loopSet
             idOf := st.idOf
             nodes := reductionPass users F LI st.idOf st.nodes
             edges := edgePass F st.idOf }

/-- The analysis with the users of a value taken from the function itself. -/
def analyze (F : Function) (LI : LoopInfo) (SE : ScalarEvolution) (fuel : Nat) :
    Option Analysis :=
  analyzeWith F.users F LI SE fuel

/-! ## The JSON dump -/

/-- The text `(i + 1 == size ? "\n" : ",\n")` written after an element. -/
def separator (i size : Nat) : String :=
  if i + 1 == size then "\n" else ",\n"

/-- The text written for one loop record, up to the closing brace. -/
def loopObject (Lr : LoopRec) : String :=
  "    \x7b\"name\":\"" ++ Lr.name ++ "\","
    ++ "\"lb\":\"" ++ Lr.lb ++ "\","
    ++ "\"ub\":\"" ++ Lr.ub ++ "\","
    ++ "\"step\":\"" ++ Lr.step ++ "\","
    ++ "\"innermost\":" ++ (if Lr.innermost then "true" else "false") ++ "\x7d"

/-- The text written for one node, up to the closing brace; `OS << N.id`
prints the unsigned id in decimal. -/
def nodeObject (N : Node) : String :=
  "      \x7b\"id\":\"n" ++ toString N.id ++ "\","
    ++ "\"op\":\"" ++ N.op ++ "\","
    ++ "\"bw\":\"" ++ N.bw ++ "\""
    ++ (if N.tensor != "" then ",\"tensor\":\"" ++ N.tensor ++ "\"" else "")
    ++ (if N.index != "" then ",\"index\":\"" ++ N.index ++ "\"" else "")
    ++ (if N.redVar != "" then ",\"reduction\":\"" ++ N.redVar ++ "\"" else "")
    ++ "\x7d"

/-- The text written for one edge, up to the closing brace. -/
def edgeObject (E : Edge) : String :=
  "      \x7b\"src\":\"n" ++ toString E.src ++ "\","
    ++ "\"dst\":\"n" ++ toString E.dst ++ "\","
    ++ "\"type\":\"" ++ E.type ++ "\"\x7d"

/-- The iterations `i, i + 1, ...` of a loop
`for (size_t i = 0; i < v.size(); ++i)` of the dump over the remaining elements
of the vector: each writes the object and the separator. -/
def emitFrom {α : Type} (object : α → String) (size : Nat) : Nat → List α → String
  | _, [] => ""
  | i, x :: rest => object x ++ separator i size ++ emitFrom object size (i + 1) rest

/-- The text written to the output file. -/
def emitJson (kernel : String) (loops : List LoopRec) (nodes : List Node)
    (edges : List Edge) : String :=
  "\x7b\n"
    ++ "  \"kernel\": \"" ++ kernel ++ "\",\n"
    ++ "  \"loops\": [\n"
    ++ emitFrom loopObject loops.length 0 loops
    ++ "  ],\n"
    ++ "  \"dfg\": \x7b\n"
    ++ "    \"nodes\": [\n"
    ++ emitFrom nodeObject nodes.length 0 nodes
    ++ "    ],\n"
    ++ "    \"edges\": [\n"
    ++ emitFrom edgeObject edges.length 0 edges
    ++ "    ]\n"
    ++ "  \x7d\n"
    ++ "\x7d\n"

/-- What one call of `run` writes.  The outer `none` means that a loop of the
pass did not finish within `fuel` iterations; `some none` that `run` returned
without output, for a declaration or when the output file cannot be opened;
`some (some text)` that `text` was written. -/
def run (F : Function) (LI : LoopInfo) (SE : ScalarEvolution) (fuel : Nat)
    (openFails : Bool) : Option (Option String) :=
  if F.isDeclaration then some none
  else
    match analyze F LI SE fuel with
    | none => none
    | some a =>
      if openFails then some none
      else some (some (emitJson F.name a.loops a.nodes a.edges))

/-! ## Vocabulary of the statements -/

/-- The instructions for which a node is created, in program order. -/
def Function.modeled (F : Function) : List Instruction :=
  F.insts.filter (fun I => I.getOpcode.interesting)

/-- Distinct instruction objects have distinct addresses, and the number of
modeled instructions fits the `unsigned` id counter. -/
def Function.WellFormed (F : Function) : Prop :=
  (F.insts.map Instruction.handle).Nodup ∧ F.modeled.length ≤ UNSIGNED_MOD

/-- The pointer operand of a load or store. -/
def Instruction.addrOperand (I : Instruction) : Option Value :=
  match I.kind with
  | .load ptr => some ptr
  | .store _ ptr => some ptr
  | _ => none

/-- The string `bw` that `addNode` computes. -/
def bwOf (I : Instruction) : String :=
  if I.type.isVoidTy then "void" else tyBits I.type

mutual
/-- Number of loops of a loop tree. -/
def Loop.size : Loop → Nat
  | .mk _ _ _ _ subs => 1 + Loop.sizeList subs
/-- Number of loops of a loop forest. -/
def Loop.sizeList : List Loop → Nat
  | [] => 0
  | L :: Ls => Loop.size L + Loop.sizeList Ls
end

/-- Every call of `traceBasePtr` that the node pass makes returns within
`fuel` iterations. -/
def traceFuelEnough (F : Function) (fuel : Nat) : Bool :=
  F.insts.all (fun I =>
    match I.addrOperand with
    | some ptr => (traceBasePtr F fuel ptr).isSome
    | none => true)

/-- Every call of `collectLoopTree` finishes within `fuel` iterations: no tree
of the forest has more loops than that. -/
def loopFuelEnough (LI : LoopInfo) (fuel : Nat) : Bool :=
  LI.getTopLevelLoops.all (fun T => decide (Loop.size T ≤ fuel))

/-- The fuel covers every loop of one run of the pass. -/
def fuelEnough (F : Function) (LI : LoopInfo) (fuel : Nat) : Bool :=
  traceFuelEnough F fuel && loopFuelEnough LI fuel

/-- The node that the node pass leaves for the modeled instruction `I` when it
is given the id `k`. -/
def specNode (F : Function) (SE : ScalarEvolution) (tmap : PtrMap String) (fuel : Nat)
    (k : Nat) (I : Instruction) : Node :=
  match I.addrOperand with
  | some ptr =>
    { id := k, op := opKind I, bw := bwOf I
      tensor := match traceBasePtr F fuel ptr with
        | some base => tensorOfBase tmap base
        | none => ""
      index := scevToStr (SE.getSCEV ptr)
      redVar := "" }
  | none => { id := k, op := opKind I, bw := bwOf I, tensor := "", index := "", redVar := "" }

/-- The opcodes named by the specification as the instructions of interest. -/
def modeledOpcodes : List Opcode :=
  [.Add, .FAdd, .Mul, .FMul, .Sub, .FSub, .PHI, .Load, .Store]

mutual
/-- A loop followed by all its descendants (sub-loops in their own order). -/
def Loop.subtree : Loop → List Loop
  | .mk h hd bs iv subs => Loop.mk h hd bs iv subs :: Loop.subtreeList subs
/-- All loops of a forest. -/
def Loop.subtreeList : List Loop → List Loop
  | [] => []
  | L :: Ls => Loop.subtree L ++ Loop.subtreeList Ls
end

/-- The proper descendants of a loop. -/
def Loop.descendants (L : Loop) : List Loop := Loop.subtreeList L.subLoops

mutual
/-- The order `rec(L) = [L] ++ rec(cn) ++ ... ++ rec(c1)` for the sub-loops
`[c1, ..., cn]` of `L`. -/
def Loop.visitOrder : Loop → List Loop
  | .mk h hd bs iv subs => Loop.mk h hd bs iv subs :: Loop.visitOrderStack subs
/-- The order in which the loops of a stack (listed bottom first) and their
descendants are popped. -/
def Loop.visitOrderStack : List Loop → List Loop
  | [] => []
  | L :: Ls => Loop.visitOrderStack Ls ++ Loop.visitOrder L
end

/-- The map `idOf` after the node pass: the modeled instructions numbered in
program order (the latest insertion listed first). -/
def specIdOf (F : Function) : PtrMap Nat :=
  ((F.modeled.enumFrom 0).map (fun p => (p.2.handle, p.1))).reverse

/-- The vector `nodes` after the node pass. -/
def specNodes (F : Function) (SE : ScalarEvolution) (fuel : Nat) : List Node :=
  (F.modeled.enumFrom 0).map (fun p => specNode F SE (tensorOfArg F.args) fuel p.1 p.2)

/-- The assignment to `redVar` that the user `U` of the phi causes, if any: the
node index and the name written. -/
def userEvent (L : Loop) (idOf : PtrMap Nat) (phi U : Instruction) : List (Nat × String) :=
  match U.kind with
  | .binary op lhs rhs =>
    if op != BinOp.FAdd && op != BinOp.Add then []
    else if lhs != Value.inst phi.handle && rhs != Value.inst phi.handle then []
    else if !(feedsBack L phi U) then []
    else
      match idOf.lookup phi.handle with
      | some id => [(id, redName L)]
      | none => []
  | _ => []

/-- The assignments to `redVar` made while visiting one instruction. -/
def instEvents (users : Nat → List Instruction) (L : Loop) (idOf : PtrMap Nat)
    (I : Instruction) : List (Nat × String) :=
  match I.kind with
  | .phi _ => (users I.handle).flatMap (userEvent L idOf I)
  | _ => []

/-- The assignments to `redVar` made while visiting one block. -/
def blockEvents (users : Nat → List Instruction) (LI : LoopInfo) (idOf : PtrMap Nat)
    (BB : BasicBlock) : List (Nat × String) :=
  match LI.getLoopFor BB.handle with
  | none => []
  | some L =>
    if !L.subLoops.isEmpty then []
    else BB.insts.flatMap (instEvents users L idOf)

/-- All assignments to `redVar` of the reduction detection, in the order in
which they are made. -/
def tagEvents (users : Nat → List Instruction) (F : Function) (LI : LoopInfo)
    (idOf : PtrMap Nat) : List (Nat × String) :=
  F.blocks.flatMap (blockEvents users LI idOf)

/-- Replay of a list of assignments to `redVar`. -/
def applyEvents (nodes : List Node) (events : List (Nat × String)) : List Node :=
  events.foldl (fun ns e => setRedVar ns e.1 e.2) nodes

/-- Position of the first instruction with handle `h` in a list. -/
def positionOf (h : Nat) : List Instruction → Option Nat
  | [] => none
  | I :: rest => if I.handle == h then some 0 else (positionOf h rest).map (fun k => k + 1)

/-- The id of an instruction as the specification describes it: its position
among the modeled instructions in program order. -/
def specId (F : Function) (h : Nat) : Option Nat := positionOf h F.modeled

/-- The edges that the specification emits for the modeled instruction `I`: one
per operand that is a modeled instruction, in operand order. -/
def specEdgesOf (F : Function) (I : Instruction) : List Edge :=
  match specId F I.handle with
  | none => []
  | some j =>
    I.operands.filterMap (fun v =>
      match v with
      | .inst d => (specId F d).map (fun i => { src := i, dst := j, type := "data" })
      | _ => none)

/-- The edge list of the specification: the modeled instructions in program
order, each with its operands in operand order. -/
def specEdges (F : Function) : List Edge := F.modeled.flatMap (specEdgesOf F)

/-- The edges that the edge pass appends for one instruction, given `idOf`. -/
def edgeBlock (idOf : PtrMap Nat) (I : Instruction) : List Edge :=
  match idOf.lookup I.handle with
  | none => []
  | some j =>
    I.operands.filterMap (fun v =>
      match v with
      | .inst d => (idOf.lookup d).map (fun i => { src := i, dst := j, type := "data" })
      | _ => none)

/-- The label the resolver stores for the pointer argument `a` when the
counter `tix` has the value `tix`. -/
def codeLabel (tix : Nat) (a : Argument) : String :=
  let nm := if a.hasName then a.name else defaultName tix
  if !(isKnownTensor nm) then defaultName tix else nm

/-- The pointer-typed arguments, in declaration order. -/
def pointerArgs (args : List Argument) : List Argument :=
  args.filter (fun a => a.type.isPointerTy)

/-- One unwrapping step in the words of the specification: a bitcast is
replaced by its operand 0 and a GEP by its pointer operand, in operator form
and in instruction form alike; nothing else is unwrapped. -/
def specUnwrap (F : Function) : Value → Option Value
  | .constBitCast src => some src
  | .constGEP ptr _ => some ptr
  | .inst h =>
    match F.findInst h with
    | some I =>
      match I.kind with
      | .bitcast src => some src
      | .gep ptr _ => some ptr
      | _ => none
    | none => none
  | _ => none

/-- The value `w` is the base operand of `u`. -/
def BaseOf (F : Function) (w u : Value) : Prop := specUnwrap F u = some w

/-- The consumer `U` of the phi `P` is a matching combine for the loop `L`: an
Add or FAdd binary operator with `P` as operand 0 or operand 1, and some
incoming value of `P` is `U` itself with its incoming block among the blocks
of `L`. -/
def MatchingCombine (L : Loop) (P U : Instruction) : Prop :=
  ∃ op lhs rhs, U.kind = InstKind.binary op lhs rhs ∧ (op = BinOp.Add ∨ op = BinOp.FAdd) ∧
    (lhs = Value.inst P.handle ∨ rhs = Value.inst P.handle) ∧
    ∃ inc, P.kind = InstKind.phi inc ∧
      ∃ vb ∈ inc, vb.1 = Value.inst U.handle ∧ vb.2 ∈ L.blocks

/-! ## The GEMM kernel of `code/inputs/kernel_gemm.c` in SSA form

```
define void @gemm(i32 %M, i32 %N, i32 %K, ptr %A, ptr %B, ptr %C) {
entry:
  br label %for.i
for.i:
  %i = phi i32 [ 0, %entry ], [ %i.next, %for.i.latch ]
  %cmp.i = icmp slt i32 %i, %M
  br i1 %cmp.i, label %for.j, label %exit
for.j:
  %j = phi i32 [ 0, %for.i ], [ %j.next, %for.j.latch ]
  %cmp.j = icmp slt i32 %j, %N
  br i1 %cmp.j, label %for.k, label %for.i.latch
for.k:
  %k = phi i32 [ 0, %for.j ], [ %k.next, %for.k.body ]
  %acc = phi float [ 0.0, %for.j ], [ %add, %for.k.body ]
  %cmp.k = icmp slt i32 %k, %K
  br i1 %cmp.k, label %for.k.body, label %for.j.latch
for.k.body:
  %mul.ik = mul i32 %i, %K
  %idx.a = add i32 %mul.ik, %k
  %ext.a = sext i32 %idx.a to i64
  %pa = getelementptr float, ptr %A, i64 %ext.a
  %a = load float, ptr %pa
  %mul.kn = mul i32 %k, %N
  %idx.b = add i32 %mul.kn, %j
  %ext.b = sext i32 %idx.b to i64
  %pb = getelementptr float, ptr %B, i64 %ext.b
  %b = load float, ptr %pb
  %mul = fmul float %a, %b
  %add = fadd float %acc, %mul
  %k.next = add i32 %k, 1
  br label %for.k
for.j.latch:
  %mul.in = mul i32 %i, %N
  %idx.c = add i32 %mul.in, %j
  %ext.c = sext i32 %idx.c to i64
  %pc = getelementptr float, ptr %C, i64 %ext.c
  store float %acc, ptr %pc
  %j.next = add i32 %j, 1
  br label %for.j
for.i.latch:
  %i.next = add i32 %i, 1
  br label %for.i
exit:
  ret void
}
```

Argument handles are 0..5 (M, N, K, A, B, C), block handles 0..7 in the order
above, and instruction handles are 100 plus the position in the listing. -/

namespace Gemm

/-- Shorthand for a 32-bit integer instruction. -/
def i32 (h : Nat) (k : InstKind) : Instruction := { handle := h, type := Ty.integer 32, kind := k }

/-- Shorthand for an instruction without a result. -/
def voidI (h : Nat) (k : InstKind) : Instruction := { handle := h, type := Ty.void, kind := k }

/-- Block `entry`. -/
def entry : BasicBlock :=
  { handle := 0, name := "entry", insts := [voidI 100 (.other .Br [.block 1])] }

/-- Block `for.i`, header of the outer loop. -/
def forI : BasicBlock :=
  { handle := 1, name := "for.i", insts :=
      [ i32 101 (.phi [(.const "0", 0), (.inst 132, 6)]),
        { handle := 102, type := Ty.integer 1, kind := .other .ICmp [.inst 101, .arg 0] },
        voidI 103 (.other .Br [.inst 102, .block 2, .block 7]) ] }

/-- Block `for.j`, header of the middle loop. -/
def forJ : BasicBlock :=
  { handle := 2, name := "for.j", insts :=
      [ i32 104 (.phi [(.const "0", 1), (.inst 130, 5)]),
        { handle := 105, type := Ty.integer 1, kind := .other .ICmp [.inst 104, .arg 1] },
        voidI 106 (.other .Br [.inst 105, .block 3, .block 6]) ] }

/-- Block `for.k`, header of the innermost loop. -/
def forK : BasicBlock :=
  { handle := 3, name := "for.k", insts :=
      [ i32 107 (.phi [(.const "0", 2), (.inst 123, 4)]),
        { handle := 108, type := Ty.float, kind := .phi [(.const "0.0", 2), (.inst 122, 4)] },
        { handle := 109, type := Ty.integer 1, kind := .other .ICmp [.inst 107, .arg 2] },
        voidI 110 (.other .Br [.inst 109, .block 4, .block 5]) ] }

/-- Block `for.k.body`. -/
def forKBody : BasicBlock :=
  { handle := 4, name := "for.k.body", insts :=
      [ i32 111 (.binary .Mul (.inst 101) (.arg 2)),
        i32 112 (.binary .Add (.inst 111) (.inst 107)),
        { handle := 113, type := Ty.integer 64, kind := .other .SExt [.inst 112] },
        { handle := 114, type := Ty.pointer, kind := .gep (.arg 3) [.inst 113] },
        { handle := 115, type := Ty.float, kind := .load (.inst 114) },
        i32 116 (.binary .Mul (.inst 107) (.arg 1)),
        i32 117 (.binary .Add (.inst 116) (.inst 104)),
        { handle := 118, type := Ty.integer 64, kind := .other .SExt [.inst 117] },
        { handle := 119, type := Ty.pointer, kind := .gep (.arg 4) [.inst 118] },
        { handle := 120, type := Ty.float, kind := .load (.inst 119) },
        { handle := 121, type := Ty.float, kind := .binary .FMul (.inst 115) (.inst 120) },
        { handle := 122, type := Ty.float, kind := .binary .FAdd (.inst 108) (.inst 121) },
        i32 123 (.binary .Add (.inst 107) (.const "1")),
        voidI 124 (.other .Br [.block 3]) ] }

/-- Block `for.j.latch`: the store to `C` after the innermost loop. -/
def forJLatch : BasicBlock :=
  { handle := 5, name := "for.j.latch", insts :=
      [ i32 125 (.binary .Mul (.inst 101) (.arg 1)),
        i32 126 (.binary .Add (.inst 125) (.inst 104)),
        { handle := 127, type := Ty.integer 64, kind := .other .SExt [.inst 126] },
        { handle := 128, type := Ty.pointer, kind := .gep (.arg 5) [.inst 127] },
        voidI 129 (.store (.inst 108) (.inst 128)),
        i32 130 (.binary .Add (.inst 104) (.const "1")),
        voidI 131 (.other .Br [.block 2]) ] }

/-- Block `for.i.latch`. -/
def forILatch : BasicBlock :=
  { handle := 6, name := "for.i.latch", insts :=
      [ i32 132 (.binary .Add (.inst 101) (.const "1")),
        voidI 133 (.other .Br [.block 1]) ] }

/-- Block `exit`. -/
def exit : BasicBlock :=
  { handle := 7, name := "exit", insts := [voidI 134 (.other .Ret [])] }

/-- The function `gemm`. -/
def gemm : Function :=
  { name := "gemm"
    args := [ { handle := 0, name := "M", type := Ty.integer 32 },
              { handle := 1, name := "N", type := Ty.integer 32 },
              { handle := 2, name := "K", type := Ty.integer 32 },
              { handle := 3, name := "A", type := Ty.pointer },
              { handle := 4, name := "B", type := Ty.pointer },
              { handle := 5, name := "C", type := Ty.pointer } ]
    blocks := [entry, forI, forJ, forK, forKBody, forJLatch, forILatch, exit] }

/-- The `k` loop. -/
def loopK : Loop := .mk 2 (some "for.k") [3, 4] (some 107) []

/-- The `j` loop. -/
def loopJ : Loop := .mk 1 (some "for.j") [2, 3, 4, 5] (some 104) [loopK]

/-- The `i` loop. -/
def loopI : Loop := .mk 0 (some "for.i") [1, 2, 3, 4, 5, 6] (some 101) [loopJ]

/-- The loop structure of `gemm`: each block with its innermost loop. -/
def gemmLI : LoopInfo :=
  { getTopLevelLoops := [loopI]
    getLoopFor := fun b =>
      if b == 3 || b == 4 then some loopK
      else if b == 2 || b == 5 then some loopJ
      else if b == 1 || b == 6 then some loopI
      else none }

/-- A symbolic engine without answers: every query returns the null pointer. -/
def noSE : ScalarEvolution :=
  { getSCEV := fun _ => none
    getBackedgeTakenCount := fun _ => none }

end Gemm

/-! ## Further example inputs -/

/-- Six pointer arguments named x, A, unnamed, y, z, w and an integer n. -/
def sevenArgs : List Argument :=
  [ { handle := 0, name := "x", type := Ty.pointer },
    { handle := 1, name := "A", type := Ty.pointer },
    { handle := 2, name := "n", type := Ty.integer 32 },
    { handle := 3, name := "", type := Ty.pointer },
    { handle := 4, name := "y", type := Ty.pointer },
    { handle := 5, name := "z", type := Ty.pointer },
    { handle := 6, name := "w", type := Ty.pointer } ]

/-- Two pointer arguments named x and A. -/
def clashArgs : List Argument :=
  [ { handle := 0, name := "x", type := Ty.pointer },
    { handle := 1, name := "A", type := Ty.pointer } ]

/-- A function without arguments that loads from a global:
`define i32 @readg() { entry: %v = load i32, ptr @g  ret i32 %v }`. -/
def readGlobal : Function :=
  { name := "readg"
    args := []
    blocks := [ { handle := 0, name := "entry", insts :=
      [ { handle := 10, type := Ty.integer 32, kind := .load (.global "g") },
        { handle := 11, type := Ty.void, kind := .other .Ret [.inst 10] } ] } ] }

/-- A function without loops. -/
def noLoops : LoopInfo :=
  { getTopLevelLoops := []
    getLoopFor := fun _ => none }

/-- A symbolic engine that knows a global by its name and nothing else. -/
def globalSE : ScalarEvolution :=
  { getSCEV := fun v =>
      match v with
      | .global nm => some (SCEV.expr ("@" ++ nm))
      | _ => none
    getBackedgeTakenCount := fun _ => none }

/-- A loop forest with two top-level loops: loop 0 has the sub-loops 1 and 2,
loop 1 has the sub-loop 3, and loop 4 has no sub-loop. -/
def sampleForest : List Loop :=
  [ Loop.mk 0 (some "outer") [0, 1, 2, 3] none
      [ Loop.mk 1 (some "first") [1, 3] none [Loop.mk 3 (some "inner") [3] none []],
        Loop.mk 2 (some "second") [2] none [] ],
    Loop.mk 4 (some "other") [4] none [] ]

/-- A node list with and without the optional fields. -/
def sampleNodes : List Node :=
  [{ id := 0, op := "phi", bw := "32", tensor := "", index := "", redVar := "sum_k" },
   { id := 1, op := "load", bw := "32", tensor := "A", index := "(4 * %i)", redVar := "" },
   { id := 2, op := "add", bw := "32", tensor := "", index := "", redVar := "" }]

/-- An edge list over `sampleNodes`. -/
def sampleEdges : List Edge :=
  [{ src := 1, dst := 2, type := "data" }, { src := 0, dst := 2, type := "data" }]

/-- A function that loads from a global whose name LLVM writes between double
quotes, as it does for the names that the Microsoft ABI produces:
`define i32 @readq() { entry: %v = load i32, ptr @"?g@@3HA"  ret i32 %v }`. -/
def readQuoted : Function :=
  { name := "readq"
    args := []
    blocks := [ { handle := 0, name := "entry", insts :=
      [ { handle := 10, type := Ty.integer 32, kind := .load (.global "?g@@3HA") },
        { handle := 11, type := Ty.void, kind := .other .Ret [.inst 10] } ] } ] }

/-- A symbolic engine that prints a global as the operand `@"name"`. -/
def quotingSE : ScalarEvolution :=
  { getSCEV := fun v =>
      match v with
      | .global nm => some (SCEV.expr ("@\"" ++ nm ++ "\""))
      | _ => none
    getBackedgeTakenCount := fun _ => none }

/-- The text that the dump writes for `readQuoted` under `quotingSE`. -/
def quotedDump : String :=
  "\x7b\n  \"kernel\": \"readq\",\n  \"loops\": [\n  ],\n  \"dfg\": \x7b\n    \"nodes\": [\n"
    ++ "      \x7b\"id\":\"n0\",\"op\":\"load\",\"bw\":\"32\",\"index\":\"@\"?g@@3HA\"\"\x7d\n"
    ++ "    ],\n    \"edges\": [\n    ]\n  \x7d\n\x7d\n"

/-- Loop records as the pass writes them for a nest of two loops. -/
def sampleLoops : List LoopRec :=
  [{ name := "for.i", lb := "0", ub := "(-1 + %n)", step := "1", innermost := false },
   { name := "for.k", lb := "0", ub := "?", step := "?", innermost := true }]

/-! ### A phi with two matching combines

```
define i32 @two(i32 %n) {
entry:
  br label %head
head:
  %s = phi i32 [ 0, %entry ], [ %s.odd, %odd ], [ %s.even, %even ]
  %c = icmp slt i32 %s, %n
  br i1 %c, label %odd, label %even
odd:
  %s.odd = add i32 %s, 1
  br label %head
even:
  %s.even = add i32 2, %s
  %d = icmp slt i32 %s.even, %n
  br i1 %d, label %head, label %exit
exit:
  ret i32 %s
}
```

Block handles are 0..4 in the order above and instruction handles are 10 plus
the position in the listing. -/

/-- The phi `%s` of `twoLatches`. -/
def sumPhi : Instruction :=
  { handle := 11, type := Ty.integer 32
    kind := .phi [(.const "0", 0), (.inst 14, 2), (.inst 16, 3)] }

/-- The combine `%s.odd`. -/
def addOdd : Instruction :=
  { handle := 14, type := Ty.integer 32, kind := .binary .Add (.inst 11) (.const "1") }

/-- The combine `%s.even`. -/
def addEven : Instruction :=
  { handle := 16, type := Ty.integer 32, kind := .binary .Add (.const "2") (.inst 11) }

/-- Block `head` of `twoLatches`. -/
def headBlock : BasicBlock :=
  { handle := 1, name := "head", insts :=
      [ sumPhi,
        { handle := 12, type := Ty.integer 1, kind := .other .ICmp [.inst 11, .arg 0] },
        { handle := 13, type := Ty.void, kind := .other .Br [.inst 12, .block 2, .block 3] } ] }

/-- The function `two`: a loop with two latches, each adding to the phi `%s`. -/
def twoLatches : Function :=
  { name := "two"
    args := [ { handle := 0, name := "n", type := Ty.integer 32 } ]
    blocks :=
      [ { handle := 0, name := "entry", insts :=
            [ { handle := 10, type := Ty.void, kind := .other .Br [.block 1] } ] },
        headBlock,
        { handle := 2, name := "odd", insts :=
            [ addOdd, { handle := 15, type := Ty.void, kind := .other .Br [.block 1] } ] },
        { handle := 3, name := "even", insts :=
            [ addEven,
              { handle := 17, type := Ty.integer 1, kind := .other .ICmp [.inst 16, .arg 0] },
              { handle := 18, type := Ty.void,
                kind := .other .Br [.inst 17, .block 1, .block 4] } ] },
        { handle := 4, name := "exit", insts :=
            [ { handle := 19, type := Ty.void, kind := .other .Ret [.inst 11] } ] } ] }

/-- The loop of `twoLatches`. -/
def twoLoop : Loop := .mk 0 (some "head") [1, 2, 3] none []

/-- The loop structure of `twoLatches`. -/
def twoLI : LoopInfo :=
  { getTopLevelLoops := [twoLoop]
    getLoopFor := fun b => if b == 1 || b == 2 || b == 3 then some twoLoop else none }

/-! ## JSON: vocabulary of the statements about the dump

The grammar is the one of json.org (RFC 8259), over lists of characters:
`json = element`, `element = ws value ws`, `array = '[' ws ']' | '[' elements ']'`,
`object = '{' ws '}' | '{' members '}'`, `member = ws string ws ':' element`.
Each derivation also yields the value that the text denotes. -/

/-- The double quote. -/
def dquote : Char := Char.ofNat 34

/-- The backslash. -/
def backslash : Char := Char.ofNat 92

/-- The opening bracket of an array. -/
def lbracket : Char := Char.ofNat 91

/-- The closing bracket of an array. -/
def rbracket : Char := Char.ofNat 93

/-- The opening brace of an object. -/
def lbrace : Char := Char.ofNat 123

/-- The closing brace of an object. -/
def rbrace : Char := Char.ofNat 125

/-- The colon between a key and its value. -/
def colon : Char := Char.ofNat 58

/-- The comma between elements and between members. -/
def comma : Char := Char.ofNat 44

/-- The line feed. -/
def newline : Char := Char.ofNat 10

/-- A JSON value. -/
inductive Json where
  | null
  | bool (b : Bool)
  | number (text : String)
  | string (s : String)
  | array (items : List Json)
  | object (members : List (String × Json))

/-- A whitespace character of JSON: space, line feed, carriage return, tab. -/
def wsChar (c : Char) : Bool :=
  c == Char.ofNat 32 || c == Char.ofNat 10 || c == Char.ofNat 13 || c == Char.ofNat 9

/-- The production `ws`. -/
def IsWs (w : List Char) : Prop := ∀ c ∈ w, wsChar c = true

/-- A character that stands for itself inside a JSON string: any character
from U+0020 on except the double quote and the backslash. -/
def plainChar (c : Char) : Bool :=
  c != dquote && c != backslash && decide (32 ≤ c.toNat)

/-- A string that needs no escaping between double quotes. -/
def Clean (s : String) : Prop := ∀ c ∈ s.data, plainChar c = true

instance (s : String) : Decidable (Clean s) := by
  unfold Clean
  infer_instance

/-- The character denoted by a one-letter escape. -/
def escapeOf (c : Char) : Option Char :=
  if c == dquote then some dquote
  else if c == backslash then some backslash
  else if c == '/' then some '/'
  else if c == 'b' then some (Char.ofNat 8)
  else if c == 'f' then some (Char.ofNat 12)
  else if c == 'n' then some (Char.ofNat 10)
  else if c == 'r' then some (Char.ofNat 13)
  else if c == 't' then some (Char.ofNat 9)
  else none

/-- The value of a hexadecimal digit. -/
def hexValue (c : Char) : Option Nat :=
  if c.isDigit then some (c.toNat - 48)
  else if 97 ≤ c.toNat ∧ c.toNat ≤ 102 then some (c.toNat - 87)
  else if 65 ≤ c.toNat ∧ c.toNat ≤ 70 then some (c.toNat - 55)
  else none

/-- The production `characters`: the text between the quotes of a string and
the characters it denotes (a `\u` escape denotes its code unit). -/
inductive JChars : List Char → List Char → Prop where
  | nil : JChars [] []
  | plain (c : Char) (t s : List Char) (hc : plainChar c = true) (r : JChars t s) :
      JChars (c :: t) (c :: s)
  | escape (e d : Char) (t s : List Char) (he : escapeOf e = some d) (r : JChars t s) :
      JChars (backslash :: e :: t) (d :: s)
  | unicode (a b c d : Char) (va vb vc vd : Nat) (t s : List Char)
      (ha : hexValue a = some va) (hb : hexValue b = some vb)
      (hc : hexValue c = some vc) (hd : hexValue d = some vd) (r : JChars t s) :
      JChars (backslash :: 'u' :: a :: b :: c :: d :: t)
        (Char.ofNat (va * 4096 + vb * 256 + vc * 16 + vd) :: s)

/-- The production `digits`: one or more decimal digits. -/
def IsDigits (ds : List Char) : Prop := ds ≠ [] ∧ ∀ c ∈ ds, c.isDigit = true

/-- The production `integer`: digits without a leading zero, with an optional
minus sign. -/
def IsInteger (i : List Char) : Prop :=
  ∃ ds, IsDigits ds ∧ (ds.length = 1 ∨ ds.head? ≠ some '0') ∧ (i = ds ∨ i = '-' :: ds)

/-- The production `fraction`. -/
def IsFraction (f : List Char) : Prop := f = [] ∨ ∃ ds, IsDigits ds ∧ f = '.' :: ds

/-- The production `exponent`. -/
def IsExponent (e : List Char) : Prop :=
  e = [] ∨ ∃ s ds, (s = [] ∨ s = ['+'] ∨ s = ['-']) ∧ IsDigits ds ∧
    (e = 'e' :: (s ++ ds) ∨ e = 'E' :: (s ++ ds))

/-- The production `number`. -/
def IsNumber (cs : List Char) : Prop :=
  ∃ i f e, IsInteger i ∧ IsFraction f ∧ IsExponent e ∧ cs = i ++ (f ++ e)

/-- The nonterminals with a recursive production. -/
inductive Nonterminal where
  | value
  | elements
  | members

/-- Derivations of the JSON grammar: `Derives nt text v` says that `text` is
derived from the nonterminal `nt` and denotes `v`; `elements` denote an array
and `members` an object. -/
inductive Derives : Nonterminal → List Char → Json → Prop where
  | null : Derives .value ['n', 'u', 'l', 'l'] Json.null
  | true : Derives .value ['t', 'r', 'u', 'e'] (Json.bool true)
  | false : Derives .value ['f', 'a', 'l', 's', 'e'] (Json.bool false)
  | number (cs : List Char) (h : IsNumber cs) : Derives .value cs (Json.number (String.mk cs))
  | string (t s : List Char) (h : JChars t s) :
      Derives .value (dquote :: (t ++ [dquote])) (Json.string (String.mk s))
  | emptyArray (w : List Char) (hw : IsWs w) :
      Derives .value (lbracket :: (w ++ [rbracket])) (Json.array [])
  | array (t : List Char) (vs : List Json) (h : Derives .elements t (Json.array vs)) :
      Derives .value (lbracket :: (t ++ [rbracket])) (Json.array vs)
  | emptyObject (w : List Char) (hw : IsWs w) :
      Derives .value (lbrace :: (w ++ [rbrace])) (Json.object [])
  | object (t : List Char) (kvs : List (String × Json))
      (h : Derives .members t (Json.object kvs)) :
      Derives .value (lbrace :: (t ++ [rbrace])) (Json.object kvs)
  | element (w1 t w2 : List Char) (v : Json) (h1 : IsWs w1) (h : Derives .value t v)
      (h2 : IsWs w2) : Derives .elements (w1 ++ (t ++ w2)) (Json.array [v])
  | elementCons (w1 t w2 r : List Char) (v : Json) (vs : List Json) (h1 : IsWs w1)
      (h : Derives .value t v) (h2 : IsWs w2) (hr : Derives .elements r (Json.array vs)) :
      Derives .elements (w1 ++ (t ++ (w2 ++ comma :: r))) (Json.array (v :: vs))
  | member (w1 kt ks w2 w3 t w4 : List Char) (v : Json) (h1 : IsWs w1) (hk : JChars kt ks)
      (h2 : IsWs w2) (h3 : IsWs w3) (h : Derives .value t v) (h4 : IsWs w4) :
      Derives .members
        (w1 ++ (dquote :: (kt ++ dquote :: (w2 ++ colon :: (w3 ++ (t ++ w4))))))
        (Json.object [(String.mk ks, v)])
  | memberCons (w1 kt ks w2 w3 t w4 r : List Char) (v : Json) (kvs : List (String × Json))
      (h1 : IsWs w1) (hk : JChars kt ks) (h2 : IsWs w2) (h3 : IsWs w3)
      (h : Derives .value t v) (h4 : IsWs w4) (hr : Derives .members r (Json.object kvs)) :
      Derives .members
        (w1 ++ (dquote :: (kt ++ dquote :: (w2 ++ colon :: (w3 ++ (t ++ (w4 ++ comma :: r)))))))
        (Json.object ((String.mk ks, v) :: kvs))

/-- The start symbol `json = ws value ws`: `text` is a well-formed JSON
document that denotes `v`. -/
def JsonText (text : List Char) (v : Json) : Prop :=
  ∃ w1 t w2, IsWs w1 ∧ Derives .value t v ∧ IsWs w2 ∧ text = w1 ++ (t ++ w2)

/-- A text is well-formed JSON when it denotes some value. -/
def WellFormedJson (text : List Char) : Prop := ∃ v, JsonText text v

/-! ### A scanner that every well-formed JSON text passes -/

/-- Where a scan stands: outside of any string, inside a string, or right
after a backslash inside a string. -/
inductive ScanState where
  | outside
  | inside
  | escaped
  deriving DecidableEq, Repr

/-- A character that can occur outside of strings: whitespace, brackets,
braces, colon, comma, and the characters of numbers and of the three
literals. -/
def allowedOutside (c : Char) : Bool :=
  wsChar c || c == lbracket || c == rbracket || c == lbrace || c == rbrace
    || c == colon || c == comma || c.isDigit
    || c == '-' || c == '+' || c == '.' || c == 'e' || c == 'E'
    || c == 't' || c == 'r' || c == 'u' || c == 'f' || c == 'a' || c == 'l'
    || c == 's' || c == 'n'

/-- One step of the scan; `none` rejects the text. -/
def scanStep (st : ScanState) (c : Char) : Option ScanState :=
  match st with
  | .outside =>
    if c == dquote then some .inside
    else if allowedOutside c then some .outside
    else none
  | .inside =>
    if c == dquote then some .outside
    else if c == backslash then some .escaped
    else some .inside
  | .escaped => some .inside

/-- The scan of a text from a state. -/
def scan (st : ScanState) (cs : List Char) : Option ScanState :=
  cs.foldlM scanStep st

/-! ### The dump as key-value lists -/

/-- The text `"key":"value"`. -/
def renderField (kv : String × String) : String :=
  "\"" ++ kv.1 ++ "\":\"" ++ kv.2 ++ "\""

/-- Texts joined by commas. -/
def joinFields : List String → String
  | [] => ""
  | [x] => x
  | x :: y :: rest => x ++ "," ++ joinFields (y :: rest)

/-- The text of an object whose values are all strings. -/
def renderObject (fields : List (String × String)) : String :=
  "\x7b" ++ joinFields (fields.map renderField) ++ "\x7d"

/-- The keys and values of the object written for a node: `id`, `op`, `bw`,
then `tensor`, `index` and `reduction`, each only when its value is not
empty. -/
def nodeFields (N : Node) : List (String × String) :=
  [("id", "n" ++ toString N.id), ("op", N.op), ("bw", N.bw)]
    ++ (if N.tensor = "" then [] else [("tensor", N.tensor)])
    ++ (if N.index = "" then [] else [("index", N.index)])
    ++ (if N.redVar = "" then [] else [("reduction", N.redVar)])

/-- The keys and values of the object written for an edge. -/
def edgeFields (E : Edge) : List (String × String) :=
  [("src", "n" ++ toString E.src), ("dst", "n" ++ toString E.dst), ("type", E.type)]

/-- Concatenation of a list of texts, in list order. -/
def concatStrings : List String → String
  | [] => ""
  | s :: rest => s ++ concatStrings rest

/-- The JSON value of a loop record. -/
def loopJson (Lr : LoopRec) : Json :=
  Json.object [("name", Json.string Lr.name), ("lb", Json.string Lr.lb),
    ("ub", Json.string Lr.ub), ("step", Json.string Lr.step),
    ("innermost", Json.bool Lr.innermost)]

/-- The JSON value of an object whose values are all strings. -/
def fieldsJson (fields : List (String × String)) : Json :=
  Json.object (fields.map (fun kv => (kv.1, Json.string kv.2)))

/-- The JSON value that the dump is meant to denote. -/
def dumpJson (kernel : String) (loops : List LoopRec) (nodes : List Node)
    (edges : List Edge) : Json :=
  Json.object
    [("kernel", Json.string kernel),
     ("loops", Json.array (loops.map loopJson)),
     ("dfg", Json.object
        [("nodes", Json.array (nodes.map (fun N => fieldsJson (nodeFields N)))),
         ("edges", Json.array (edges.map (fun E => fieldsJson (edgeFields E))))])]

/-! ## Relabelling of object identities -/

/-- A renaming of the addresses of instructions, arguments, basic blocks and
loops. -/
structure Relabel where
  inst : Nat → Nat
  arg : Nat → Nat
  block : Nat → Nat
  loop : Nat → Nat

/-- The operand `v` with every address renamed. -/
def Value.relabel (r : Relabel) : Value → Value
  | .inst h => .inst (r.inst h)
  | .arg h => .arg (r.arg h)
  | .global name => .global name
  | .constBitCast src => .constBitCast (src.relabel r)
  | .constGEP ptr idx => .constGEP (ptr.relabel r) idx
  | .const text => .const text
  | .block h => .block (r.block h)

/-- The operands of an instruction class renamed, in the same order. -/
def InstKind.relabel (r : Relabel) : InstKind → InstKind
  | .binary op lhs rhs => .binary op (lhs.relabel r) (rhs.relabel r)
  | .phi incoming => .phi (incoming.map (fun vb => (vb.1.relabel r, r.block vb.2)))
  | .load ptr => .load (ptr.relabel r)
  | .store val ptr => .store (val.relabel r) (ptr.relabel r)
  | .gep ptr idx => .gep (ptr.relabel r) (idx.map (Value.relabel r))
  | .bitcast src => .bitcast (src.relabel r)
  | .other op ops => .other op (ops.map (Value.relabel r))

/-- The same instruction at a renamed address, with renamed operands. -/
def Instruction.relabel (r : Relabel) (I : Instruction) : Instruction :=
  { handle := r.inst I.handle, type := I.type, kind := I.kind.relabel r }

/-- The same argument at a renamed address. -/
def Argument.relabel (r : Relabel) (a : Argument) : Argument :=
  { handle := r.arg a.handle, name := a.name, type := a.type }

/-- The same block at a renamed address, its instructions in the same order. -/
def BasicBlock.relabel (r : Relabel) (BB : BasicBlock) : BasicBlock :=
  { handle := r.block BB.handle, name := BB.name
    insts := BB.insts.map (Instruction.relabel r) }

/-- The same function with every address renamed; argument order, block order,
instruction order and operand order are kept. -/
def Function.relabel (r : Relabel) (F : Function) : Function :=
  { name := F.name
    args := F.args.map (Argument.relabel r)
    blocks := F.blocks.map (BasicBlock.relabel r) }

mutual
/-- The same loop at a renamed address, over the renamed blocks, with the
renamed induction variable and the renamed sub-loops in the same order. -/
def Loop.relabel (r : Relabel) : Loop → Loop
  | .mk h hd bs iv subs =>
    .mk (r.loop h) hd (bs.map r.block) (iv.map r.inst) (Loop.relabelList r subs)
/-- The loops of a list renamed, in the same order. -/
def Loop.relabelList (r : Relabel) : List Loop → List Loop
  | [] => []
  | L :: Ls => Loop.relabel r L :: Loop.relabelList r Ls
end

/-- The analyses `LI2` and `SE2` give for the renamed objects the answers that
`LI` and `SE` give for the original ones. -/
structure SameAnswers (r : Relabel) (LI : LoopInfo) (SE : ScalarEvolution) (LI2 : LoopInfo)
    (SE2 : ScalarEvolution) : Prop where
  topLevel : LI2.getTopLevelLoops = Loop.relabelList r LI.getTopLevelLoops
  loopFor : ∀ b, LI2.getLoopFor (r.block b) = (LI.getLoopFor b).map (Loop.relabel r)
  scev : ∀ v, SE2.getSCEV (v.relabel r) = SE.getSCEV v
  backedge : ∀ L, SE2.getBackedgeTakenCount (Loop.relabel r L) = SE.getBackedgeTakenCount L

/-- The state of the node pass with the keys of `idOf` renamed. -/
def BuildState.relabel (r : Relabel) (st : BuildState) : BuildState :=
  { idOf := st.idOf.map (fun p => (r.inst p.1, p.2)), nodes := st.nodes, nextId := st.nextId }

/-! ## A relabelling of the GEMM kernel -/

/-- Every address moved: instructions by 1000, arguments by 50, blocks by 500
and loops by 7. -/
def shiftLabels : Relabel :=
  { inst := fun h => h + 1000
    arg := fun h => h + 50
    block := fun h => h + 500
    loop := fun h => h + 7 }

/-- The loop structure of the GEMM kernel at the addresses of `shiftLabels`. -/
def shiftedLI : LoopInfo :=
  { getTopLevelLoops := Loop.relabelList shiftLabels Gemm.gemmLI.getTopLevelLoops
    getLoopFor := fun b => (Gemm.gemmLI.getLoopFor (b - 500)).map (Loop.relabel shiftLabels) }

/-! ## General lemmas -/

theorem foldlM_flatMap_option {α β γ : Type} (f : α → List β) (g : γ → β → Option γ) :
    ∀ (xs : List α) (s : γ),
      (xs.flatMap f).foldlM g s = xs.foldlM (fun s x => (f x).foldlM g s) s := by
  intro xs
  induction xs with
  | nil => intro s; rfl
  | cons x xs ih =>
    intro s
    simp only [List.flatMap_cons, List.foldlM_append, List.foldlM_cons]
    cases h : (f x).foldlM g s with
    | none => rfl
    | some s1 => simp [ih]

theorem foldl_flatMap_eq {α β γ : Type} (f : α → List β) (g : γ → β → γ) :
    ∀ (xs : List α) (s : γ),
      (xs.flatMap f).foldl g s = xs.foldl (fun s x => (f x).foldl g s) s := by
  intro xs
  induction xs with
  | nil => intro s; rfl
  | cons x xs ih => intro s; simp [List.flatMap_cons, List.foldl_append, ih]

theorem modify_append_length {α : Type} (f : α → α) (l : List α) (a : α) :
    (l ++ [a]).modify f l.length = l ++ [f a] := by
  induction l with
  | nil => rfl
  | cons x xs ih => simp [ih]

/-! ## The node pass -/

theorem nodePass_eq_foldlM (F : Function) (SE : ScalarEvolution) (tmap : PtrMap String)
    (fuel : Nat) :
    nodePass F SE tmap fuel
      = F.insts.foldlM (nodeStep F SE tmap fuel) { idOf := [], nodes := [], nextId := 0 } := by
  unfold nodePass Function.insts
  rw [foldlM_flatMap_option]

theorem nodeStep_skip (F : Function) (SE : ScalarEvolution) (tmap : PtrMap String)
    (fuel : Nat) (st : BuildState) (I : Instruction)
    (h : I.getOpcode.interesting = false) :
    nodeStep F SE tmap fuel st I = some st := by
  simp [nodeStep, h]

theorem addrOperand_none_of_not_interesting (I : Instruction)
    (h : I.getOpcode.interesting = false) : I.addrOperand = none := by
  unfold Instruction.addrOperand
  unfold Instruction.getOpcode at h
  cases hk : I.kind <;> simp_all [Opcode.interesting]

theorem nodeStep_fresh (F : Function) (SE : ScalarEvolution) (tmap : PtrMap String)
    (fuel : Nat) (st : BuildState) (I : Instruction)
    (hint : I.getOpcode.interesting = true)
    (hnew : st.idOf.lookup I.handle = none)
    (hid : st.nextId = st.nodes.length)
    (hfuel : ∀ ptr, I.addrOperand = some ptr → (traceBasePtr F fuel ptr).isSome = true) :
    nodeStep F SE tmap fuel st I
      = some { idOf := (I.handle, st.nodes.length) :: st.idOf
               nodes := st.nodes ++ [specNode F SE tmap fuel st.nodes.length I]
               nextId := (st.nodes.length + 1) % UNSIGNED_MOD } := by
  unfold nodeStep
  simp only [hint, if_true, addNode, hnew, hid]
  cases hk : I.kind with
  | load ptr =>
    have hp : I.addrOperand = some ptr := by simp [Instruction.addrOperand, hk]
    have hs := hfuel ptr hp
    obtain ⟨base, hb⟩ := Option.isSome_iff_exists.mp hs
    simp [hb, annotate, modify_append_length, specNode, hp, bwOf]
  | store val ptr =>
    have hp : I.addrOperand = some ptr := by simp [Instruction.addrOperand, hk]
    have hs := hfuel ptr hp
    obtain ⟨base, hb⟩ := Option.isSome_iff_exists.mp hs
    simp [hb, annotate, modify_append_length, specNode, hp, bwOf]
  | binary op l r => simp [specNode, Instruction.addrOperand, hk, bwOf]
  | phi inc => simp [specNode, Instruction.addrOperand, hk, bwOf]
  | gep p idx => simp [specNode, Instruction.addrOperand, hk, bwOf]
  | bitcast s => simp [specNode, Instruction.addrOperand, hk, bwOf]
  | other op ops => simp [specNode, Instruction.addrOperand, hk, bwOf]

/-- The state the node pass reaches from `st` over the instructions `is`. -/
theorem foldlM_nodeStep (F : Function) (SE : ScalarEvolution) (tmap : PtrMap String)
    (fuel : Nat) :
    ∀ (is : List Instruction) (st : BuildState),
      st.nextId = st.nodes.length % UNSIGNED_MOD →
      st.nodes.length + (is.filter (fun I => I.getOpcode.interesting)).length ≤ UNSIGNED_MOD →
      (∀ I ∈ is, st.idOf.lookup I.handle = none) →
      (is.map Instruction.handle).Nodup →
      (∀ I ∈ is, ∀ ptr, I.addrOperand = some ptr → (traceBasePtr F fuel ptr).isSome = true) →
      is.foldlM (nodeStep F SE tmap fuel) st
        = some
          { idOf := (((is.filter (fun I => I.getOpcode.interesting)).enumFrom
                        st.nodes.length).map (fun p => (p.2.handle, p.1))).reverse ++ st.idOf
            nodes := st.nodes ++
              ((is.filter (fun I => I.getOpcode.interesting)).enumFrom st.nodes.length).map
                (fun p => specNode F SE tmap fuel p.1 p.2)
            nextId := (st.nodes.length
              + (is.filter (fun I => I.getOpcode.interesting)).length) % UNSIGNED_MOD } := by
  intro is
  induction is with
  | nil =>
    intro st hid _ _ _ _
    cases st
    simp_all
  | cons I rest ih =>
    intro st hid hlen hnew hnd hfuel
    rw [List.foldlM_cons]
    have hndr : (rest.map Instruction.handle).Nodup := (List.nodup_cons.mp hnd).2
    have hnotin : I.handle ∉ rest.map Instruction.handle := (List.nodup_cons.mp hnd).1
    have hfuelr : ∀ J ∈ rest, ∀ ptr, J.addrOperand = some ptr →
        (traceBasePtr F fuel ptr).isSome = true :=
      fun J hJ => hfuel J (List.mem_cons_of_mem _ hJ)
    cases hint : I.getOpcode.interesting with
    | false =>
      rw [nodeStep_skip F SE tmap fuel st I hint]
      simp only [hint, List.filter_cons, Bool.false_eq_true, if_false] at hlen ⊢
      exact ih st hid hlen (fun J hJ => hnew J (List.mem_cons_of_mem _ hJ)) hndr hfuelr
    | true =>
      simp only [hint, List.filter_cons, if_true, List.length_cons] at hlen ⊢
      have hlt : st.nodes.length < UNSIGNED_MOD := by omega
      have hid2 : st.nextId = st.nodes.length := by rw [hid, Nat.mod_eq_of_lt hlt]
      rw [nodeStep_fresh F SE tmap fuel st I hint (hnew I (List.mem_cons_self _ _)) hid2
        (hfuel I (List.mem_cons_self _ _))]
      simp only [Option.bind_eq_bind, Option.some_bind]
      rw [ih]
      · simp [List.enumFrom_cons, Nat.add_assoc, Nat.add_comm 1]
      · simp
      · simp only [List.length_append, List.length_singleton]; omega
      · intro J hJ
        have hne : J.handle ≠ I.handle := by
          intro he
          exact hnotin (he ▸ List.mem_map_of_mem _ hJ)
        simp only [List.lookup_cons]
        have : (J.handle == I.handle) = false := by simpa using hne
        rw [this]
        exact hnew J (List.mem_cons_of_mem _ hJ)
      · exact hndr
      · exact hfuelr

theorem mem_modeledOpcodes_iff (op : Opcode) :
    op ∈ modeledOpcodes ↔ op.interesting = true := by
  cases op <;> simp [modeledOpcodes, Opcode.interesting]

theorem nodePass_eq_spec (F : Function) (SE : ScalarEvolution) (fuel : Nat)
    (hwf : F.WellFormed) (hfuel : traceFuelEnough F fuel = true) :
    nodePass F SE (tensorOfArg F.args) fuel
      = some { idOf := specIdOf F, nodes := specNodes F SE fuel,
               nextId := F.modeled.length % UNSIGNED_MOD } := by
  rw [nodePass_eq_foldlM, foldlM_nodeStep F SE (tensorOfArg F.args) fuel F.insts _ rfl]
  · simp [specIdOf, specNodes, Function.modeled]
  · simpa [Function.modeled] using hwf.2
  · intro I _; rfl
  · exact hwf.1
  · intro I hI ptr hp
    have h := List.all_eq_true.mp hfuel I hI
    simpa [hp] using h

/-! ## The loop walker -/

theorem Loop.sizeList_append (xs ys : List Loop) :
    Loop.sizeList (xs ++ ys) = Loop.sizeList xs + Loop.sizeList ys := by
  induction xs with
  | nil => simp [Loop.sizeList]
  | cons x xs ih => simp [Loop.sizeList, ih, Nat.add_assoc]

theorem Loop.visitOrderStack_append (xs ys : List Loop) :
    Loop.visitOrderStack (xs ++ ys) = Loop.visitOrderStack ys ++ Loop.visitOrderStack xs := by
  induction xs with
  | nil => simp [Loop.visitOrderStack]
  | cons x xs ih => simp [Loop.visitOrderStack, ih]

theorem Loop.size_eq (L : Loop) : Loop.size L = 1 + Loop.sizeList L.subLoops := by
  cases L; simp [Loop.size, Loop.subLoops]

theorem Loop.visitOrder_eq (L : Loop) :
    Loop.visitOrder L = L :: Loop.visitOrderStack L.subLoops := by
  cases L; simp [Loop.visitOrder, Loop.subLoops]

theorem Loop.subtree_eq (L : Loop) : Loop.subtree L = L :: Loop.subtreeList L.subLoops := by
  cases L; simp [Loop.subtree, Loop.subLoops]

/-- The walk of a stack finishes when the fuel covers the loops reachable from
it, and visits them in the order `Loop.visitOrderStack`. -/
theorem walkStack_eq (SE : ScalarEvolution) :
    ∀ (fuel : Nat) (stk : List Loop) (st : WalkState),
      Loop.sizeList stk ≤ fuel →
      walkStack SE fuel stk st
        = some { loops := st.loops ++ (Loop.visitOrderStack stk).map (loopRec SE)
                 loopSet := (Loop.visitOrderStack stk).foldl
                   (fun s L => setInsert s L.handle) st.loopSet } := by
  intro fuel
  induction fuel with
  | zero =>
    intro stk st h
    cases stk with
    | nil => cases st; simp [walkStack, Loop.visitOrderStack]
    | cons L Ls =>
      exfalso
      simp only [Loop.sizeList, Loop.size_eq] at h
      omega
  | succ fuel ih =>
    intro stk st h
    rcases List.eq_nil_or_concat stk with hnil | ⟨init, L, hcat⟩
    · subst hnil; cases st; simp [walkStack, Loop.visitOrderStack]
    · rw [List.concat_eq_append] at hcat
      subst hcat
      have hlast : (init ++ [L]).getLast? = some L := by simp
      have hdrop : (init ++ [L]).dropLast = init := by simp
      simp only [walkStack, hlast, hdrop]
      rw [ih]
      · simp [Loop.visitOrderStack_append, Loop.visitOrderStack, Loop.visitOrder_eq]
      · simp only [Loop.sizeList_append, Loop.sizeList, Loop.size_eq] at h ⊢
        omega

theorem collectLoops_fold (SE : ScalarEvolution) (fuel : Nat) :
    ∀ (tops : List Loop) (st : WalkState),
      (∀ T ∈ tops, Loop.size T ≤ fuel) →
      tops.foldlM (collectLoopTree SE fuel) st
        = some { loops := st.loops ++ (tops.flatMap Loop.visitOrder).map (loopRec SE)
                 loopSet := (tops.flatMap Loop.visitOrder).foldl
                   (fun s L => setInsert s L.handle) st.loopSet } := by
  intro tops
  induction tops with
  | nil => intro st _; cases st; simp
  | cons T Ts ih =>
    intro st h
    rw [List.foldlM_cons]
    have hT : collectLoopTree SE fuel st T = walkStack SE fuel [T] st := rfl
    rw [hT, walkStack_eq SE fuel [T] st (by
      simpa [Loop.sizeList] using h T (List.mem_cons_self _ _))]
    simp only [Option.bind_eq_bind, Option.some_bind]
    rw [ih _ (fun T2 h2 => h T2 (List.mem_cons_of_mem _ h2))]
    simp [Loop.visitOrderStack]

theorem collectLoops_eq (SE : ScalarEvolution) (fuel : Nat) (tops : List Loop)
    (h : ∀ T ∈ tops, Loop.size T ≤ fuel) :
    collectLoops SE fuel tops
      = some { loops := (tops.flatMap Loop.visitOrder).map (loopRec SE)
               loopSet := (tops.flatMap Loop.visitOrder).foldl
                 (fun s L => setInsert s L.handle) [] } := by
  unfold collectLoops
  rw [collectLoops_fold SE fuel tops _ h]
  simp

/-! ## Association lists with distinct keys -/

theorem lookup_eq_some_of_mem {β : Type} :
    ∀ (l : List (Nat × β)) (k : Nat) (v : β),
      (l.map Prod.fst).Nodup → (k, v) ∈ l → l.lookup k = some v := by
  intro l
  induction l with
  | nil => intro k v _ h; cases h
  | cons p l ih =>
    intro k v hnd hmem
    obtain ⟨a, b⟩ := p
    simp only [List.map_cons, List.nodup_cons] at hnd
    rw [List.lookup_cons]
    rcases List.mem_cons.mp hmem with heq | hin
    · cases heq; simp
    · have hne : k ≠ a := by
        intro he
        subst he
        exact hnd.1 (List.mem_map_of_mem Prod.fst hin)
      have hb : (k == a) = false := by simpa using hne
      rw [hb]
      exact ih k v hnd.2 hin

theorem mem_of_lookup_eq_some {β : Type} :
    ∀ (l : List (Nat × β)) (k : Nat) (v : β), l.lookup k = some v → (k, v) ∈ l := by
  intro l
  induction l with
  | nil => intro k v h; cases h
  | cons p l ih =>
    intro k v h
    obtain ⟨a, b⟩ := p
    rw [List.lookup_cons] at h
    cases hb : (k == a) with
    | true =>
      rw [hb] at h
      have hka : k = a := by simpa using hb
      cases h
      subst hka
      exact List.mem_cons_self _ _
    | false =>
      rw [hb] at h
      exact List.mem_cons_of_mem _ (ih k v h)

theorem lookup_eq_some_iff_mem {β : Type} (l : List (Nat × β)) (k : Nat) (v : β)
    (hnd : (l.map Prod.fst).Nodup) : l.lookup k = some v ↔ (k, v) ∈ l :=
  ⟨mem_of_lookup_eq_some l k v, lookup_eq_some_of_mem l k v hnd⟩

/-! ## The map `idOf` -/

theorem modeled_eq_filter (F : Function) :
    F.modeled = F.insts.filter (fun I => I.getOpcode.interesting) := rfl

theorem modeled_handles_nodup (F : Function) (hwf : F.WellFormed) :
    (F.modeled.map Instruction.handle).Nodup :=
  (hwf.1).sublist ((List.filter_sublist _).map _)

theorem specIdOf_keys (F : Function) :
    (specIdOf F).map Prod.fst = (F.modeled.map Instruction.handle).reverse := by
  unfold specIdOf
  rw [List.map_reverse, List.map_map]
  congr 1
  have h : ∀ (n : Nat) (l : List Instruction),
      List.map (Prod.fst ∘ fun p : Nat × Instruction => (p.2.handle, p.1)) (l.enumFrom n)
        = l.map Instruction.handle := by
    intro n l
    induction l generalizing n with
    | nil => rfl
    | cons x xs ih => simp [List.enumFrom_cons, ih]
  exact h 0 _

theorem mem_specIdOf (F : Function) (h k : Nat) :
    (h, k) ∈ specIdOf F ↔ ∃ I, F.modeled[k]? = some I ∧ I.handle = h := by
  unfold specIdOf
  simp only [List.mem_reverse, List.mem_map, Prod.mk.injEq, Prod.exists]
  constructor
  · rintro ⟨i, I, hmem, hh, hk⟩
    subst hk
    exact ⟨I, (List.mk_mem_enumFrom_iff_le_and_getElem?_sub.mp hmem).2, hh⟩
  · rintro ⟨I, hI, hh⟩
    exact ⟨k, I, List.mk_mem_enumFrom_iff_le_and_getElem?_sub.mpr ⟨Nat.zero_le _, hI⟩, hh, rfl⟩

/-- The id of a handle is the position of its instruction among the modeled
instructions. -/
theorem lookup_specIdOf (F : Function) (hwf : F.WellFormed) (h k : Nat) :
    (specIdOf F).lookup h = some k ↔ ∃ I, F.modeled[k]? = some I ∧ I.handle = h := by
  rw [lookup_eq_some_iff_mem _ _ _ (by
    rw [specIdOf_keys]; exact List.nodup_reverse.mpr (modeled_handles_nodup F hwf))]
  exact mem_specIdOf F h k

theorem getElem?_inj_of_handles_nodup (l : List Instruction)
    (hnd : (l.map Instruction.handle).Nodup) (i j : Nat) (I J : Instruction)
    (hi : l[i]? = some I) (hj : l[j]? = some J) (hh : I.handle = J.handle) : i = j := by
  have hi2 : (l.map Instruction.handle)[i]? = some I.handle := by simp [hi]
  have hj2 : (l.map Instruction.handle)[j]? = some I.handle := by simp [hj, hh]
  have hil : i < (l.map Instruction.handle).length := by
    rcases Nat.lt_or_ge i (l.map Instruction.handle).length with h | h
    · exact h
    · rw [List.getElem?_eq_none h] at hi2; cases hi2
  have hjl : j < (l.map Instruction.handle).length := by
    rcases Nat.lt_or_ge j (l.map Instruction.handle).length with h | h
    · exact h
    · rw [List.getElem?_eq_none h] at hj2; cases hj2
  rw [List.getElem?_eq_getElem hil] at hi2
  rw [List.getElem?_eq_getElem hjl] at hj2
  exact (List.Nodup.getElem_inj_iff hnd).mp (by
    rw [Option.some.inj hi2, Option.some.inj hj2])

theorem specNodes_length (F : Function) (SE : ScalarEvolution) (fuel : Nat) :
    (specNodes F SE fuel).length = F.modeled.length := by
  simp [specNodes]

theorem specNodes_getElem? (F : Function) (SE : ScalarEvolution) (fuel : Nat) (k : Nat) :
    (specNodes F SE fuel)[k]?
      = (F.modeled[k]?).map (fun I => specNode F SE (tensorOfArg F.args) fuel k I) := by
  unfold specNodes
  rw [List.getElem?_map, List.getElem?_enumFrom]
  cases F.modeled[k]? <;> simp

/-! ## The reduction detection as a sequence of assignments -/

theorem applyEvents_append (nodes : List Node) (e1 e2 : List (Nat × String)) :
    applyEvents nodes (e1 ++ e2) = applyEvents (applyEvents nodes e1) e2 := by
  simp [applyEvents, List.foldl_append]

theorem tagUser_eq (L : Loop) (idOf : PtrMap Nat) (phi : Instruction) (nodes : List Node)
    (U : Instruction) :
    tagUser L idOf phi nodes U = applyEvents nodes (userEvent L idOf phi U) := by
  unfold tagUser userEvent
  cases U.kind with
  | binary op lhs rhs =>
    simp only
    split
    · rfl
    · split
      · rfl
      · split
        · rfl
        · cases idOf.lookup phi.handle <;> rfl
  | _ => rfl

theorem foldl_applyEvents {α : Type} (f : List Node → α → List Node)
    (g : α → List (Nat × String)) (hfg : ∀ ns x, f ns x = applyEvents ns (g x)) :
    ∀ (xs : List α) (ns : List Node), xs.foldl f ns = applyEvents ns (xs.flatMap g) := by
  intro xs
  induction xs with
  | nil => intro ns; rfl
  | cons x xs ih =>
    intro ns
    rw [List.foldl_cons, ih, hfg, List.flatMap_cons, applyEvents_append]

theorem tagInst_eq (users : Nat → List Instruction) (L : Loop) (idOf : PtrMap Nat)
    (nodes : List Node) (I : Instruction) :
    tagInst users L idOf nodes I = applyEvents nodes (instEvents users L idOf I) := by
  unfold tagInst instEvents
  cases I.kind with
  | phi inc => exact foldl_applyEvents _ _ (tagUser_eq L idOf I) _ _
  | _ => rfl

theorem tagBlock_eq (users : Nat → List Instruction) (LI : LoopInfo) (idOf : PtrMap Nat)
    (nodes : List Node) (BB : BasicBlock) :
    tagBlock users LI idOf nodes BB = applyEvents nodes (blockEvents users LI idOf BB) := by
  unfold tagBlock blockEvents
  cases LI.getLoopFor BB.handle with
  | none => rfl
  | some L =>
    simp only
    split
    · rfl
    · exact foldl_applyEvents _ _ (tagInst_eq users L idOf) _ _

/-- The reduction detection replays the assignments `tagEvents`. -/
theorem reductionPass_eq (users : Nat → List Instruction) (F : Function) (LI : LoopInfo)
    (idOf : PtrMap Nat) (nodes : List Node) :
    reductionPass users F LI idOf nodes = applyEvents nodes (tagEvents users F LI idOf) :=
  foldl_applyEvents _ _ (tagBlock_eq users LI idOf) _ _

/-- After a replay, a node differs from the original at most in `redVar`,
which holds the name of the last assignment to its index. -/
theorem applyEvents_getElem? (events : List (Nat × String)) :
    ∀ (nodes : List Node) (j : Nat),
      (applyEvents nodes events)[j]?
        = (nodes[j]?).map (fun n =>
            match events.reverse.lookup j with
            | some r => { n with redVar := r }
            | none => n) := by
  induction events using List.reverseRecOn with
  | nil =>
    intro nodes j
    cases h : nodes[j]? <;> simp [applyEvents, h]
  | append_singleton es e ih =>
    intro nodes j
    obtain ⟨i, r⟩ := e
    rw [applyEvents_append]
    have h1 : applyEvents (applyEvents nodes es) [(i, r)]
        = setRedVar (applyEvents nodes es) i r := rfl
    rw [h1, setRedVar, List.getElem?_modify, ih]
    simp only [List.reverse_append, List.reverse_cons, List.reverse_nil, List.nil_append,
      List.singleton_append, List.lookup_cons]
    by_cases hij : i = j
    · subst hij
      cases hn : nodes[i]? with
      | none => simp
      | some n => cases hl : List.lookup i es.reverse <;> simp
    · have hb : (j == i) = false := by simpa using fun h => hij h.symm
      simp [hij, hb]

theorem applyEvents_length (events : List (Nat × String)) :
    ∀ (nodes : List Node), (applyEvents nodes events).length = nodes.length := by
  induction events with
  | nil => intro nodes; rfl
  | cons e es ih =>
    intro nodes
    have h : applyEvents nodes (e :: es) = applyEvents (setRedVar nodes e.1 e.2) es := rfl
    rw [h, ih]
    simp [setRedVar]

/-! ## The analysis in closed form -/

theorem fuelEnough_loops (F : Function) (LI : LoopInfo) (fuel : Nat)
    (h : fuelEnough F LI fuel = true) : ∀ T ∈ LI.getTopLevelLoops, Loop.size T ≤ fuel := by
  intro T hT
  have h2 : loopFuelEnough LI fuel = true := by
    unfold fuelEnough at h
    exact (Bool.and_eq_true _ _ ▸ h).2
  simpa using List.all_eq_true.mp h2 T hT

theorem fuelEnough_trace (F : Function) (LI : LoopInfo) (fuel : Nat)
    (h : fuelEnough F LI fuel = true) : traceFuelEnough F fuel = true := by
  unfold fuelEnough at h
  exact (Bool.and_eq_true _ _ ▸ h).1

/-- With enough fuel the analysis of a well-formed function returns, and this
is what it returns. -/
theorem analyzeWith_eq (users : Nat → List Instruction) (F : Function) (LI : LoopInfo)
    (SE : ScalarEvolution) (fuel : Nat) (hwf : F.WellFormed)
    (hfuel : fuelEnough F LI fuel = true) :
    analyzeWith users F LI SE fuel
      = some
          { tensorOfArg := tensorOfArg F.args
            loops := (LI.getTopLevelLoops.flatMap Loop.visitOrder).map (loopRec SE)
            loopSet := (LI.getTopLevelLoops.flatMap Loop.visitOrder).foldl
              (fun s L => setInsert s L.handle) []
            idOf := specIdOf F
            nodes := applyEvents (specNodes F SE fuel) (tagEvents users F LI (specIdOf F))
            edges := edgePass F (specIdOf F) } := by
  unfold analyzeWith
  simp only [collectLoops_eq SE fuel _ (fuelEnough_loops F LI fuel hfuel),
    nodePass_eq_spec F SE fuel hwf (fuelEnough_trace F LI fuel hfuel), reductionPass_eq]

theorem specNode_id (F : Function) (SE : ScalarEvolution) (tmap : PtrMap String) (fuel k : Nat)
    (I : Instruction) : (specNode F SE tmap fuel k I).id = k := by
  unfold specNode
  cases I.addrOperand <;> rfl

theorem specNode_redVar (F : Function) (SE : ScalarEvolution) (tmap : PtrMap String)
    (fuel k : Nat) (I : Instruction) : (specNode F SE tmap fuel k I).redVar = "" := by
  unfold specNode
  cases I.addrOperand <;> rfl

/-- The node at index `k` after the reduction detection. -/
theorem taggedNodes_getElem? (users : Nat → List Instruction) (F : Function) (LI : LoopInfo)
    (SE : ScalarEvolution) (fuel k : Nat) :
    (applyEvents (specNodes F SE fuel) (tagEvents users F LI (specIdOf F)))[k]?
      = (F.modeled[k]?).map (fun I =>
          match (tagEvents users F LI (specIdOf F)).reverse.lookup k with
          | some r => { specNode F SE (tensorOfArg F.args) fuel k I with redVar := r }
          | none => specNode F SE (tensorOfArg F.args) fuel k I) := by
  rw [applyEvents_getElem?, specNodes_getElem?]
  cases F.modeled[k]? <;> rfl

theorem filter_modeledOpcodes (F : Function) :
    F.insts.filter (fun I => decide (I.getOpcode ∈ modeledOpcodes)) = F.modeled := by
  unfold Function.modeled
  apply List.filter_congr
  intro I _
  cases h : I.getOpcode.interesting with
  | true => exact decide_eq_true ((mem_modeledOpcodes_iff _).mpr h)
  | false =>
    apply decide_eq_false
    intro hm
    rw [(mem_modeledOpcodes_iff _).mp hm] at h
    cases h

theorem modeled_split (pre : List Instruction) (x : Instruction) (post : List Instruction)
    (hx : x.getOpcode.interesting = true) :
    ((pre ++ x :: post).filter (fun I => I.getOpcode.interesting))[
        (pre.filter (fun I => I.getOpcode.interesting)).length]? = some x := by
  rw [List.filter_append, List.filter_cons, if_pos hx,
    List.getElem?_append_right (Nat.le_refl _)]
  simp

/-- The id of a modeled instruction is the number of modeled instructions
before it. -/
theorem lookup_specIdOf_split (F : Function) (hwf : F.WellFormed) (pre : List Instruction)
    (x : Instruction) (post : List Instruction) (hF : F.insts = pre ++ x :: post)
    (hx : x.getOpcode.interesting = true) :
    (specIdOf F).lookup x.handle
      = some (pre.filter (fun I => I.getOpcode.interesting)).length := by
  rw [lookup_specIdOf F hwf]
  refine ⟨x, ?_, rfl⟩
  rw [modeled_eq_filter, hF]
  exact modeled_split pre x post hx

theorem traceFuelEnough_isSome (F : Function) (fuel : Nat)
    (h : traceFuelEnough F fuel = true) (I : Instruction) (hI : I ∈ F.insts) (ptr : Value)
    (hp : I.addrOperand = some ptr) : ∃ base, traceBasePtr F fuel ptr = some base := by
  have h2 := List.all_eq_true.mp h I hI
  simp only [hp] at h2
  exact Option.isSome_iff_exists.mp h2

/-! ## The edge pass in closed form -/

theorem positionOf_some_getElem? (h : Nat) :
    ∀ (l : List Instruction) (k : Nat), positionOf h l = some k →
      ∃ I, l[k]? = some I ∧ I.handle = h := by
  intro l
  induction l with
  | nil => intro k hk; cases hk
  | cons J rest ih =>
    intro k hk
    unfold positionOf at hk
    by_cases hJ : J.handle = h
    · simp only [hJ, beq_self_eq_true, if_true] at hk
      cases hk
      exact ⟨J, by simp, hJ⟩
    · have hb : (J.handle == h) = false := by simpa using hJ
      simp only [hb, Bool.false_eq_true, if_false] at hk
      cases hp : positionOf h rest with
      | none => rw [hp] at hk; cases hk
      | some m =>
        rw [hp] at hk
        cases hk
        obtain ⟨I, hI, hh⟩ := ih m hp
        exact ⟨I, by simpa using hI, hh⟩

theorem positionOf_of_getElem? (h : Nat) :
    ∀ (l : List Instruction) (k : Nat) (I : Instruction),
      (l.map Instruction.handle).Nodup → l[k]? = some I → I.handle = h →
      positionOf h l = some k := by
  intro l
  induction l with
  | nil => intro k I _ hk; cases hk
  | cons J rest ih =>
    intro k I hnd hk hh
    simp only [List.map_cons, List.nodup_cons] at hnd
    unfold positionOf
    cases k with
    | zero =>
      simp only [List.getElem?_cons_zero] at hk
      cases hk
      simp [hh]
    | succ m =>
      simp only [List.getElem?_cons_succ] at hk
      have hne : J.handle ≠ h := by
        intro he
        apply hnd.1
        rw [he, ← hh]
        exact List.mem_map_of_mem _ (List.mem_iff_getElem?.mpr ⟨_, hk⟩)
      have hb : (J.handle == h) = false := by simpa using hne
      simp [hb, ih m I hnd.2 hk hh]

/-- The map `idOf` of the code agrees with the ids of the specification. -/
theorem lookup_specIdOf_eq_specId (F : Function) (hwf : F.WellFormed) (h : Nat) :
    (specIdOf F).lookup h = specId F h := by
  apply Option.ext
  intro k
  simp only [Option.mem_def]
  rw [lookup_specIdOf F hwf]
  constructor
  · rintro ⟨I, hI, hh⟩
    exact positionOf_of_getElem? h _ k I (modeled_handles_nodup F hwf) hI hh
  · exact positionOf_some_getElem? h _ k

theorem eq_of_mem_of_handle_eq (l : List Instruction)
    (hnd : (l.map Instruction.handle).Nodup) (I J : Instruction) (hI : I ∈ l) (hJ : J ∈ l)
    (hh : I.handle = J.handle) : I = J := by
  obtain ⟨i, hi⟩ := List.mem_iff_getElem?.mp hI
  obtain ⟨j, hj⟩ := List.mem_iff_getElem?.mp hJ
  have hij := getElem?_inj_of_handles_nodup l hnd i j I J hi hj hh
  subst hij
  rw [hi] at hj
  exact Option.some.inj hj

theorem specId_of_mem_modeled (F : Function) (hwf : F.WellFormed) (I : Instruction)
    (hI : I ∈ F.modeled) : ∃ k, specId F I.handle = some k ∧ F.modeled[k]? = some I := by
  obtain ⟨k, hk⟩ := List.mem_iff_getElem?.mp hI
  exact ⟨k, positionOf_of_getElem? _ _ k I (modeled_handles_nodup F hwf) hk rfl, hk⟩

theorem specId_none_of_not_interesting (F : Function) (hwf : F.WellFormed) (I : Instruction)
    (hI : I ∈ F.insts) (hint : I.getOpcode.interesting = false) :
    specId F I.handle = none := by
  cases hs : specId F I.handle with
  | none => rfl
  | some k =>
    exfalso
    obtain ⟨J, hJ, hh⟩ := positionOf_some_getElem? _ _ k hs
    have hJm : J ∈ F.modeled := List.mem_iff_getElem?.mpr ⟨_, hJ⟩
    have hJF : J ∈ F.insts := (List.mem_filter.mp hJm).1
    have hEq : J = I := eq_of_mem_of_handle_eq F.insts hwf.1 J I hJF hI hh
    have hJi : J.getOpcode.interesting = true := (List.mem_filter.mp hJm).2
    rw [hEq, hint] at hJi
    cases hJi

theorem foldl_edgeOperand (idOf : PtrMap Nat) (j : Nat) :
    ∀ (ops : List Value) (es : List Edge),
      ops.foldl (edgeOperand idOf j) es
        = es ++ ops.filterMap (fun v =>
            match v with
            | .inst d => (idOf.lookup d).map (fun i => { src := i, dst := j, type := "data" })
            | _ => none) := by
  intro ops
  induction ops with
  | nil => intro es; simp
  | cons v vs ih =>
    intro es
    rw [List.foldl_cons, ih]
    cases v with
    | inst d =>
      cases hd : idOf.lookup d with
      | none => simp [edgeOperand, hd, List.filterMap_cons]
      | some i => simp [edgeOperand, hd, List.filterMap_cons]
    | _ => simp [edgeOperand, List.filterMap_cons]

theorem edgeStep_eq (idOf : PtrMap Nat) (es : List Edge) (I : Instruction) :
    edgeStep idOf es I = es ++ edgeBlock idOf I := by
  unfold edgeStep edgeBlock
  cases idOf.lookup I.handle with
  | none => simp
  | some j => exact foldl_edgeOperand idOf j _ _

theorem edgePass_eq_flatMap (F : Function) (idOf : PtrMap Nat) :
    edgePass F idOf = F.insts.flatMap (edgeBlock idOf) := by
  unfold edgePass
  rw [← foldl_flatMap_eq BasicBlock.insts (edgeStep idOf) F.blocks []]
  have h : edgeStep idOf = fun acc a => acc ++ edgeBlock idOf a := by
    funext es I
    exact edgeStep_eq idOf es I
  rw [h]
  exact (List.flatMap_eq_foldl _ _).symm

theorem flatMap_filter_of_nil {α β : Type} (p : α → Bool) (g : α → List β) :
    ∀ (l : List α), (∀ x ∈ l, p x = false → g x = []) →
      l.flatMap g = (l.filter p).flatMap g := by
  intro l
  induction l with
  | nil => intro _; rfl
  | cons x xs ih =>
    intro h
    have ih2 := ih (fun y hy => h y (List.mem_cons_of_mem _ hy))
    cases hp : p x with
    | true => simp [List.filter_cons, hp, ih2]
    | false => simp [List.filter_cons, hp, ih2, h x (List.mem_cons_self _ _) hp]

theorem edgeBlock_specIdOf (F : Function) (hwf : F.WellFormed) (I : Instruction) :
    edgeBlock (specIdOf F) I = specEdgesOf F I := by
  unfold edgeBlock specEdgesOf
  simp only [lookup_specIdOf_eq_specId F hwf]

/-- The edge pass of the code yields the edge list of the specification. -/
theorem edgePass_eq_specEdges (F : Function) (hwf : F.WellFormed) :
    edgePass F (specIdOf F) = specEdges F := by
  rw [edgePass_eq_flatMap]
  unfold specEdges
  rw [modeled_eq_filter,
    ← flatMap_filter_of_nil (fun I => I.getOpcode.interesting) (specEdgesOf F) F.insts]
  · congr 1
    funext I
    exact edgeBlock_specIdOf F hwf I
  · intro I hI hint
    unfold specEdgesOf
    rw [specId_none_of_not_interesting F hwf I hI hint]

theorem specId_inj (F : Function) (d1 d2 i : Nat) (h1 : specId F d1 = some i)
    (h2 : specId F d2 = some i) : d1 = d2 := by
  obtain ⟨I1, hI1, hh1⟩ := positionOf_some_getElem? _ _ i h1
  obtain ⟨I2, hI2, hh2⟩ := positionOf_some_getElem? _ _ i h2
  rw [hI1] at hI2
  cases hI2
  rw [← hh1, ← hh2]

theorem count_specEdgesOf (F : Function) (X I : Instruction) (i j k : Nat)
    (hi : specId F X.handle = some i) (hk : specId F I.handle = some k) :
    (specEdgesOf F I).count { src := i, dst := j, type := "data" }
      = if k = j then I.operands.count (Value.inst X.handle) else 0 := by
  unfold specEdgesOf
  rw [hk]
  simp only [List.count_filterMap]
  by_cases hkj : k = j
  · subst hkj
    simp only [if_true, List.count]
    apply List.countP_congr
    intro v _
    cases v with
    | inst d =>
      cases hd : specId F d with
      | none =>
        simp only [hd, Option.map_none', beq_iff_eq]
        constructor
        · intro h; cases h
        · intro h
          cases h
          rw [hi] at hd
          cases hd
      | some m =>
        simp only [hd, Option.map_some', beq_iff_eq, Option.some.injEq, Edge.mk.injEq,
          and_true, Value.inst.injEq]
        constructor
        · intro hm
          subst hm
          exact specId_inj F d X.handle m hd hi
        · intro hdx
          subst hdx
          rw [hi] at hd
          exact (Option.some.inj hd).symm
    | _ => simp
  · simp only [hkj, if_false]
    rw [List.countP_eq_zero]
    intro v _
    cases v with
    | inst d =>
      cases hd : specId F d with
      | none => simp [hd]
      | some m => simp [hd, hkj]
    | _ => simp

theorem count_flatMap_specEdgesOf (F : Function) (hwf : F.WellFormed) (X Y : Instruction)
    (i j : Nat) (hi : specId F X.handle = some i) (hj : specId F Y.handle = some j)
    (hY : Y ∈ F.modeled) :
    ∀ (l : List Instruction), (∀ I ∈ l, I ∈ F.modeled) → (l.map Instruction.handle).Nodup →
      (l.flatMap (specEdgesOf F)).count { src := i, dst := j, type := "data" }
        = if Y ∈ l then Y.operands.count (Value.inst X.handle) else 0 := by
  intro l
  induction l with
  | nil => intro _ _; simp
  | cons I rest ih =>
    intro hmem hnd
    simp only [List.map_cons, List.nodup_cons] at hnd
    rw [List.flatMap_cons, List.count_append,
      ih (fun J hJ => hmem J (List.mem_cons_of_mem _ hJ)) hnd.2]
    obtain ⟨k, hk, _⟩ := specId_of_mem_modeled F hwf I (hmem I (List.mem_cons_self _ _))
    rw [count_specEdgesOf F X I i j k hi hk]
    by_cases hIY : I = Y
    · subst hIY
      have hkj : k = j := by rw [hk] at hj; exact Option.some.inj hj
      have hnot : I ∉ rest := fun h => hnd.1 (List.mem_map_of_mem _ h)
      simp [hkj, hnot]
    · have hkj : k ≠ j := by
        intro he
        subst he
        apply hIY
        have hh : I.handle = Y.handle := specId_inj F _ _ k hk hj
        exact eq_of_mem_of_handle_eq F.modeled (modeled_handles_nodup F hwf) I Y
          (hmem I (List.mem_cons_self _ _)) hY hh
      have hne : ¬ Y = I := fun h => hIY h.symm
      simp [hkj, List.mem_cons, hne]

/-- The number of edges between two nodes is the number of operand positions
of the user that hold the definition. -/
theorem count_specEdges (F : Function) (hwf : F.WellFormed) (X Y : Instruction)
    (i j : Nat) (hi : specId F X.handle = some i) (hj : specId F Y.handle = some j)
    (hY : Y ∈ F.modeled) :
    (specEdges F).count { src := i, dst := j, type := "data" }
      = Y.operands.count (Value.inst X.handle) := by
  unfold specEdges
  rw [count_flatMap_specEdgesOf F hwf X Y i j hi hj hY F.modeled (fun _ h => h)
    (modeled_handles_nodup F hwf)]
  simp [hY]

theorem type_of_mem_specEdges (F : Function) (e : Edge) (he : e ∈ specEdges F) :
    e.type = "data" := by
  unfold specEdges at he
  obtain ⟨I, _, hI⟩ := List.mem_flatMap.mp he
  unfold specEdgesOf at hI
  cases hs : specId F I.handle with
  | none => rw [hs] at hI; cases hI
  | some j =>
    rw [hs] at hI
    obtain ⟨v, _, hv⟩ := List.mem_filterMap.mp hI
    cases v with
    | inst d =>
      cases hd : specId F d with
      | none => simp [hd] at hv
      | some m =>
        simp only [hd, Option.map_some', Option.some.injEq] at hv
        rw [← hv]
    | _ => simp at hv

/-! ## Which assignments the reduction detection makes -/

theorem redName_ne_empty (L : Loop) : redName L ≠ "" := by
  unfold redName
  cases L.header with
  | none => decide
  | some nm =>
    by_cases h : nm = ""
    · subst h; decide
    · simp [h]

theorem feedsBack_iff (L : Loop) (P U : Instruction) (inc : List (Value × Nat))
    (hP : P.kind = InstKind.phi inc) :
    feedsBack L P U = true ↔ ∃ vb ∈ inc, vb.1 = Value.inst U.handle ∧ vb.2 ∈ L.blocks := by
  unfold feedsBack
  rw [hP]
  simp [Loop.contains]

theorem mem_userEvent_iff (L : Loop) (idOf : PtrMap Nat) (P U : Instruction) (k : Nat)
    (r : String) :
    (k, r) ∈ userEvent L idOf P U ↔
      ∃ op lhs rhs, U.kind = InstKind.binary op lhs rhs ∧ (op = BinOp.Add ∨ op = BinOp.FAdd) ∧
        (lhs = Value.inst P.handle ∨ rhs = Value.inst P.handle) ∧
        feedsBack L P U = true ∧ idOf.lookup P.handle = some k ∧ r = redName L := by
  unfold userEvent
  cases hU : U.kind with
  | binary op lhs rhs =>
    constructor
    · intro hmem
      simp only at hmem
      split at hmem
      · cases hmem
      · rename_i h1
        split at hmem
        · cases hmem
        · rename_i h2
          split at hmem
          · cases hmem
          · rename_i h3
            cases hl : idOf.lookup P.handle with
            | none => rw [hl] at hmem; cases hmem
            | some id =>
              rw [hl] at hmem
              simp only [List.mem_singleton, Prod.mk.injEq] at hmem
              refine ⟨op, lhs, rhs, rfl, ?_, ?_, ?_, ?_, hmem.2⟩
              · by_contra hc
                simp only [not_or] at hc
                apply h1
                simp [hc.1, hc.2]
              · by_contra hc
                simp only [not_or] at hc
                apply h2
                simp [hc.1, hc.2]
              · simpa using h3
              · rw [hmem.1]
    · rintro ⟨op2, lhs2, rhs2, hEq, hop, hlr, hfb, hk, hr⟩
      cases hEq
      have h1 : (op != BinOp.FAdd && op != BinOp.Add) = false := by
        rcases hop with h | h <;> subst h <;> rfl
      have h2 : (lhs != Value.inst P.handle && rhs != Value.inst P.handle) = false := by
        rcases hlr with h | h <;> simp [h]
      simp [h1, h2, hfb, hk, hr]
  | _ => simp

theorem mem_tagEvents_iff (users : Nat → List Instruction) (F : Function) (LI : LoopInfo)
    (idOf : PtrMap Nat) (k : Nat) (r : String) :
    (k, r) ∈ tagEvents users F LI idOf ↔
      ∃ BB ∈ F.blocks, ∃ L, LI.getLoopFor BB.handle = some L ∧ L.subLoops = [] ∧
        ∃ I ∈ BB.insts, (∃ inc, I.kind = InstKind.phi inc) ∧
          ∃ U ∈ users I.handle, (k, r) ∈ userEvent L idOf I U := by
  unfold tagEvents
  rw [List.mem_flatMap]
  apply exists_congr
  intro BB
  apply and_congr_right
  intro _
  unfold blockEvents
  cases hL : LI.getLoopFor BB.handle with
  | none => simp
  | some L =>
    constructor
    · intro hmem
      simp only at hmem
      cases hs : L.subLoops with
      | cons c cs => simp [hs] at hmem
      | nil =>
        simp only [hs, List.isEmpty_nil, Bool.not_true, Bool.false_eq_true, if_false] at hmem
        obtain ⟨I, hI, hev⟩ := List.mem_flatMap.mp hmem
        refine ⟨L, rfl, hs, I, hI, ?_⟩
        unfold instEvents at hev
        cases hk : I.kind with
        | phi inc =>
          rw [hk] at hev
          exact ⟨⟨inc, rfl⟩, List.mem_flatMap.mp hev⟩
        | _ => rw [hk] at hev; cases hev
    · rintro ⟨L2, hL2, hs, I, hI, ⟨inc, hk⟩, hev⟩
      cases hL2
      simp only [hs, List.isEmpty_nil, Bool.not_true, Bool.false_eq_true, if_false]
      refine List.mem_flatMap.mpr ⟨I, hI, ?_⟩
      unfold instEvents
      rw [hk]
      exact List.mem_flatMap.mpr hev

theorem event_name_ne_empty (users : Nat → List Instruction) (F : Function) (LI : LoopInfo)
    (idOf : PtrMap Nat) (k : Nat) (r : String) (h : (k, r) ∈ tagEvents users F LI idOf) :
    r ≠ "" := by
  obtain ⟨_, _, L, _, _, I, _, _, U, _, hev⟩ := (mem_tagEvents_iff users F LI idOf k r).mp h
  obtain ⟨_, _, _, _, _, _, _, _, hr⟩ := (mem_userEvent_iff L idOf I U k r).mp hev
  rw [hr]
  exact redName_ne_empty L

/-- Blocks of a function with distinct instructions share no instruction. -/
theorem block_unique (F : Function) (hnd : (F.insts.map Instruction.handle).Nodup)
    (B1 B2 : BasicBlock) (h1 : B1 ∈ F.blocks) (h2 : B2 ∈ F.blocks) (P : Instruction)
    (hP1 : P ∈ B1.insts) (hP2 : P ∈ B2.insts) : B1 = B2 := by
  by_contra hne
  have hnd2 : F.insts.Nodup := List.Nodup.of_map _ hnd
  unfold Function.insts at hnd2
  have hpw := (List.nodup_flatMap.mp hnd2).2
  have hsym : Symmetric (Function.onFun List.Disjoint BasicBlock.insts) := by
    intro a b hab
    exact List.Disjoint.symm hab
  have hdis := List.Pairwise.forall hsym hpw h1 h2 hne
  exact hdis hP1 hP2

theorem mem_insts_of_mem_block (F : Function) (B : BasicBlock) (hB : B ∈ F.blocks)
    (P : Instruction) (hP : P ∈ B.insts) : P ∈ F.insts :=
  List.mem_flatMap.mpr ⟨B, hB, hP⟩

theorem mem_users_iff (F : Function) (h : Nat) (U : Instruction) :
    U ∈ F.users h ↔ U ∈ F.insts ∧ Value.inst h ∈ U.operands := by
  unfold Function.users
  simp only [List.mem_flatMap, List.mem_map, List.mem_filter, beq_iff_eq]
  constructor
  · rintro ⟨U2, hU2, v, ⟨hv, hveq⟩, hEq⟩
    subst hEq hveq
    exact ⟨hU2, hv⟩
  · rintro ⟨hU, hv⟩
    exact ⟨U, hU, Value.inst h, ⟨hv, rfl⟩, rfl⟩

/-! ## The tensor labels in closed form -/

theorem tensorStep_pointer (st : PtrMap String × Nat) (a : Argument)
    (h : a.type.isPointerTy = true) :
    tensorStep st a = ((a.handle, codeLabel st.2 a) :: st.1, (st.2 + 1) % UNSIGNED_MOD) := by
  simp [tensorStep, h, codeLabel]

theorem tensorStep_other (st : PtrMap String × Nat) (a : Argument)
    (h : a.type.isPointerTy = false) : tensorStep st a = st := by
  simp [tensorStep, h]

theorem foldl_tensorStep :
    ∀ (args : List Argument) (m : PtrMap String) (k0 : Nat),
      args.foldl tensorStep (m, k0 % UNSIGNED_MOD)
        = ((((pointerArgs args).enumFrom k0).map
              (fun p => (p.2.handle, codeLabel (p.1 % UNSIGNED_MOD) p.2))).reverse ++ m,
            (k0 + (pointerArgs args).length) % UNSIGNED_MOD) := by
  intro args
  induction args with
  | nil => intro m k0; simp [pointerArgs]
  | cons a rest ih =>
    intro m k0
    rw [List.foldl_cons]
    cases h : a.type.isPointerTy with
    | false =>
      rw [tensorStep_other _ a h, ih]
      simp [pointerArgs, List.filter_cons, h]
    | true =>
      rw [tensorStep_pointer _ a h]
      have hmod : (k0 % UNSIGNED_MOD + 1) % UNSIGNED_MOD = (k0 + 1) % UNSIGNED_MOD := by
        simp [Nat.add_mod]
      simp only [hmod]
      rw [ih]
      simp [pointerArgs, List.filter_cons, h, List.enumFrom_cons, Nat.add_assoc,
        Nat.add_comm 1]

theorem tensorOfArg_eq (args : List Argument) :
    tensorOfArg args
      = (((pointerArgs args).enumFrom 0).map
          (fun p => (p.2.handle, codeLabel (p.1 % UNSIGNED_MOD) p.2))).reverse := by
  unfold tensorOfArg
  have h := foldl_tensorStep args [] 0
  simp only [Nat.zero_mod, List.append_nil] at h
  rw [h]

theorem tensorOfArg_keys (args : List Argument) :
    (tensorOfArg args).map Prod.fst = ((pointerArgs args).map Argument.handle).reverse := by
  rw [tensorOfArg_eq, List.map_reverse, List.map_map]
  congr 1
  have h : ∀ (n : Nat) (l : List Argument),
      List.map (Prod.fst ∘ fun p : Nat × Argument =>
          (p.2.handle, codeLabel (p.1 % UNSIGNED_MOD) p.2)) (l.enumFrom n)
        = l.map Argument.handle := by
    intro n l
    induction l generalizing n with
    | nil => rfl
    | cons x xs ih => simp [List.enumFrom_cons, ih]
  exact h 0 _

theorem pointerArgs_handles_nodup (args : List Argument)
    (hnd : (args.map Argument.handle).Nodup) :
    ((pointerArgs args).map Argument.handle).Nodup :=
  hnd.sublist ((List.filter_sublist _).map _)

/-- An entry of `tensorOfArg`: the handle of the `k`-th pointer argument with
the label computed at counter value `k`. -/
theorem lookup_tensorOfArg (args : List Argument) (hnd : (args.map Argument.handle).Nodup)
    (h : Nat) (lbl : String) :
    (tensorOfArg args).lookup h = some lbl ↔
      ∃ k a, (pointerArgs args)[k]? = some a ∧ a.handle = h ∧
        lbl = codeLabel (k % UNSIGNED_MOD) a := by
  rw [lookup_eq_some_iff_mem _ _ _ (by
    rw [tensorOfArg_keys]
    exact List.nodup_reverse.mpr (pointerArgs_handles_nodup args hnd))]
  rw [tensorOfArg_eq]
  simp only [List.mem_reverse, List.mem_map, Prod.mk.injEq, Prod.exists]
  constructor
  · rintro ⟨k, a, hmem, hh, hl⟩
    exact ⟨k, a, (List.mk_mem_enumFrom_iff_le_and_getElem?_sub.mp hmem).2, hh, hl.symm⟩
  · rintro ⟨k, a, ha, hh, hl⟩
    exact ⟨k, a, List.mk_mem_enumFrom_iff_le_and_getElem?_sub.mpr ⟨Nat.zero_le _, ha⟩,
      hh, hl.symm⟩

theorem isKnownTensor_iff (nm : String) : isKnownTensor nm = true ↔ nm ∈ DefaultNames := by
  simp only [isKnownTensor, DefaultNames, Bool.or_eq_true, beq_iff_eq, List.mem_cons,
    List.mem_singleton, List.not_mem_nil, or_false, or_assoc]

theorem defaultName_eq (tix : Nat) : DefaultNames[min tix 4]? = some (defaultName tix) := by
  unfold defaultName
  rw [List.get_eq_getElem, List.getElem?_eq_getElem]

theorem defaultName_mem (tix : Nat) : defaultName tix ∈ DefaultNames :=
  List.mem_iff_getElem?.mpr ⟨_, defaultName_eq tix⟩

theorem codeLabel_known (tix : Nat) (a : Argument) (h : a.name ∈ DefaultNames) :
    codeLabel tix a = a.name := by
  have hne : a.name ≠ "" := by
    intro he
    rw [he] at h
    simp [DefaultNames] at h
  have hk := (isKnownTensor_iff a.name).mpr h
  simp [codeLabel, Argument.hasName, hne, hk]

theorem codeLabel_unknown (tix : Nat) (a : Argument) (h : a.name ∉ DefaultNames) :
    codeLabel tix a = defaultName tix := by
  have hk : isKnownTensor a.name = false := by
    cases hb : isKnownTensor a.name with
    | false => rfl
    | true => exact absurd ((isKnownTensor_iff _).mp hb) h
  have hd : isKnownTensor (defaultName tix) = true :=
    (isKnownTensor_iff _).mpr (defaultName_mem tix)
  unfold codeLabel
  cases hn : a.hasName with
  | true => simp [hk]
  | false => simp [hd]

theorem codeLabel_mem (tix : Nat) (a : Argument) : codeLabel tix a ∈ DefaultNames := by
  by_cases h : a.name ∈ DefaultNames
  · rw [codeLabel_known tix a h]; exact h
  · rw [codeLabel_unknown tix a h]; exact defaultName_mem tix

theorem pointerArgs_split (pre : List Argument) (a : Argument) (post : List Argument)
    (ha : a.type.isPointerTy = true) :
    (pointerArgs (pre ++ a :: post))[(pointerArgs pre).length]? = some a := by
  unfold pointerArgs
  rw [List.filter_append, List.filter_cons, if_pos ha,
    List.getElem?_append_right (Nat.le_refl _)]
  simp

/-! ## The fields of a node -/

/-- What the analysis leaves in the node of the `k`-th modeled instruction:
everything but `redVar` is as the node pass wrote it. -/
theorem node_fields (users : Nat → List Instruction) (F : Function) (LI : LoopInfo)
    (SE : ScalarEvolution) (fuel k : Nat) (I : Instruction) (n : Node)
    (hI : F.modeled[k]? = some I)
    (hn : (applyEvents (specNodes F SE fuel) (tagEvents users F LI (specIdOf F)))[k]? = some n) :
    n.id = k ∧ n.op = opKind I ∧ n.bw = bwOf I ∧
    n.tensor = (specNode F SE (tensorOfArg F.args) fuel k I).tensor ∧
    n.index = (specNode F SE (tensorOfArg F.args) fuel k I).index := by
  rw [taggedNodes_getElem?, hI] at hn
  simp only [Option.map_some', Option.some.injEq] at hn
  subst hn
  have h1 : (specNode F SE (tensorOfArg F.args) fuel k I).op = opKind I := by
    unfold specNode; cases I.addrOperand <;> rfl
  have h2 : (specNode F SE (tensorOfArg F.args) fuel k I).bw = bwOf I := by
    unfold specNode; cases I.addrOperand <;> rfl
  cases (tagEvents users F LI (specIdOf F)).reverse.lookup k <;>
    exact ⟨specNode_id _ _ _ _ _ _, h1, h2, rfl, rfl⟩

theorem modeled_of_node (users : Nat → List Instruction) (F : Function) (LI : LoopInfo)
    (SE : ScalarEvolution) (fuel k : Nat) (n : Node)
    (hn : (applyEvents (specNodes F SE fuel) (tagEvents users F LI (specIdOf F)))[k]? = some n) :
    ∃ I, F.modeled[k]? = some I := by
  rw [taggedNodes_getElem?] at hn
  cases h : F.modeled[k]? with
  | none => rw [h] at hn; cases hn
  | some I => exact ⟨I, rfl⟩

theorem specNode_tensor (F : Function) (SE : ScalarEvolution) (tmap : PtrMap String)
    (fuel k : Nat) (I : Instruction) :
    (specNode F SE tmap fuel k I).tensor
      = match I.addrOperand with
        | some ptr =>
          match traceBasePtr F fuel ptr with
          | some base => tensorOfBase tmap base
          | none => ""
        | none => "" := by
  unfold specNode
  cases I.addrOperand <;> rfl

theorem specNode_index (F : Function) (SE : ScalarEvolution) (tmap : PtrMap String)
    (fuel k : Nat) (I : Instruction) :
    (specNode F SE tmap fuel k I).index
      = match I.addrOperand with
        | some ptr => scevToStr (SE.getSCEV ptr)
        | none => "" := by
  unfold specNode
  cases I.addrOperand <;> rfl

theorem tensorOfBase_nil (base : Value) : tensorOfBase [] base = "" := by
  cases base <;> rfl

/-! ## Enough fuel exists exactly for finite address chains -/

theorem traceBasePtr_mono (F : Function) :
    ∀ (fuel : Nat) (v r : Value), traceBasePtr F fuel v = some r →
      ∀ k, traceBasePtr F (fuel + k) v = some r := by
  intro fuel
  induction fuel with
  | zero => intro v r h; cases h
  | succ m ih =>
    intro v r h k
    have hk : m + 1 + k = (m + k) + 1 := by omega
    rw [hk]
    unfold traceBasePtr at h ⊢
    cases hs : traceStep F v with
    | none => rw [hs] at h; simpa using h
    | some w =>
      rw [hs] at h
      exact ih w r h k

theorem exists_trace_of_acc (F : Function) (v : Value)
    (hfin : Acc (fun w u => traceStep F u = some w) v) :
    ∃ n r, ∀ fuel, n ≤ fuel → traceBasePtr F fuel v = some r := by
  induction hfin with
  | intro u _ ih =>
    cases h : traceStep F u with
    | none =>
      refine ⟨1, u, ?_⟩
      intro fuel hf
      obtain ⟨m, rfl⟩ : ∃ m, fuel = m + 1 := ⟨fuel - 1, by omega⟩
      simp [traceBasePtr, h]
    | some w =>
      obtain ⟨n, r, hr⟩ := ih w h
      refine ⟨n + 1, r, ?_⟩
      intro fuel hf
      obtain ⟨m, rfl⟩ : ∃ m, fuel = m + 1 := ⟨fuel - 1, by omega⟩
      simp only [traceBasePtr, h]
      exact hr m (by omega)

theorem acc_of_trace (F : Function) :
    ∀ (fuel : Nat) (v r : Value), traceBasePtr F fuel v = some r →
      Acc (fun w u => traceStep F u = some w) v := by
  intro fuel
  induction fuel with
  | zero => intro v r h; cases h
  | succ m ih =>
    intro v r h
    unfold traceBasePtr at h
    refine Acc.intro _ (fun w hw => ?_)
    rw [hw] at h
    exact ih w r h

/-- Fuel that lets every `traceBasePtr` call of the node pass return exists
if the base-operand chain of every load and store address is finite. -/
theorem exists_traceFuel (F : Function)
    (hfin : ∀ I ∈ F.insts, ∀ ptr, I.addrOperand = some ptr →
      Acc (fun w u => traceStep F u = some w) ptr) :
    ∃ fuel0, ∀ fuel, fuel0 ≤ fuel → traceFuelEnough F fuel = true := by
  unfold traceFuelEnough
  generalize F.insts = l at hfin
  induction l with
  | nil => exact ⟨0, fun _ _ => rfl⟩
  | cons I rest ih =>
    obtain ⟨n1, h1⟩ := ih (fun J hJ => hfin J (List.mem_cons_of_mem _ hJ))
    cases hp : I.addrOperand with
    | none =>
      refine ⟨n1, fun fuel hf => ?_⟩
      simp only [List.all_cons, hp, Bool.true_and]
      exact h1 fuel hf
    | some ptr =>
      obtain ⟨n2, r, h2⟩ := exists_trace_of_acc F ptr (hfin I (List.mem_cons_self _ _) ptr hp)
      refine ⟨max n1 n2, fun fuel hf => ?_⟩
      simp only [List.all_cons, hp, Bool.and_eq_true]
      exact ⟨by rw [h2 fuel (by omega)]; rfl, h1 fuel (by omega)⟩

theorem Loop.size_le_sizeList (tops : List Loop) (T : Loop) (hT : T ∈ tops) :
    Loop.size T ≤ Loop.sizeList tops := by
  induction tops with
  | nil => cases hT
  | cons L Ls ih =>
    simp only [Loop.sizeList]
    rcases List.mem_cons.mp hT with h | h
    · subst h; omega
    · have := ih h; omega

/-- The pass terminates on every function whose address chains are finite:
from some fuel on, `fuelEnough` holds. -/
theorem exists_fuelEnough (F : Function) (LI : LoopInfo)
    (hfin : ∀ I ∈ F.insts, ∀ ptr, I.addrOperand = some ptr →
      Acc (fun w u => traceStep F u = some w) ptr) :
    ∃ fuel0, ∀ fuel, fuel0 ≤ fuel → fuelEnough F LI fuel = true := by
  obtain ⟨n, hn⟩ := exists_traceFuel F hfin
  refine ⟨max n (Loop.sizeList LI.getTopLevelLoops), fun fuel hf => ?_⟩
  unfold fuelEnough loopFuelEnough
  rw [Bool.and_eq_true]
  refine ⟨hn fuel (by omega), List.all_eq_true.mpr (fun T hT => ?_)⟩
  have := Loop.size_le_sizeList _ T hT
  exact decide_eq_true (by omega)

/-- If the fuel is enough, the address chains are finite: `fuelEnough` does
not hold for any fuel when the address of a load or store lies on a cycle of
GEPs and bitcasts, where the C++ loop does not end. -/
theorem acc_of_fuelEnough (F : Function) (LI : LoopInfo) (fuel : Nat)
    (h : fuelEnough F LI fuel = true) :
    ∀ I ∈ F.insts, ∀ ptr, I.addrOperand = some ptr →
      Acc (fun w u => traceStep F u = some w) ptr := by
  intro I hI ptr hp
  obtain ⟨base, hb⟩ := traceFuelEnough_isSome F fuel (fuelEnough_trace F LI fuel h) I hI ptr hp
  exact acc_of_trace F fuel ptr base hb

/-! ## Texts: decimal numerals and clean strings -/

theorem digitChar_isDigit (m : Nat) (h : m < 10) : (Nat.digitChar m).isDigit = true := by
  interval_cases m <;> decide

theorem toDigitsCore_isDigit (fuel : Nat) :
    ∀ (n : Nat) (ds : List Char), (∀ c ∈ ds, c.isDigit = true) →
      ∀ c ∈ Nat.toDigitsCore 10 fuel n ds, c.isDigit = true := by
  induction fuel with
  | zero => intro n ds h c hc; exact h c hc
  | succ fuel ih =>
    intro n ds h c hc
    have hd : ∀ c ∈ Nat.digitChar (n % 10) :: ds, c.isDigit = true := by
      intro c hc
      rcases List.mem_cons.mp hc with rfl | hc
      · exact digitChar_isDigit _ (Nat.mod_lt _ (by decide))
      · exact h c hc
    simp only [Nat.toDigitsCore] at hc
    split at hc
    · exact hd c hc
    · exact ih _ _ hd c hc

theorem toDigitsCore_ne_nil (fuel : Nat) :
    ∀ (n : Nat) (ds : List Char), (fuel = 0 → ds ≠ []) →
      Nat.toDigitsCore 10 fuel n ds ≠ [] := by
  induction fuel with
  | zero => intro n ds h; exact h rfl
  | succ fuel ih =>
    intro n ds _
    simp only [Nat.toDigitsCore]
    split
    · exact List.cons_ne_nil _ _
    · exact ih _ _ (fun _ => List.cons_ne_nil _ _)

theorem toString_nat_data (n : Nat) : (toString n).data = Nat.toDigits 10 n := rfl

/-- Every character of a decimal numeral is a digit. -/
theorem toString_nat_isDigit (n : Nat) : ∀ c ∈ (toString n).data, c.isDigit = true := by
  rw [toString_nat_data]
  exact toDigitsCore_isDigit _ _ _ (by simp)

theorem toString_nat_data_ne_nil (n : Nat) : (toString n).data ≠ [] := by
  rw [toString_nat_data]
  exact toDigitsCore_ne_nil _ _ _ (by simp)

/-- A decimal numeral is not the empty text. -/
theorem toString_nat_ne_empty (n : Nat) : toString n ≠ "" := by
  intro h
  exact toString_nat_data_ne_nil n (by rw [h])

theorem string_ne_empty_of_data {s : String} (h : s.data ≠ []) : s ≠ "" := by
  intro e; exact h (by rw [e])

theorem plainChar_of_isDigit (c : Char) (h : c.isDigit = true) : plainChar c = true := by
  have h1 : 48 ≤ c.val ∧ c.val ≤ 57 := by
    simpa [Char.isDigit] using h
  have h48 : 48 ≤ c.toNat := by
    have := h1.1
    exact UInt32.le_def.mp this
  have h57 : c.toNat ≤ 57 := by
    have := h1.2
    exact UInt32.le_def.mp this
  have hq : c ≠ dquote := by
    intro e; rw [e] at h48; revert h48; decide
  have hb : c ≠ backslash := by
    intro e; rw [e] at h57; revert h57; decide
  simp only [plainChar, bne_iff_ne, ne_eq, Bool.and_eq_true, decide_eq_true_eq]
  exact ⟨⟨hq, hb⟩, by omega⟩

/-! ## The dump: elements in list order -/

theorem emitFrom_eq {α : Type} (object : α → String) (size : Nat) :
    ∀ (xs : List α) (i : Nat),
      emitFrom object size i xs
        = concatStrings ((xs.enumFrom i).map (fun p => object p.2 ++ separator p.1 size)) := by
  intro xs
  induction xs with
  | nil => intro i; rfl
  | cons x xs ih =>
    intro i
    simp only [emitFrom, List.enumFrom_cons, List.map_cons, concatStrings, ih]

theorem nodeObject_eq (N : Node) : nodeObject N = "      " ++ renderObject (nodeFields N) := by
  unfold nodeObject renderObject nodeFields
  by_cases ht : N.tensor = "" <;> by_cases hi : N.index = "" <;> by_cases hr : N.redVar = "" <;>
    simp only [ht, hi, hr, bne_self_eq_false, bne_iff_ne, ne_eq, not_false_eq_true, if_true,
      if_false, ite_true, ite_false, Bool.false_eq_true, List.map_cons, List.map_nil,
      List.cons_append, List.nil_append, List.append_nil, joinFields, renderField,
      not_true_eq_false] <;>
    (apply String.ext; simp only [String.data_append, List.append_assoc]; rfl)

theorem edgeObject_eq (E : Edge) : edgeObject E = "      " ++ renderObject (edgeFields E) := by
  unfold edgeObject renderObject edgeFields
  simp only [List.map_cons, List.map_nil, joinFields, renderField]
  apply String.ext; simp only [String.data_append, List.append_assoc]; rfl

/-- The ids of the nodes of an analysis count up from zero. -/
theorem taggedNodes_ids (users : Nat → List Instruction) (F : Function) (LI : LoopInfo)
    (SE : ScalarEvolution) (fuel : Nat) :
    (applyEvents (specNodes F SE fuel) (tagEvents users F LI (specIdOf F))).map Node.id
      = List.range (applyEvents (specNodes F SE fuel)
          (tagEvents users F LI (specIdOf F))).length := by
  simp only [applyEvents_length, specNodes_length]
  apply List.ext_getElem?
  intro k
  rw [List.getElem?_map, taggedNodes_getElem?]
  by_cases hk : k < F.modeled.length
  · rw [List.getElem?_range hk, List.getElem?_eq_getElem hk]
    simp only [Option.map_some']
    cases (tagEvents users F LI (specIdOf F)).reverse.lookup k <;>
      simp [specNode_id]
  · rw [List.getElem?_eq_none (Nat.le_of_not_lt hk),
      List.getElem?_eq_none (by simpa using Nat.le_of_not_lt hk)]
    rfl

/-! ## C1: node ids -/

/-- C1. For a function whose instructions are distinct objects and fit the
`unsigned` counter, and fuel that lets the loops of the pass finish, the
analysis returns; its node list has as many entries as there are instructions
with opcode Add, FAdd, Mul, FMul, Sub, FSub, PHI, Load or Store; the node at
position `i` has id `i`; no two instruction handles share an id; and of two
modeled instructions the one earlier in program order has the smaller id. -/
theorem node_ids_contiguous_program_order (F : Function) (LI : LoopInfo)
    (SE : ScalarEvolution) (fuel : Nat) (hwf : F.WellFormed)
    (hfuel : fuelEnough F LI fuel = true) :
    ∃ a, analyze F LI SE fuel = some a ∧
      a.nodes.length
        = (F.insts.filter (fun I => decide (I.getOpcode ∈ modeledOpcodes))).length ∧
      a.nodes.map Node.id = List.range a.nodes.length ∧
      (∀ h1 h2 i, a.idOf.lookup h1 = some i → a.idOf.lookup h2 = some i → h1 = h2) ∧
      (∀ pre x mid y post, F.insts = pre ++ x :: (mid ++ y :: post) →
        x.getOpcode ∈ modeledOpcodes → y.getOpcode ∈ modeledOpcodes →
        ∃ i j, a.idOf.lookup x.handle = some i ∧ a.idOf.lookup y.handle = some j ∧ i < j) := by
  refine ⟨_, analyzeWith_eq F.users F LI SE fuel hwf hfuel, ?_, ?_, ?_, ?_⟩
  · simp only [applyEvents_length, specNodes_length, filter_modeledOpcodes]
  · simp only [applyEvents_length, specNodes_length]
    apply List.ext_getElem?
    intro k
    rw [List.getElem?_map, taggedNodes_getElem?]
    by_cases hk : k < F.modeled.length
    · rw [List.getElem?_range hk, List.getElem?_eq_getElem hk]
      simp only [Option.map_some']
      cases (tagEvents F.users F LI (specIdOf F)).reverse.lookup k <;>
        simp [specNode_id]
    · rw [List.getElem?_eq_none (Nat.le_of_not_lt hk),
        List.getElem?_eq_none (by simpa using Nat.le_of_not_lt hk)]
      rfl
  · intro h1 h2 i e1 e2
    obtain ⟨I1, hI1, hh1⟩ := (lookup_specIdOf F hwf h1 i).mp e1
    obtain ⟨I2, hI2, hh2⟩ := (lookup_specIdOf F hwf h2 i).mp e2
    rw [hI1] at hI2
    cases hI2
    rw [← hh1, ← hh2]
  · intro pre x mid y post hF hx hy
    have hx2 := (mem_modeledOpcodes_iff _).mp hx
    have hy2 := (mem_modeledOpcodes_iff _).mp hy
    refine ⟨_, _, lookup_specIdOf_split F hwf pre x _ hF hx2,
      lookup_specIdOf_split F hwf (pre ++ x :: mid) y post (by simp [hF]) hy2, ?_⟩
    rw [List.filter_append, List.filter_cons, if_pos hx2]
    simp only [List.length_append, List.length_cons]
    omega

/-- C1 on the GEMM kernel. -/
theorem node_ids_contiguous_program_order_witness :
    Gemm.gemm.WellFormed ∧ fuelEnough Gemm.gemm Gemm.gemmLI 3 = true ∧
    ∃ a, analyze Gemm.gemm Gemm.gemmLI Gemm.noSE 3 = some a ∧
      a.nodes.length
        = (Gemm.gemm.insts.filter (fun I => decide (I.getOpcode ∈ modeledOpcodes))).length ∧
      a.nodes.map Node.id = List.range a.nodes.length ∧
      (∀ h1 h2 i, a.idOf.lookup h1 = some i → a.idOf.lookup h2 = some i → h1 = h2) ∧
      (∀ pre x mid y post, Gemm.gemm.insts = pre ++ x :: (mid ++ y :: post) →
        x.getOpcode ∈ modeledOpcodes → y.getOpcode ∈ modeledOpcodes →
        ∃ i j, a.idOf.lookup x.handle = some i ∧ a.idOf.lookup y.handle = some j ∧ i < j) :=
  ⟨by unfold Function.WellFormed; decide, by decide,
    node_ids_contiguous_program_order Gemm.gemm Gemm.gemmLI Gemm.noSE 3
      (by unfold Function.WellFormed; decide) (by decide)⟩

/-! ## C2: data edges -/

/-- C2. The edge list is the list obtained by walking the modeled instructions
in program order and their operands in operand order, with one "data" edge
from id(D) to id(I) for each operand D of I that is a modeled instruction; the
ids are those of the map `idOf`.  Hence, for modeled instructions `x` and `y`,
the number of edges from the node of `x` to the node of `y` is the number of
operand positions of `y` that hold `x` (two for `add x, x`), and an edge from
`x` to `y` exists only if `x` is a direct operand of `y`, whatever unmodeled
instructions lie between them. -/
theorem edges_follow_operands (F : Function) (LI : LoopInfo) (SE : ScalarEvolution)
    (fuel : Nat) (hwf : F.WellFormed) (hfuel : fuelEnough F LI fuel = true) :
    ∃ a, analyze F LI SE fuel = some a ∧
      a.edges = specEdges F ∧
      (∀ h, a.idOf.lookup h = specId F h) ∧
      (∀ x ∈ F.modeled, ∀ y ∈ F.modeled,
        ∃ i j, a.idOf.lookup x.handle = some i ∧ a.idOf.lookup y.handle = some j ∧
          a.edges.count { src := i, dst := j, type := "data" }
            = y.operands.count (Value.inst x.handle) ∧
          (∀ e ∈ a.edges, e.src = i → e.dst = j → Value.inst x.handle ∈ y.operands)) := by
  refine ⟨_, analyzeWith_eq F.users F LI SE fuel hwf hfuel,
    edgePass_eq_specEdges F hwf, lookup_specIdOf_eq_specId F hwf, ?_⟩
  intro x hx y hy
  obtain ⟨i, hi, _⟩ := specId_of_mem_modeled F hwf x hx
  obtain ⟨j, hj, _⟩ := specId_of_mem_modeled F hwf y hy
  have hcount := count_specEdges F hwf x y i j hi hj hy
  refine ⟨i, j, ?_, ?_, ?_, ?_⟩
  · simp only [lookup_specIdOf_eq_specId F hwf, hi]
  · simp only [lookup_specIdOf_eq_specId F hwf, hj]
  · simp only [edgePass_eq_specEdges F hwf, hcount]
  · intro e he hsrc hdst
    simp only [edgePass_eq_specEdges F hwf] at he
    have hty := type_of_mem_specEdges F e he
    have hEq : e = { src := i, dst := j, type := "data" } := by
      cases e
      simp_all
    rw [hEq] at he
    have hpos : 0 < (specEdges F).count { src := i, dst := j, type := "data" } :=
      List.count_pos_iff.mpr he
    rw [hcount] at hpos
    exact List.count_pos_iff.mp hpos

/-- C2 on the GEMM kernel. -/
theorem edges_follow_operands_witness :
    Gemm.gemm.WellFormed ∧ fuelEnough Gemm.gemm Gemm.gemmLI 3 = true ∧
    ∃ a, analyze Gemm.gemm Gemm.gemmLI Gemm.noSE 3 = some a ∧
      a.edges = specEdges Gemm.gemm ∧
      (∀ h, a.idOf.lookup h = specId Gemm.gemm h) ∧
      (∀ x ∈ Gemm.gemm.modeled, ∀ y ∈ Gemm.gemm.modeled,
        ∃ i j, a.idOf.lookup x.handle = some i ∧ a.idOf.lookup y.handle = some j ∧
          a.edges.count { src := i, dst := j, type := "data" }
            = y.operands.count (Value.inst x.handle) ∧
          (∀ e ∈ a.edges, e.src = i → e.dst = j → Value.inst x.handle ∈ y.operands)) :=
  ⟨by unfold Function.WellFormed; decide, by decide,
    edges_follow_operands Gemm.gemm Gemm.gemmLI Gemm.noSE 3
      (by unfold Function.WellFormed; decide) (by decide)⟩

/-! ## C3: reduction tags -/

/-- The node of the `k`-th modeled instruction carries a tag exactly if the
reduction detection assigns to index `k`. -/
theorem tagged_iff_event (users : Nat → List Instruction) (F : Function) (LI : LoopInfo)
    (SE : ScalarEvolution) (fuel k : Nat) (P : Instruction) (hP : F.modeled[k]? = some P) :
    ∃ n, (applyEvents (specNodes F SE fuel) (tagEvents users F LI (specIdOf F)))[k]? = some n ∧
      (n.redVar ≠ "" ↔ ∃ r, (k, r) ∈ tagEvents users F LI (specIdOf F)) := by
  rw [taggedNodes_getElem?, hP]
  cases hl : (tagEvents users F LI (specIdOf F)).reverse.lookup k with
  | none =>
    refine ⟨_, rfl, ?_⟩
    simp only [specNode_redVar, ne_eq, not_true_eq_false, false_iff, not_exists]
    intro r hr
    have h := List.lookup_eq_none_iff.mp hl (k, r) (List.mem_reverse.mpr hr)
    simp at h
  | some r =>
    refine ⟨_, rfl, ?_⟩
    have hmem : (k, r) ∈ tagEvents users F LI (specIdOf F) :=
      List.mem_reverse.mp (mem_of_lookup_eq_some _ k r hl)
    simp only [ne_eq]
    constructor
    · intro _; exact ⟨r, hmem⟩
    · intro _; exact event_name_ne_empty users F LI _ k r hmem

/-- C3. After the reduction detection the node of a phi `P` of block `B`
carries a non-empty reduction tag if and only if the loop `L` that `LoopInfo`
gives for `B` exists and has no sub-loops, some user `U` of `P` is an Add or
FAdd binary operator with `P` as operand 0 or operand 1, and some incoming
value of `P` is that `U` with its incoming block in `L`.  In particular the
tag is absent when no incoming value from a block of `L` is such a `U`. -/
theorem reduction_tag_iff (F : Function) (LI : LoopInfo) (SE : ScalarEvolution)
    (fuel : Nat) (hwf : F.WellFormed) (hfuel : fuelEnough F LI fuel = true) :
    ∃ a, analyze F LI SE fuel = some a ∧
      ∀ B ∈ F.blocks, ∀ P ∈ B.insts, ∀ inc, P.kind = InstKind.phi inc →
        ∃ k n, a.idOf.lookup P.handle = some k ∧ a.nodes[k]? = some n ∧
          (n.redVar ≠ "" ↔
            ∃ L, LI.getLoopFor B.handle = some L ∧ L.subLoops = [] ∧
              ∃ U ∈ F.users P.handle, ∃ op lhs rhs,
                U.kind = InstKind.binary op lhs rhs ∧ (op = BinOp.Add ∨ op = BinOp.FAdd) ∧
                (lhs = Value.inst P.handle ∨ rhs = Value.inst P.handle) ∧
                ∃ vb ∈ inc, vb.1 = Value.inst U.handle ∧ vb.2 ∈ L.blocks) := by
  refine ⟨_, analyzeWith_eq F.users F LI SE fuel hwf hfuel, ?_⟩
  intro B hB P hP inc hkind
  have hPF : P ∈ F.insts := mem_insts_of_mem_block F B hB P hP
  have hPm : P ∈ F.modeled := by
    refine List.mem_filter.mpr ⟨hPF, ?_⟩
    simp [Instruction.getOpcode, hkind, Opcode.interesting]
  obtain ⟨k, hk, hget⟩ := specId_of_mem_modeled F hwf P hPm
  obtain ⟨n, hn, hiff⟩ := tagged_iff_event F.users F LI SE fuel k P hget
  have hlk : (specIdOf F).lookup P.handle = some k := by
    rw [lookup_specIdOf_eq_specId F hwf]; exact hk
  refine ⟨k, n, hlk, hn, ?_⟩
  rw [hiff]
  constructor
  · rintro ⟨r, hr⟩
    obtain ⟨BB, hBB, L, hL, hsub, I, hI, _, U, hU, hev⟩ :=
      (mem_tagEvents_iff F.users F LI _ k r).mp hr
    obtain ⟨op, lhs, rhs, hUk, hop, hlr, hfb, hIk, _⟩ :=
      (mem_userEvent_iff L _ I U k r).mp hev
    have hIF : I ∈ F.insts := mem_insts_of_mem_block F BB hBB I hI
    have hh : I.handle = P.handle := by
      rw [lookup_specIdOf_eq_specId F hwf] at hIk
      exact specId_inj F _ _ k hIk hk
    have hIP : I = P := eq_of_mem_of_handle_eq F.insts hwf.1 I P hIF hPF hh
    subst hIP
    have hBeq : BB = B := block_unique F hwf.1 BB B hBB hB I hI hP
    subst hBeq
    exact ⟨L, hL, hsub, U, hU, op, lhs, rhs, hUk, hop, hlr,
      (feedsBack_iff L I U inc hkind).mp hfb⟩
  · rintro ⟨L, hL, hsub, U, hU, op, lhs, rhs, hUk, hop, hlr, hinc⟩
    refine ⟨redName L, (mem_tagEvents_iff F.users F LI _ k _).mpr
      ⟨B, hB, L, hL, hsub, P, hP, ⟨inc, hkind⟩, U, hU, ?_⟩⟩
    exact (mem_userEvent_iff L _ P U k _).mpr
      ⟨op, lhs, rhs, hUk, hop, hlr, (feedsBack_iff L P U inc hkind).mpr hinc, hlk, rfl⟩

/-- C3 on the GEMM kernel. -/
theorem reduction_tag_iff_witness :
    Gemm.gemm.WellFormed ∧ fuelEnough Gemm.gemm Gemm.gemmLI 3 = true ∧
    ∃ a, analyze Gemm.gemm Gemm.gemmLI Gemm.noSE 3 = some a ∧
      ∀ B ∈ Gemm.gemm.blocks, ∀ P ∈ B.insts, ∀ inc, P.kind = InstKind.phi inc →
        ∃ k n, a.idOf.lookup P.handle = some k ∧ a.nodes[k]? = some n ∧
          (n.redVar ≠ "" ↔
            ∃ L, Gemm.gemmLI.getLoopFor B.handle = some L ∧ L.subLoops = [] ∧
              ∃ U ∈ Gemm.gemm.users P.handle, ∃ op lhs rhs,
                U.kind = InstKind.binary op lhs rhs ∧ (op = BinOp.Add ∨ op = BinOp.FAdd) ∧
                (lhs = Value.inst P.handle ∨ rhs = Value.inst P.handle) ∧
                ∃ vb ∈ inc, vb.1 = Value.inst U.handle ∧ vb.2 ∈ L.blocks) :=
  ⟨by unfold Function.WellFormed; decide, by decide,
    reduction_tag_iff Gemm.gemm Gemm.gemmLI Gemm.noSE 3
      (by unfold Function.WellFormed; decide) (by decide)⟩

/-! ## C4: the tensor identity resolver -/

/-- C4. For an argument list of distinct argument objects whose length fits
the `unsigned` counter, `tensorOfArg` has an entry exactly for the
pointer-typed arguments; the pointer argument with `k` pointer-typed arguments
before it gets its own name if that name is one of "A".."E", and otherwise
(also when unnamed) the label number `min k 4` of "A".."E", which is "E" from
`k = 4` on; every label is one of "A".."E". -/
theorem tensor_labels_by_position (args : List Argument)
    (hnd : (args.map Argument.handle).Nodup) (hlen : args.length ≤ UNSIGNED_MOD) :
    (∀ h, (tensorOfArg args).lookup h ≠ none ↔
        ∃ a ∈ args, a.handle = h ∧ a.type.isPointerTy = true) ∧
    (∀ pre a post, args = pre ++ a :: post → a.type.isPointerTy = true →
      ∃ lbl, (tensorOfArg args).lookup a.handle = some lbl ∧
        (a.name ∈ DefaultNames → lbl = a.name) ∧
        (a.name ∉ DefaultNames →
          DefaultNames[min (pre.countP (fun b => b.type.isPointerTy)) 4]? = some lbl) ∧
        (a.name ∉ DefaultNames → 4 ≤ pre.countP (fun b => b.type.isPointerTy) → lbl = "E")) ∧
    (∀ h lbl, (tensorOfArg args).lookup h = some lbl → lbl ∈ DefaultNames) := by
  refine ⟨?_, ?_, ?_⟩
  · intro h
    constructor
    · intro hne
      cases hl : (tensorOfArg args).lookup h with
      | none => exact absurd hl hne
      | some lbl =>
        obtain ⟨k, a, ha, hh, _⟩ := (lookup_tensorOfArg args hnd h lbl).mp hl
        have hmem : a ∈ pointerArgs args := List.mem_iff_getElem?.mpr ⟨k, ha⟩
        have hm := List.mem_filter.mp hmem
        exact ⟨a, hm.1, hh, hm.2⟩
    · rintro ⟨a, ha, hh, hp⟩
      have hmem : a ∈ pointerArgs args := List.mem_filter.mpr ⟨ha, hp⟩
      obtain ⟨k, hk⟩ := List.mem_iff_getElem?.mp hmem
      rw [(lookup_tensorOfArg args hnd h _).mpr ⟨k, a, hk, hh, rfl⟩]
      exact Option.some_ne_none _
  · intro pre a post hargs hp
    have hk : pre.countP (fun b => b.type.isPointerTy) = (pointerArgs pre).length := by
      rw [List.countP_eq_length_filter]; rfl
    have hle : (pointerArgs pre).length ≤ pre.length := List.length_filter_le _ _
    have hlt : (pointerArgs pre).length < UNSIGNED_MOD := by
      have : args.length = pre.length + (post.length + 1) := by simp [hargs]
      omega
    have hget : (pointerArgs args)[(pointerArgs pre).length]? = some a := by
      rw [hargs]; exact pointerArgs_split pre a post hp
    refine ⟨codeLabel (pointerArgs pre).length a, ?_, ?_, ?_, ?_⟩
    · refine (lookup_tensorOfArg args hnd a.handle _).mpr ⟨_, a, hget, rfl, ?_⟩
      rw [Nat.mod_eq_of_lt hlt]
    · exact codeLabel_known _ a
    · intro hn
      rw [codeLabel_unknown _ a hn, hk]
      exact defaultName_eq _
    · intro hn h4
      rw [codeLabel_unknown _ a hn]
      rw [hk] at h4
      have hmin : min (pointerArgs pre).length 4 = 4 := by omega
      have hE := defaultName_eq (pointerArgs pre).length
      rw [hmin] at hE
      exact (Option.some.inj hE).symm
  · intro h lbl hl
    obtain ⟨k, a, _, _, hlbl⟩ := (lookup_tensorOfArg args hnd h lbl).mp hl
    rw [hlbl]
    exact codeLabel_mem _ a

/-- C4 on an argument list with six pointer arguments. -/
theorem tensor_labels_by_position_witness :
    (sevenArgs.map Argument.handle).Nodup ∧ sevenArgs.length ≤ UNSIGNED_MOD ∧
    tensorOfArg sevenArgs = [(6, "E"), (5, "E"), (4, "D"), (3, "C"), (1, "A"), (0, "A")] ∧
    ((∀ h, (tensorOfArg sevenArgs).lookup h ≠ none ↔
        ∃ a ∈ sevenArgs, a.handle = h ∧ a.type.isPointerTy = true) ∧
    (∀ pre a post, sevenArgs = pre ++ a :: post → a.type.isPointerTy = true →
      ∃ lbl, (tensorOfArg sevenArgs).lookup a.handle = some lbl ∧
        (a.name ∈ DefaultNames → lbl = a.name) ∧
        (a.name ∉ DefaultNames →
          DefaultNames[min (pre.countP (fun b => b.type.isPointerTy)) 4]? = some lbl) ∧
        (a.name ∉ DefaultNames → 4 ≤ pre.countP (fun b => b.type.isPointerTy) → lbl = "E")) ∧
    (∀ h lbl, (tensorOfArg sevenArgs).lookup h = some lbl → lbl ∈ DefaultNames)) :=
  ⟨by decide, by decide, by decide,
    tensor_labels_by_position sevenArgs (by decide) (by decide)⟩

/-! ## C5: distinct labels -/

theorem defaultName_inj_lt (k1 k2 : Nat) (h1 : k1 < 5) (h2 : k2 < 5)
    (h : defaultName k1 = defaultName k2) : k1 = k2 := by
  have e1 : k1 = 0 ∨ k1 = 1 ∨ k1 = 2 ∨ k1 = 3 ∨ k1 = 4 := by omega
  have e2 : k2 = 0 ∨ k2 = 1 ∨ k2 = 2 ∨ k2 = 3 ∨ k2 = 4 := by omega
  rcases e1 with e | e | e | e | e <;> rcases e2 with f | f | f | f | f <;>
    subst e <;> subst f <;> first | rfl | (exfalso; revert h; decide)

theorem pointerArgs_position (args : List Argument) (a : Argument)
    (ha : a ∈ pointerArgs args) :
    ∃ pre post, args = pre ++ a :: post ∧ a.type.isPointerTy = true ∧
      (pointerArgs args)[(pointerArgs pre).length]? = some a := by
  have hm := List.mem_filter.mp ha
  obtain ⟨pre, post, hsplit⟩ := List.append_of_mem hm.1
  exact ⟨pre, post, hsplit, hm.2, by rw [hsplit]; exact pointerArgs_split pre a post hm.2⟩

/-- C5, the claim as stated fails: the two pointer arguments `x` and `A` have
distinct names, there are fewer than five pointer arguments, and both get the
label "A". -/
theorem distinct_names_share_label :
    (clashArgs.map Argument.name).Nodup ∧ (pointerArgs clashArgs).length ≤ 4 ∧
    (tensorOfArg clashArgs).lookup 0 = some "A" ∧
    (tensorOfArg clashArgs).lookup 1 = some "A" := by
  decide

/-- C5 as amended. For an argument list of distinct argument objects with
pairwise distinct names and at most four pointer-typed arguments, the labels of
the pointer arguments are pairwise distinct if and only if no pointer argument
bears the letter that a pointer argument without a canonical name receives
from its position (letter number `min k 4` of "A".."E" for `k` pointer
arguments before it). -/
theorem labels_distinct_iff_no_clash (args : List Argument)
    (hnd : (args.map Argument.handle).Nodup) (hnames : (args.map Argument.name).Nodup)
    (hfour : (pointerArgs args).length ≤ 4) :
    (∀ a ∈ pointerArgs args, ∀ b ∈ pointerArgs args, a ≠ b →
        (tensorOfArg args).lookup a.handle ≠ (tensorOfArg args).lookup b.handle) ↔
    (∀ pre b post, args = pre ++ b :: post → b.type.isPointerTy = true →
        b.name ∉ DefaultNames → ∀ a ∈ pointerArgs args,
          DefaultNames[min (pre.countP (fun c => c.type.isPointerTy)) 4]? ≠ some a.name) := by
  have hlabel : ∀ pre c post, args = pre ++ c :: post → c.type.isPointerTy = true →
      (tensorOfArg args).lookup c.handle = some (codeLabel (pointerArgs pre).length c) ∧
      (pointerArgs pre).length < 4 := by
    intro pre c post hsplit hc
    have hget : (pointerArgs args)[(pointerArgs pre).length]? = some c := by
      rw [hsplit]; exact pointerArgs_split pre c post hc
    have hlt : (pointerArgs pre).length < (pointerArgs args).length := by
      rcases Nat.lt_or_ge (pointerArgs pre).length (pointerArgs args).length with h | h
      · exact h
      · rw [List.getElem?_eq_none h] at hget; cases hget
    refine ⟨(lookup_tensorOfArg args hnd c.handle _).mpr ⟨_, c, hget, rfl, ?_⟩, by omega⟩
    rw [Nat.mod_eq_of_lt (by unfold UNSIGNED_MOD; omega)]
  have hcount : ∀ pre : List Argument,
      pre.countP (fun c => c.type.isPointerTy) = (pointerArgs pre).length := by
    intro pre
    rw [List.countP_eq_length_filter]; rfl
  constructor
  · intro hdist pre b post hsplit hb hbn a ha heq
    rw [hcount, defaultName_eq] at heq
    have hname : defaultName (pointerArgs pre).length = a.name := Option.some.inj heq
    have han : a.name ∈ DefaultNames := hname ▸ defaultName_mem _
    have hbmem : b ∈ pointerArgs args :=
      List.mem_filter.mpr ⟨by rw [hsplit]; simp, hb⟩
    have hab : a ≠ b := by
      intro he
      rw [he] at han
      exact hbn han
    obtain ⟨pre2, post2, hsplit2, ha2, _⟩ := pointerArgs_position args a ha
    apply hdist a ha b hbmem hab
    rw [(hlabel pre2 a post2 hsplit2 ha2).1, (hlabel pre b post hsplit hb).1,
      codeLabel_known _ a han, codeLabel_unknown _ b hbn, hname]
  · intro hclash a ha b hb hab heq
    obtain ⟨pa, qa, hsa, hpa, hga⟩ := pointerArgs_position args a ha
    obtain ⟨pb, qb, hsb, hpb, hgb⟩ := pointerArgs_position args b hb
    rw [(hlabel pa a qa hsa hpa).1, (hlabel pb b qb hsb hpb).1] at heq
    have heq2 := Option.some.inj heq
    have hma : a ∈ args := (List.mem_filter.mp ha).1
    have hmb : b ∈ args := (List.mem_filter.mp hb).1
    have hnameNe : a.name ≠ b.name := by
      intro hn
      apply hab
      obtain ⟨i, hi⟩ := List.mem_iff_getElem?.mp hma
      obtain ⟨j, hj⟩ := List.mem_iff_getElem?.mp hmb
      have hil : i < (args.map Argument.name).length := by
        rcases Nat.lt_or_ge i args.length with h | h
        · simpa using h
        · rw [List.getElem?_eq_none h] at hi; cases hi
      have hjl : j < (args.map Argument.name).length := by
        rcases Nat.lt_or_ge j args.length with h | h
        · simpa using h
        · rw [List.getElem?_eq_none h] at hj; cases hj
      have hi2 : (args.map Argument.name)[i]? = some a.name := by simp [hi]
      have hj2 : (args.map Argument.name)[j]? = some a.name := by simp [hj, hn]
      rw [List.getElem?_eq_getElem hil] at hi2
      rw [List.getElem?_eq_getElem hjl] at hj2
      have hij : i = j := (List.Nodup.getElem_inj_iff hnames).mp (by
        rw [Option.some.inj hi2, Option.some.inj hj2])
      subst hij
      rw [hi] at hj
      exact Option.some.inj hj
    by_cases han : a.name ∈ DefaultNames
    · by_cases hbn : b.name ∈ DefaultNames
      · rw [codeLabel_known _ a han, codeLabel_known _ b hbn] at heq2
        exact hnameNe heq2
      · rw [codeLabel_known _ a han, codeLabel_unknown _ b hbn] at heq2
        apply hclash pb b qb hsb hpb hbn a ha
        rw [hcount, defaultName_eq, heq2]
    · by_cases hbn : b.name ∈ DefaultNames
      · rw [codeLabel_unknown _ a han, codeLabel_known _ b hbn] at heq2
        apply hclash pa a qa hsa hpa han b hb
        rw [hcount, defaultName_eq, heq2]
      · rw [codeLabel_unknown _ a han, codeLabel_unknown _ b hbn] at heq2
        have hk := defaultName_inj_lt _ _
          (Nat.lt_succ_of_lt (hlabel pa a qa hsa hpa).2)
          (Nat.lt_succ_of_lt (hlabel pb b qb hsb hpb).2) heq2
        rw [hk] at hga
        rw [hga] at hgb
        exact hab (Option.some.inj hgb)

/-- C5 as amended, on the GEMM arguments M, N, K, A, B, C. -/
theorem labels_distinct_iff_no_clash_witness :
    (Gemm.gemm.args.map Argument.handle).Nodup ∧ (Gemm.gemm.args.map Argument.name).Nodup ∧
    (pointerArgs Gemm.gemm.args).length ≤ 4 ∧
    ((∀ a ∈ pointerArgs Gemm.gemm.args, ∀ b ∈ pointerArgs Gemm.gemm.args, a ≠ b →
        (tensorOfArg Gemm.gemm.args).lookup a.handle
          ≠ (tensorOfArg Gemm.gemm.args).lookup b.handle) ↔
    (∀ pre b post, Gemm.gemm.args = pre ++ b :: post → b.type.isPointerTy = true →
        b.name ∉ DefaultNames → ∀ a ∈ pointerArgs Gemm.gemm.args,
          DefaultNames[min (pre.countP (fun c => c.type.isPointerTy)) 4]? ≠ some a.name)) :=
  ⟨by decide, by decide, by decide,
    labels_distinct_iff_no_clash Gemm.gemm.args (by decide) (by decide) (by decide)⟩

/-! ## C6: functions without pointer arguments -/

/-- C6, the claim as stated fails: `readGlobal` has no argument at all, and
the node of its load from the global `g` carries the index annotation "@g"
(its tensor annotation is empty). -/
theorem load_without_pointer_args_has_index :
    readGlobal.args = [] ∧
    (analyze readGlobal noLoops globalSE 1).map
        (fun a => a.nodes.map (fun n => (n.op, n.tensor, n.index)))
      = some [("load", "", "@g")] := by
  decide

/-- C6 as amended. For a function without pointer-typed arguments the
tensor-label mapping is empty and every node has an empty tensor annotation;
the index annotation of a load or store node is the printed SCEV of its
address ("?" for a null SCEV), and that of every other node is empty. -/
theorem no_pointer_args_no_tensor (F : Function) (LI : LoopInfo) (SE : ScalarEvolution)
    (fuel : Nat) (hwf : F.WellFormed) (hfuel : fuelEnough F LI fuel = true)
    (hno : ∀ arg ∈ F.args, arg.type.isPointerTy = false) :
    ∃ a, analyze F LI SE fuel = some a ∧
      a.tensorOfArg = [] ∧
      (∀ n ∈ a.nodes, n.tensor = "") ∧
      (∀ (k : Nat) (I : Instruction) (n : Node), F.modeled[k]? = some I → a.nodes[k]? = some n →
        n.index = match I.addrOperand with
          | some ptr => scevToStr (SE.getSCEV ptr)
          | none => "") := by
  have hempty : tensorOfArg F.args = [] := by
    rw [tensorOfArg_eq]
    have hp : pointerArgs F.args = [] := by
      unfold pointerArgs
      rw [List.filter_eq_nil_iff]
      intro arg harg
      simp [hno arg harg]
    rw [hp]
    rfl
  refine ⟨_, analyzeWith_eq F.users F LI SE fuel hwf hfuel, hempty, ?_, ?_⟩
  · intro n hn
    obtain ⟨k, hk⟩ := List.mem_iff_getElem?.mp hn
    obtain ⟨I, hI⟩ := modeled_of_node F.users F LI SE fuel k n hk
    rw [(node_fields F.users F LI SE fuel k I n hI hk).2.2.2.1, specNode_tensor, hempty]
    cases I.addrOperand with
    | none => rfl
    | some ptr =>
      dsimp only
      cases traceBasePtr F fuel ptr with
      | none => rfl
      | some base => exact tensorOfBase_nil base
  · intro k I n hI hn
    rw [(node_fields F.users F LI SE fuel k I n hI hn).2.2.2.2, specNode_index]

/-- C6 as amended, on the function that loads from a global. -/
theorem no_pointer_args_no_tensor_witness :
    readGlobal.WellFormed ∧ fuelEnough readGlobal noLoops 1 = true ∧
    (∀ arg ∈ readGlobal.args, arg.type.isPointerTy = false) ∧
    ∃ a, analyze readGlobal noLoops globalSE 1 = some a ∧
      a.tensorOfArg = [] ∧
      (∀ n ∈ a.nodes, n.tensor = "") ∧
      (∀ (k : Nat) (I : Instruction) (n : Node), readGlobal.modeled[k]? = some I → a.nodes[k]? = some n →
        n.index = match I.addrOperand with
          | some ptr => scevToStr (globalSE.getSCEV ptr)
          | none => "") :=
  ⟨by unfold Function.WellFormed; decide, by decide, by decide,
    no_pointer_args_no_tensor readGlobal noLoops globalSE 1
      (by unfold Function.WellFormed; decide) (by decide) (by decide)⟩

/-! ## C7: the GEMM kernel -/

/-- C7, the claim as stated fails: on the GEMM kernel the analysis tags two
nodes, not one: the phi of the counter `k` (node 2), whose increment
`add %k, 1` is fed back on the back-edge, and the accumulator phi (node 3). -/
theorem gemm_tags_counter_and_accumulator :
    (analyze Gemm.gemm Gemm.gemmLI Gemm.noSE 3).map
        (fun a => (a.nodes.filter (fun n => n.redVar != "")).map
          (fun n => (n.id, n.op, n.redVar)))
      = some [(2, "phi", "for.k"), (3, "phi", "for.k")] ∧
    (analyze Gemm.gemm Gemm.gemmLI Gemm.noSE 3).map
        (fun a => decide ((a.nodes.filter (fun n => n.redVar != "")).length = 1))
      = some false := by
  decide

/-- C7 as amended. On the GEMM kernel, whatever the symbolic engine answers,
the analysis tags exactly two nodes, the phi of the counter `k` (handle 107)
and the accumulator phi (handle 108), both with the non-empty name "for.k" of
the header of the `k` loop; and the edge list has the data edges
load(A) -> fmul, load(B) -> fmul, fmul -> fadd and fadd -> accumulator phi,
each from operand to consumer. -/
theorem gemm_reductions_and_edges (SE : ScalarEvolution) :
    ∃ a, analyze Gemm.gemm Gemm.gemmLI SE 3 = some a ∧
      a.idOf.lookup 107 = some 2 ∧ a.idOf.lookup 108 = some 3 ∧
      (a.nodes.filter (fun n => n.redVar != "")).map (fun n => (n.id, n.op, n.redVar))
        = [(2, "phi", "for.k"), (3, "phi", "for.k")] ∧
      a.idOf.lookup 115 = some 6 ∧ a.idOf.lookup 120 = some 9 ∧
      a.idOf.lookup 121 = some 10 ∧ a.idOf.lookup 122 = some 11 ∧
      a.nodes.map (fun n => (n.id, n.op, n.tensor))
        = [(0, "phi", ""), (1, "phi", ""), (2, "phi", ""), (3, "phi", ""), (4, "mul", ""),
           (5, "add", ""), (6, "load", "A"), (7, "mul", ""), (8, "add", ""), (9, "load", "B"),
           (10, "mul", ""), (11, "add", ""), (12, "add", ""), (13, "mul", ""), (14, "add", ""),
           (15, "store", "C"), (16, "add", ""), (17, "add", "")] ∧
      { src := 6, dst := 10, type := "data" } ∈ a.edges ∧
      { src := 9, dst := 10, type := "data" } ∈ a.edges ∧
      { src := 10, dst := 11, type := "data" } ∈ a.edges ∧
      { src := 11, dst := 3, type := "data" } ∈ a.edges := by
  have hwf : Gemm.gemm.WellFormed := by unfold Function.WellFormed; decide
  have hfuel : fuelEnough Gemm.gemm Gemm.gemmLI 3 = true := by decide
  refine ⟨_, analyzeWith_eq Gemm.gemm.users Gemm.gemm Gemm.gemmLI SE 3 hwf hfuel,
    ?_, ?_, ?_, ?_, ?_, ?_, ?_, ?_, ?_, ?_, ?_, ?_⟩
  · show (specIdOf Gemm.gemm).lookup 107 = some 2
    decide
  · show (specIdOf Gemm.gemm).lookup 108 = some 3
    decide
  · rfl
  · show (specIdOf Gemm.gemm).lookup 115 = some 6
    decide
  · show (specIdOf Gemm.gemm).lookup 120 = some 9
    decide
  · show (specIdOf Gemm.gemm).lookup 121 = some 10
    decide
  · show (specIdOf Gemm.gemm).lookup 122 = some 11
    decide
  · rfl
  · show _ ∈ edgePass Gemm.gemm (specIdOf Gemm.gemm)
    decide
  · show _ ∈ edgePass Gemm.gemm (specIdOf Gemm.gemm)
    decide
  · show _ ∈ edgePass Gemm.gemm (specIdOf Gemm.gemm)
    decide
  · show _ ∈ edgePass Gemm.gemm (specIdOf Gemm.gemm)
    decide

/-! ## C8: the tensor annotation of loads and stores -/

theorem lookup_tensorOfArg_isSome_iff (args : List Argument) (h : Nat) :
    (∃ lbl, (tensorOfArg args).lookup h = some lbl) ↔
      ∃ arg ∈ args, arg.handle = h ∧ arg.type.isPointerTy = true := by
  have hkeys : ∀ h2, h2 ∈ (tensorOfArg args).map Prod.fst ↔
      ∃ arg ∈ args, arg.handle = h2 ∧ arg.type.isPointerTy = true := by
    intro h2
    rw [tensorOfArg_keys]
    simp only [List.mem_reverse, List.mem_map, pointerArgs, List.mem_filter]
    constructor
    · rintro ⟨arg, ⟨h1, hp⟩, hh⟩; exact ⟨arg, h1, hh, hp⟩
    · rintro ⟨arg, h1, hh, hp⟩; exact ⟨arg, ⟨h1, hp⟩, hh⟩
  rw [← hkeys]
  constructor
  · rintro ⟨lbl, hl⟩
    exact List.mem_map.mpr ⟨(h, lbl), mem_of_lookup_eq_some _ h lbl hl, rfl⟩
  · intro hmem
    cases hl : (tensorOfArg args).lookup h with
    | some lbl => exact ⟨lbl, rfl⟩
    | none =>
      exfalso
      obtain ⟨p, hp, hp1⟩ := List.mem_map.mp hmem
      have := List.lookup_eq_none_iff.mp hl p hp
      simp [hp1] at this

theorem addrOperand_of_kind (I : Instruction) (ptr : Value)
    (h : I.kind = InstKind.load ptr ∨ ∃ v, I.kind = InstKind.store v ptr) :
    I.addrOperand = some ptr ∧ I.getOpcode.interesting = true := by
  rcases h with h | ⟨v, h⟩ <;>
    simp [Instruction.addrOperand, Instruction.getOpcode, Opcode.interesting, h]

/-- C8. The node of a load or store with address operand `ptr` carries as
tensor annotation the label that the resolver gave to `traceBasePtr ptr` when
that root is a pointer-typed argument of the function, and the empty string
for any other root; the annotation is a function of the root alone, so it does
not depend on the GEP and bitcast steps between the address and the root. -/
theorem tensor_annotation_of_root (F : Function) (LI : LoopInfo) (SE : ScalarEvolution)
    (fuel : Nat) (hwf : F.WellFormed) (hfuel : fuelEnough F LI fuel = true) :
    ∃ a, analyze F LI SE fuel = some a ∧
      ∀ I ∈ F.insts, ∀ ptr,
        (I.kind = InstKind.load ptr ∨ ∃ v, I.kind = InstKind.store v ptr) →
        ∃ k n root, a.idOf.lookup I.handle = some k ∧ a.nodes[k]? = some n ∧
          traceBasePtr F fuel ptr = some root ∧
          n.tensor = tensorOfBase a.tensorOfArg root ∧
          (∀ h, root = Value.arg h →
            (∃ arg ∈ F.args, arg.handle = h ∧ arg.type.isPointerTy = true) →
            a.tensorOfArg.lookup h = some n.tensor) ∧
          ((¬ ∃ h, root = Value.arg h ∧
              ∃ arg ∈ F.args, arg.handle = h ∧ arg.type.isPointerTy = true) →
            n.tensor = "") := by
  refine ⟨_, analyzeWith_eq F.users F LI SE fuel hwf hfuel, ?_⟩
  intro I hI ptr hkind
  obtain ⟨haddr, hint⟩ := addrOperand_of_kind I ptr hkind
  have hIm : I ∈ F.modeled := List.mem_filter.mpr ⟨hI, hint⟩
  obtain ⟨k, hk, hget⟩ := specId_of_mem_modeled F hwf I hIm
  obtain ⟨root, hroot⟩ :=
    traceFuelEnough_isSome F fuel (fuelEnough_trace F LI fuel hfuel) I hI ptr haddr
  obtain ⟨n, hn, _⟩ := tagged_iff_event F.users F LI SE fuel k I hget
  have hten : n.tensor = tensorOfBase (tensorOfArg F.args) root := by
    rw [(node_fields F.users F LI SE fuel k I n hget hn).2.2.2.1, specNode_tensor, haddr]
    simp only [hroot]
  refine ⟨k, n, root, ?_, hn, hroot, hten, ?_, ?_⟩
  · show (specIdOf F).lookup I.handle = some k
    rw [lookup_specIdOf_eq_specId F hwf]; exact hk
  · intro h hr harg
    obtain ⟨lbl, hl⟩ := (lookup_tensorOfArg_isSome_iff F.args h).mpr harg
    show (tensorOfArg F.args).lookup h = some n.tensor
    rw [hten, hr, hl]
    simp [tensorOfBase, hl]
  · intro hnot
    rw [hten]
    cases root with
    | arg h =>
      cases hl : (tensorOfArg F.args).lookup h with
      | none => simp [tensorOfBase, hl]
      | some lbl =>
        exfalso
        exact hnot ⟨h, rfl, (lookup_tensorOfArg_isSome_iff F.args h).mp ⟨lbl, hl⟩⟩
    | _ => rfl

/-- C8 on the GEMM kernel. -/
theorem tensor_annotation_of_root_witness :
    Gemm.gemm.WellFormed ∧ fuelEnough Gemm.gemm Gemm.gemmLI 3 = true ∧
    ∃ a, analyze Gemm.gemm Gemm.gemmLI Gemm.noSE 3 = some a ∧
      ∀ I ∈ Gemm.gemm.insts, ∀ ptr,
        (I.kind = InstKind.load ptr ∨ ∃ v, I.kind = InstKind.store v ptr) →
        ∃ k n root, a.idOf.lookup I.handle = some k ∧ a.nodes[k]? = some n ∧
          traceBasePtr Gemm.gemm 3 ptr = some root ∧
          n.tensor = tensorOfBase a.tensorOfArg root ∧
          (∀ h, root = Value.arg h →
            (∃ arg ∈ Gemm.gemm.args, arg.handle = h ∧ arg.type.isPointerTy = true) →
            a.tensorOfArg.lookup h = some n.tensor) ∧
          ((¬ ∃ h, root = Value.arg h ∧
              ∃ arg ∈ Gemm.gemm.args, arg.handle = h ∧ arg.type.isPointerTy = true) →
            n.tensor = "") :=
  ⟨by unfold Function.WellFormed; decide, by decide,
    tensor_annotation_of_root Gemm.gemm Gemm.gemmLI Gemm.noSE 3
      (by unfold Function.WellFormed; decide) (by decide)⟩

/-! ## C9: the base-pointer tracer -/

theorem traceStep_eq_specUnwrap (F : Function) (v : Value) :
    traceStep F v = specUnwrap F v := by
  cases v with
  | inst h =>
    simp only [traceStep, asBitCastOperator, asGEPOperator, asInstruction, specUnwrap]
    cases hf : F.findInst h with
    | none => rfl
    | some I =>
      dsimp only
      cases hk : I.kind <;> rfl
  | _ => rfl

theorem specUnwrap_none_casts (F : Function) (v : Value) (h : specUnwrap F v = none) :
    asBitCastOperator F v = none ∧ asGEPOperator F v = none := by
  cases v with
  | inst h2 =>
    simp only [specUnwrap] at h
    simp only [asBitCastOperator, asGEPOperator]
    cases hf : F.findInst h2 with
    | none => exact ⟨rfl, rfl⟩
    | some I =>
      rw [hf] at h
      dsimp only at h ⊢
      cases hk : I.kind <;> rw [hk] at h <;> first | exact ⟨rfl, rfl⟩ | cases h
  | constBitCast s => cases h
  | constGEP p idx => cases h
  | _ => exact ⟨rfl, rfl⟩

theorem traceBasePtr_root (F : Function) (u : Value) (h : specUnwrap F u = none)
    (fuel : Nat) (hf : 0 < fuel) : traceBasePtr F fuel u = some u := by
  cases fuel with
  | zero => cases hf
  | succ m => simp [traceBasePtr, traceStep_eq_specUnwrap, h]

theorem traceBasePtr_step (F : Function) (u w : Value) (h : specUnwrap F u = some w)
    (fuel : Nat) : traceBasePtr F (fuel + 1) u = traceBasePtr F fuel w := by
  simp [traceBasePtr, traceStep_eq_specUnwrap, h]

/-- C9. For a value whose chain of base operands is finite, `traceBasePtr`
returns once the fuel exceeds the length `n` of the chain, and it returns the
value `root` reached from `v` by repeatedly replacing a bitcast by its operand
0 and a GEP by its pointer operand; with less fuel it has not returned yet, it
never returns anything else.  The root is neither a bitcast nor a GEP, tracing
the root gives the root again, and any value that is neither a bitcast nor a
GEP is returned unchanged. -/
theorem traceBasePtr_reaches_root (F : Function) (v : Value) (hfin : Acc (BaseOf F) v) :
    ∃ n root,
      Relation.ReflTransGen (fun u w => specUnwrap F u = some w) v root ∧
      specUnwrap F root = none ∧
      asBitCastOperator F root = none ∧ asGEPOperator F root = none ∧
      (∀ fuel, n < fuel → traceBasePtr F fuel v = some root) ∧
      (∀ fuel, fuel ≤ n → traceBasePtr F fuel v = none) ∧
      (∀ fuel, 0 < fuel → traceBasePtr F fuel root = some root) ∧
      (∀ u, specUnwrap F u = none → ∀ fuel, 0 < fuel → traceBasePtr F fuel u = some u) := by
  induction hfin with
  | intro u _ ih =>
    cases h : specUnwrap F u with
    | none =>
      refine ⟨0, u, Relation.ReflTransGen.refl, h, (specUnwrap_none_casts F u h).1,
        (specUnwrap_none_casts F u h).2, ?_, ?_, ?_, ?_⟩
      · intro fuel hf; exact traceBasePtr_root F u h fuel hf
      · intro fuel hf
        have h0 : fuel = 0 := by omega
        subst h0
        rfl
      · intro fuel hf; exact traceBasePtr_root F u h fuel hf
      · intro u2 h2 fuel hf; exact traceBasePtr_root F u2 h2 fuel hf
    | some w =>
      obtain ⟨n, root, hreach, hroot, hbc, hgep, hret, hnot, hidem, hany⟩ := ih w h
      refine ⟨n + 1, root, Relation.ReflTransGen.head h hreach, hroot, hbc, hgep,
        ?_, ?_, hidem, hany⟩
      · intro fuel hf
        cases fuel with
        | zero => omega
        | succ m =>
          rw [traceBasePtr_step F u w h]
          exact hret m (by omega)
      · intro fuel hf
        cases fuel with
        | zero => rfl
        | succ m =>
          rw [traceBasePtr_step F u w h]
          exact hnot m (by omega)

/-- C9 on the address of the load from `A` in the GEMM kernel, wrapped in a
constant bitcast: the chain bitcast, GEP, argument has two steps. -/
theorem traceBasePtr_reaches_root_witness :
    Acc (BaseOf Gemm.gemm) (Value.constBitCast (Value.inst 114)) ∧
    traceBasePtr Gemm.gemm 3 (Value.constBitCast (Value.inst 114)) = some (Value.arg 3) ∧
    ∃ n root,
      Relation.ReflTransGen (fun u w => specUnwrap Gemm.gemm u = some w)
        (Value.constBitCast (Value.inst 114)) root ∧
      specUnwrap Gemm.gemm root = none ∧
      asBitCastOperator Gemm.gemm root = none ∧ asGEPOperator Gemm.gemm root = none ∧
      (∀ fuel, n < fuel →
        traceBasePtr Gemm.gemm fuel (Value.constBitCast (Value.inst 114)) = some root) ∧
      (∀ fuel, fuel ≤ n →
        traceBasePtr Gemm.gemm fuel (Value.constBitCast (Value.inst 114)) = none) ∧
      (∀ fuel, 0 < fuel → traceBasePtr Gemm.gemm fuel root = some root) ∧
      (∀ u, specUnwrap Gemm.gemm u = none → ∀ fuel, 0 < fuel →
        traceBasePtr Gemm.gemm fuel u = some u) :=
  have hArg : Acc (BaseOf Gemm.gemm) (Value.arg 3) :=
    Acc.intro _ (fun w hw => by cases hw)
  have hGep : Acc (BaseOf Gemm.gemm) (Value.inst 114) :=
    Acc.intro _ (fun w hw => by
      have h : specUnwrap Gemm.gemm (Value.inst 114) = some (Value.arg 3) := by decide
      have hw2 : specUnwrap Gemm.gemm (Value.inst 114) = some w := hw
      rw [h] at hw2
      cases hw2
      exact hArg)
  have hCast : Acc (BaseOf Gemm.gemm) (Value.constBitCast (Value.inst 114)) :=
    Acc.intro _ (fun w hw => by
      have hw2 : some (Value.inst 114) = some w := hw
      cases hw2
      exact hGep)
  ⟨hCast, by decide, traceBasePtr_reaches_root Gemm.gemm _ hCast⟩

/-! ## C10: the loop nest walker -/

mutual
theorem Loop.visitOrder_perm : ∀ L : Loop, (Loop.visitOrder L).Perm (Loop.subtree L)
  | .mk h hd bs iv subs => by
    simp only [Loop.visitOrder, Loop.subtree]
    exact List.Perm.cons _ (Loop.visitOrderStack_perm subs)
theorem Loop.visitOrderStack_perm :
    ∀ Ls : List Loop, (Loop.visitOrderStack Ls).Perm (Loop.subtreeList Ls)
  | [] => by simp [Loop.visitOrderStack, Loop.subtreeList]
  | L :: Ls => by
    simp only [Loop.visitOrderStack, Loop.subtreeList]
    exact List.perm_append_comm.trans
      (List.Perm.append (Loop.visitOrder_perm L) (Loop.visitOrderStack_perm Ls))
end

mutual
theorem Loop.visitOrder_block : ∀ (L P : Loop), P ∈ Loop.subtree L →
    ∃ A B, Loop.visitOrder L = A ++ Loop.visitOrder P ++ B
  | .mk h hd bs iv subs, P, hP => by
    simp only [Loop.subtree, List.mem_cons] at hP
    rcases hP with hEq | hIn
    · subst hEq
      exact ⟨[], [], by simp⟩
    · obtain ⟨A, B, hAB⟩ := Loop.visitOrderStack_block subs P hIn
      exact ⟨Loop.mk h hd bs iv subs :: A, B, by simp [Loop.visitOrder, hAB]⟩
theorem Loop.visitOrderStack_block : ∀ (Ls : List Loop) (P : Loop), P ∈ Loop.subtreeList Ls →
    ∃ A B, Loop.visitOrderStack Ls = A ++ Loop.visitOrder P ++ B
  | [], P, hP => by simp [Loop.subtreeList] at hP
  | L :: Ls, P, hP => by
    simp only [Loop.subtreeList, List.mem_append] at hP
    rcases hP with hL | hLs
    · obtain ⟨A, B, hAB⟩ := Loop.visitOrder_block L P hL
      exact ⟨Loop.visitOrderStack Ls ++ A, B, by simp [Loop.visitOrderStack, hAB]⟩
    · obtain ⟨A, B, hAB⟩ := Loop.visitOrderStack_block Ls P hLs
      exact ⟨A, B ++ Loop.visitOrder L, by simp [Loop.visitOrderStack, hAB]⟩
end

theorem Loop.subtreeList_eq_flatMap (Ls : List Loop) :
    Loop.subtreeList Ls = Ls.flatMap Loop.subtree := by
  induction Ls with
  | nil => rfl
  | cons L Ls ih => simp [Loop.subtreeList, ih]

theorem Loop.sizeList_eq_length (Ls : List Loop) :
    Loop.sizeList Ls = (Loop.subtreeList Ls).length := by
  have h : ∀ n (Ls : List Loop), Loop.sizeList Ls ≤ n →
      Loop.sizeList Ls = (Loop.subtreeList Ls).length := by
    intro n
    induction n with
    | zero =>
      intro Ls hn
      cases Ls with
      | nil => rfl
      | cons L Ls => simp only [Loop.sizeList, Loop.size_eq] at hn; omega
    | succ n ih =>
      intro Ls hn
      cases Ls with
      | nil => rfl
      | cons L Ls =>
        simp only [Loop.sizeList, Loop.size_eq] at hn
        simp only [Loop.sizeList, Loop.size_eq, Loop.subtreeList, Loop.subtree_eq,
          List.length_append, List.length_cons]
        rw [ih L.subLoops (by omega), ih Ls (by omega)]
        omega
  exact h _ Ls (Nat.le_refl _)

theorem flatMap_visitOrder_perm (tops : List Loop) :
    (tops.flatMap Loop.visitOrder).Perm (Loop.subtreeList tops) := by
  induction tops with
  | nil => simp [Loop.subtreeList]
  | cons T Ts ih =>
    simp only [List.flatMap_cons, Loop.subtreeList]
    exact List.Perm.append (Loop.visitOrder_perm T) ih

theorem flatMap_visitOrder_block (tops : List Loop) (P : Loop)
    (hP : P ∈ Loop.subtreeList tops) :
    ∃ A B, tops.flatMap Loop.visitOrder = A ++ Loop.visitOrder P ++ B := by
  induction tops with
  | nil => simp [Loop.subtreeList] at hP
  | cons T Ts ih =>
    simp only [Loop.subtreeList, List.mem_append] at hP
    rcases hP with hT | hTs
    · obtain ⟨A, B, hAB⟩ := Loop.visitOrder_block T P hT
      exact ⟨A, B ++ Ts.flatMap Loop.visitOrder, by simp [hAB]⟩
    · obtain ⟨A, B, hAB⟩ := ih hTs
      exact ⟨Loop.visitOrder T ++ A, B, by simp [hAB]⟩

theorem getElem?_inj_of_map_nodup {α : Type} (f : α → Nat) (l : List α)
    (hnd : (l.map f).Nodup) (i j : Nat) (x y : α)
    (hi : l[i]? = some x) (hj : l[j]? = some y) (hh : f x = f y) : i = j := by
  have hi2 : (l.map f)[i]? = some (f x) := by simp [hi]
  have hj2 : (l.map f)[j]? = some (f x) := by simp [hj, hh]
  have hil : i < (l.map f).length := by
    rcases Nat.lt_or_ge i (l.map f).length with h | h
    · exact h
    · rw [List.getElem?_eq_none h] at hi2; cases hi2
  have hjl : j < (l.map f).length := by
    rcases Nat.lt_or_ge j (l.map f).length with h | h
    · exact h
    · rw [List.getElem?_eq_none h] at hj2; cases hj2
  rw [List.getElem?_eq_getElem hil] at hi2
  rw [List.getElem?_eq_getElem hjl] at hj2
  exact (List.Nodup.getElem_inj_iff hnd).mp (by
    rw [Option.some.inj hi2, Option.some.inj hj2])

/-- In the visit order a loop is followed by its descendants. -/
theorem visit_positions (tops : List Loop) (P D : Loop)
    (hP : P ∈ Loop.subtreeList tops) (hD : D ∈ P.descendants) :
    ∃ i j : Nat, i < j ∧ (tops.flatMap Loop.visitOrder)[i]? = some P ∧
      (tops.flatMap Loop.visitOrder)[j]? = some D := by
  obtain ⟨A, B, hAB⟩ := flatMap_visitOrder_block tops P hP
  have hD2 : D ∈ Loop.visitOrderStack P.subLoops :=
    (Loop.visitOrderStack_perm P.subLoops).mem_iff.mpr hD
  obtain ⟨t, ht⟩ := List.mem_iff_getElem?.mp hD2
  have htl : t < (Loop.visitOrderStack P.subLoops).length := by
    rcases Nat.lt_or_ge t (Loop.visitOrderStack P.subLoops).length with h | h
    · exact h
    · rw [List.getElem?_eq_none h] at ht; cases ht
  refine ⟨A.length, A.length + 1 + t, by omega, ?_, ?_⟩
  · rw [hAB, Loop.visitOrder_eq, List.append_assoc,
      List.getElem?_append_right (Nat.le_refl _)]
    simp
  · rw [hAB, Loop.visitOrder_eq, List.append_assoc,
      List.getElem?_append_right (by omega)]
    have h1 : A.length + 1 + t - A.length = t + 1 := by omega
    rw [h1, List.cons_append, List.getElem?_cons_succ, List.getElem?_append_left htl]
    exact ht

/-- C10. When the fuel covers the largest tree of the forest, the walker
returns; its record list is the image of a visit order that is a permutation
of the loops of the forest, so it has one record per loop; every loop is
visited before each of its descendants; and when the loops are distinct
objects no loop is recorded twice and the record of a loop stands at a smaller
position than the record of any of its descendants. -/
theorem loop_records_preorder (SE : ScalarEvolution) (tops : List Loop) (fuel : Nat)
    (hfuel : ∀ T ∈ tops, Loop.size T ≤ fuel)
    (hnd : ((Loop.subtreeList tops).map Loop.handle).Nodup) :
    ∃ (w : WalkState) (order : List Loop), collectLoops SE fuel tops = some w ∧
      w.loops = order.map (loopRec SE) ∧
      order.Perm (Loop.subtreeList tops) ∧
      w.loops.length = (Loop.subtreeList tops).length ∧
      (order.map Loop.handle).Nodup ∧
      (∀ P ∈ Loop.subtreeList tops, ∀ D ∈ P.descendants,
        ∃ i j : Nat, i < j ∧ order[i]? = some P ∧ order[j]? = some D) ∧
      (∀ (i j : Nat) (P D : Loop), order[i]? = some P → order[j]? = some D →
        D ∈ P.descendants → i < j) := by
  have hperm := flatMap_visitOrder_perm tops
  have hnd2 : ((tops.flatMap Loop.visitOrder).map Loop.handle).Nodup :=
    (List.Perm.map Loop.handle hperm).nodup_iff.mpr hnd
  refine ⟨_, tops.flatMap Loop.visitOrder, collectLoops_eq SE fuel tops hfuel, rfl, hperm,
    ?_, hnd2, ?_, ?_⟩
  · simp only [List.length_map]
    exact hperm.length_eq
  · intro P hP D hD
    exact visit_positions tops P D hP hD
  · intro i j P D hi hj hD
    have hP : P ∈ Loop.subtreeList tops :=
      hperm.mem_iff.mp (List.mem_iff_getElem?.mpr ⟨i, hi⟩)
    obtain ⟨i2, j2, hlt, hi2, hj2⟩ := visit_positions tops P D hP hD
    have e1 := getElem?_inj_of_map_nodup Loop.handle _ hnd2 i i2 P P hi hi2 rfl
    have e2 := getElem?_inj_of_map_nodup Loop.handle _ hnd2 j j2 D D hj hj2 rfl
    omega

/-- C10 on the loop nest of the GEMM kernel. -/
theorem loop_records_preorder_witness :
    (∀ T ∈ [Gemm.loopI], Loop.size T ≤ 3) ∧
    ((Loop.subtreeList [Gemm.loopI]).map Loop.handle).Nodup ∧
    (collectLoops Gemm.noSE 3 [Gemm.loopI]).map (fun w => w.loops.map LoopRec.name)
      = some ["for.i", "for.j", "for.k"] ∧
    ∃ (w : WalkState) (order : List Loop), collectLoops Gemm.noSE 3 [Gemm.loopI] = some w ∧
      w.loops = order.map (loopRec Gemm.noSE) ∧
      order.Perm (Loop.subtreeList [Gemm.loopI]) ∧
      w.loops.length = (Loop.subtreeList [Gemm.loopI]).length ∧
      (order.map Loop.handle).Nodup ∧
      (∀ P ∈ Loop.subtreeList [Gemm.loopI], ∀ D ∈ P.descendants,
        ∃ i j : Nat, i < j ∧ order[i]? = some P ∧ order[j]? = some D) ∧
      (∀ (i j : Nat) (P D : Loop), order[i]? = some P → order[j]? = some D →
        D ∈ P.descendants → i < j) :=
  ⟨by decide, by decide, by decide,
    loop_records_preorder Gemm.noSE [Gemm.loopI] 3 (by decide) (by decide)⟩

/-! ## C11: edge endpoints are nodes -/

theorem specId_lt (F : Function) (h k : Nat) (hk : specId F h = some k) :
    k < F.modeled.length := by
  obtain ⟨I, hI, _⟩ := positionOf_some_getElem? h _ k hk
  rcases Nat.lt_or_ge k F.modeled.length with hlt | hge
  · exact hlt
  · rw [List.getElem?_eq_none hge] at hI; cases hI

/-- Both ends of an edge of the specification are positions of modeled
instructions, the source is the position of an operand of the user. -/
theorem mem_specEdges (F : Function) (e : Edge) (he : e ∈ specEdges F) :
    ∃ I ∈ F.modeled, ∃ d, Value.inst d ∈ I.operands ∧
      specId F d = some e.src ∧ specId F I.handle = some e.dst ∧ e.type = "data" := by
  unfold specEdges at he
  obtain ⟨I, hIm, hI⟩ := List.mem_flatMap.mp he
  unfold specEdgesOf at hI
  cases hs : specId F I.handle with
  | none => rw [hs] at hI; cases hI
  | some j =>
    rw [hs] at hI
    obtain ⟨v, hv, hfv⟩ := List.mem_filterMap.mp hI
    cases v with
    | inst d =>
      cases hd : specId F d with
      | none => simp [hd] at hfv
      | some i =>
        simp only [hd, Option.map_some', Option.some.injEq] at hfv
        subst hfv
        exact ⟨I, hIm, d, hv, hd, hs, rfl⟩
    | _ => simp at hfv

/-- C11. Every edge of the edge list has both its source and its destination
below the length of the node list, so the node list has a node at either
endpoint. -/
theorem edge_endpoints_are_nodes (F : Function) (LI : LoopInfo) (SE : ScalarEvolution)
    (fuel : Nat) (hwf : F.WellFormed) (hfuel : fuelEnough F LI fuel = true) :
    ∃ a, analyze F LI SE fuel = some a ∧
      ∀ e ∈ a.edges, e.src < a.nodes.length ∧ e.dst < a.nodes.length ∧
        (∃ n, a.nodes[e.src]? = some n ∧ n.id = e.src) ∧
        (∃ n, a.nodes[e.dst]? = some n ∧ n.id = e.dst) := by
  refine ⟨_, analyzeWith_eq F.users F LI SE fuel hwf hfuel, ?_⟩
  intro e he
  have he2 : e ∈ specEdges F := by
    rw [← edgePass_eq_specEdges F hwf]; exact he
  obtain ⟨I, _, d, _, hsrc, hdst, _⟩ := mem_specEdges F e he2
  have hlen : (applyEvents (specNodes F SE fuel)
      (tagEvents F.users F LI (specIdOf F))).length = F.modeled.length := by
    rw [applyEvents_length, specNodes_length]
  have h1 := specId_lt F d e.src hsrc
  have h2 := specId_lt F I.handle e.dst hdst
  have hnode : ∀ k, k < F.modeled.length →
      ∃ n, (applyEvents (specNodes F SE fuel) (tagEvents F.users F LI (specIdOf F)))[k]?
        = some n ∧ n.id = k := by
    intro k hk
    have hget : F.modeled[k]? = some F.modeled[k] := List.getElem?_eq_getElem hk
    obtain ⟨n, hn, _⟩ := tagged_iff_event F.users F LI SE fuel k _ hget
    exact ⟨n, hn, (node_fields F.users F LI SE fuel k _ n hget hn).1⟩
  refine ⟨?_, ?_, hnode e.src h1, hnode e.dst h2⟩
  · show e.src < (applyEvents _ _).length
    rw [hlen]; exact h1
  · show e.dst < (applyEvents _ _).length
    rw [hlen]; exact h2

/-- C11 on the GEMM kernel. -/
theorem edge_endpoints_are_nodes_witness :
    Gemm.gemm.WellFormed ∧ fuelEnough Gemm.gemm Gemm.gemmLI 3 = true ∧
    ∃ a, analyze Gemm.gemm Gemm.gemmLI Gemm.noSE 3 = some a ∧
      ∀ e ∈ a.edges, e.src < a.nodes.length ∧ e.dst < a.nodes.length ∧
        (∃ n, a.nodes[e.src]? = some n ∧ n.id = e.src) ∧
        (∃ n, a.nodes[e.dst]? = some n ∧ n.id = e.dst) :=
  ⟨by unfold Function.WellFormed; decide, by decide,
    edge_endpoints_are_nodes Gemm.gemm Gemm.gemmLI Gemm.noSE 3
      (by unfold Function.WellFormed; decide) (by decide)⟩

/-! ## C12: which instructions get a node, and of which kind -/

theorem opKind_mem_of_interesting (I : Instruction) (h : I.getOpcode.interesting = true) :
    opKind I ∈ ["add", "mul", "sub", "phi", "load", "store"] := by
  unfold opKind
  cases hop : I.getOpcode <;> rw [hop] at h <;>
    first | decide | (simp [Opcode.interesting] at h)

theorem opKind_by_opcode (I : Instruction) :
    ((I.getOpcode = Opcode.Add ∨ I.getOpcode = Opcode.FAdd) → opKind I = "add") ∧
    ((I.getOpcode = Opcode.Mul ∨ I.getOpcode = Opcode.FMul) → opKind I = "mul") ∧
    ((I.getOpcode = Opcode.Sub ∨ I.getOpcode = Opcode.FSub) → opKind I = "sub") ∧
    (I.getOpcode = Opcode.PHI → opKind I = "phi") ∧
    (I.getOpcode = Opcode.Load → opKind I = "load") ∧
    (I.getOpcode = Opcode.Store → opKind I = "store") := by
  unfold opKind
  refine ⟨?_, ?_, ?_, ?_, ?_, ?_⟩
  · rintro (h | h) <;> rw [h]
  · rintro (h | h) <;> rw [h]
  · rintro (h | h) <;> rw [h]
  · intro h; rw [h]
  · intro h; rw [h]
  · intro h; rw [h]

/-- C12. An instruction of the function has a node exactly if its opcode is
one of Add, FAdd, Mul, FMul, Sub, FSub, PHI, Load, Store, and every node
belongs to such an instruction; the kind of the node is "add" for Add and
FAdd, "mul" for Mul and FMul, "sub" for Sub and FSub, and "phi", "load",
"store" for PHI, Load, Store; no node has the kind "other"; instructions with
another opcode get no node and the analysis still returns. -/
theorem node_iff_modeled_opcode (F : Function) (LI : LoopInfo) (SE : ScalarEvolution)
    (fuel : Nat) (hwf : F.WellFormed) (hfuel : fuelEnough F LI fuel = true) :
    ∃ a, analyze F LI SE fuel = some a ∧
      (∀ I ∈ F.insts,
        (∃ k n, a.idOf.lookup I.handle = some k ∧ a.nodes[k]? = some n) ↔
          I.getOpcode ∈ modeledOpcodes) ∧
      (∀ I ∈ F.insts, I.getOpcode ∉ modeledOpcodes → a.idOf.lookup I.handle = none) ∧
      (∀ I ∈ F.insts, ∀ (k : Nat) (n : Node),
        a.idOf.lookup I.handle = some k → a.nodes[k]? = some n →
          ((I.getOpcode = Opcode.Add ∨ I.getOpcode = Opcode.FAdd) → n.op = "add") ∧
          ((I.getOpcode = Opcode.Mul ∨ I.getOpcode = Opcode.FMul) → n.op = "mul") ∧
          ((I.getOpcode = Opcode.Sub ∨ I.getOpcode = Opcode.FSub) → n.op = "sub") ∧
          (I.getOpcode = Opcode.PHI → n.op = "phi") ∧
          (I.getOpcode = Opcode.Load → n.op = "load") ∧
          (I.getOpcode = Opcode.Store → n.op = "store")) ∧
      (∀ (k : Nat) (n : Node), a.nodes[k]? = some n →
        (∃ I ∈ F.insts, a.idOf.lookup I.handle = some k) ∧
        n.op ≠ "other" ∧ n.op ∈ ["add", "mul", "sub", "phi", "load", "store"]) := by
  refine ⟨_, analyzeWith_eq F.users F LI SE fuel hwf hfuel, ?_, ?_, ?_, ?_⟩
  · intro I hI
    constructor
    · rintro ⟨k, n, hk, _⟩
      have hk2 : specId F I.handle = some k := by
        rw [← lookup_specIdOf_eq_specId F hwf]; exact hk
      cases hint : I.getOpcode.interesting with
      | true => exact (mem_modeledOpcodes_iff _).mpr hint
      | false =>
        rw [specId_none_of_not_interesting F hwf I hI hint] at hk2
        cases hk2
    · intro hop
      have hIm : I ∈ F.modeled :=
        List.mem_filter.mpr ⟨hI, (mem_modeledOpcodes_iff _).mp hop⟩
      obtain ⟨k, hk, hget⟩ := specId_of_mem_modeled F hwf I hIm
      obtain ⟨n, hn, _⟩ := tagged_iff_event F.users F LI SE fuel k I hget
      refine ⟨k, n, ?_, hn⟩
      show (specIdOf F).lookup I.handle = some k
      rw [lookup_specIdOf_eq_specId F hwf]; exact hk
  · intro I hI hop
    show (specIdOf F).lookup I.handle = none
    rw [lookup_specIdOf_eq_specId F hwf]
    apply specId_none_of_not_interesting F hwf I hI
    cases hint : I.getOpcode.interesting with
    | false => rfl
    | true => exact absurd ((mem_modeledOpcodes_iff _).mpr hint) hop
  · intro I hI k n hk hn
    have hk2 : specId F I.handle = some k := by
      rw [← lookup_specIdOf_eq_specId F hwf]; exact hk
    obtain ⟨J, hJ, hh⟩ := positionOf_some_getElem? _ _ k hk2
    have hJm : J ∈ F.modeled := List.mem_iff_getElem?.mpr ⟨_, hJ⟩
    have hJI : J = I :=
      eq_of_mem_of_handle_eq F.insts hwf.1 J I (List.mem_filter.mp hJm).1 hI hh
    subst hJI
    rw [(node_fields F.users F LI SE fuel k J n hJ hn).2.1]
    exact opKind_by_opcode J
  · intro k n hn
    obtain ⟨I, hI⟩ := modeled_of_node F.users F LI SE fuel k n hn
    have hIm : I ∈ F.modeled := List.mem_iff_getElem?.mpr ⟨_, hI⟩
    have hmem := opKind_mem_of_interesting I (List.mem_filter.mp hIm).2
    rw [← (node_fields F.users F LI SE fuel k I n hI hn).2.1] at hmem
    refine ⟨⟨I, (List.mem_filter.mp hIm).1, ?_⟩, ?_, hmem⟩
    · show (specIdOf F).lookup I.handle = some k
      rw [lookup_specIdOf F hwf]
      exact ⟨I, hI, rfl⟩
    · intro hother
      rw [hother] at hmem
      revert hmem
      decide

/-- C12 on the GEMM kernel. -/
theorem node_iff_modeled_opcode_witness :
    Gemm.gemm.WellFormed ∧ fuelEnough Gemm.gemm Gemm.gemmLI 3 = true ∧
    ∃ a, analyze Gemm.gemm Gemm.gemmLI Gemm.noSE 3 = some a ∧
      (∀ I ∈ Gemm.gemm.insts,
        (∃ k n, a.idOf.lookup I.handle = some k ∧ a.nodes[k]? = some n) ↔
          I.getOpcode ∈ modeledOpcodes) ∧
      (∀ I ∈ Gemm.gemm.insts, I.getOpcode ∉ modeledOpcodes →
        a.idOf.lookup I.handle = none) ∧
      (∀ I ∈ Gemm.gemm.insts, ∀ (k : Nat) (n : Node),
        a.idOf.lookup I.handle = some k → a.nodes[k]? = some n →
          ((I.getOpcode = Opcode.Add ∨ I.getOpcode = Opcode.FAdd) → n.op = "add") ∧
          ((I.getOpcode = Opcode.Mul ∨ I.getOpcode = Opcode.FMul) → n.op = "mul") ∧
          ((I.getOpcode = Opcode.Sub ∨ I.getOpcode = Opcode.FSub) → n.op = "sub") ∧
          (I.getOpcode = Opcode.PHI → n.op = "phi") ∧
          (I.getOpcode = Opcode.Load → n.op = "load") ∧
          (I.getOpcode = Opcode.Store → n.op = "store")) ∧
      (∀ (k : Nat) (n : Node), a.nodes[k]? = some n →
        (∃ I ∈ Gemm.gemm.insts, a.idOf.lookup I.handle = some k) ∧
        n.op ≠ "other" ∧ n.op ∈ ["add", "mul", "sub", "phi", "load", "store"]) :=
  ⟨by unfold Function.WellFormed; decide, by decide,
    node_iff_modeled_opcode Gemm.gemm Gemm.gemmLI Gemm.noSE 3
      (by unfold Function.WellFormed; decide) (by decide)⟩

/-! ## C16: annotations and node kinds -/

theorem opKind_of_addrOperand (I : Instruction) (ptr : Value)
    (h : I.addrOperand = some ptr) : opKind I = "load" ∨ opKind I = "store" := by
  unfold Instruction.addrOperand at h
  cases hk : I.kind <;> rw [hk] at h <;>
    first
      | (left; simp [opKind, Instruction.getOpcode, hk]; done)
      | (right; simp [opKind, Instruction.getOpcode, hk]; done)
      | cases h

theorem opKind_of_phi (I : Instruction) (inc : List (Value × Nat))
    (h : I.kind = InstKind.phi inc) : opKind I = "phi" := by
  simp [opKind, Instruction.getOpcode, h]

/-- The instruction whose node an assignment of the reduction detection
writes is a phi. -/
theorem event_target_is_phi (users : Nat → List Instruction) (F : Function) (LI : LoopInfo)
    (hwf : F.WellFormed) (k : Nat) (r : String) (I : Instruction)
    (hI : F.modeled[k]? = some I) (hev : (k, r) ∈ tagEvents users F LI (specIdOf F)) :
    ∃ inc, I.kind = InstKind.phi inc := by
  obtain ⟨BB, hBB, L, _, _, P, hP, hphi, U, _, hue⟩ :=
    (mem_tagEvents_iff users F LI _ k r).mp hev
  obtain ⟨_, _, _, _, _, _, _, hPk, _⟩ := (mem_userEvent_iff L _ P U k r).mp hue
  rw [lookup_specIdOf_eq_specId F hwf] at hPk
  have hIm : I ∈ F.modeled := List.mem_iff_getElem?.mpr ⟨_, hI⟩
  have hIk : specId F I.handle = some k :=
    positionOf_of_getElem? _ _ k I (modeled_handles_nodup F hwf) hI rfl
  have hh : P.handle = I.handle := specId_inj F _ _ k hPk hIk
  have hPI : P = I := eq_of_mem_of_handle_eq F.insts hwf.1 P I
    (mem_insts_of_mem_block F BB hBB P hP) (List.mem_filter.mp hIm).1 hh
  rw [← hPI]
  exact hphi

/-- C16. After node creation, edge creation and reduction detection every
node with a non-empty tensor label or a non-empty index expression has the
kind "load" or "store", and every node with a non-empty reduction tag has the
kind "phi". -/
theorem annotations_match_kind (F : Function) (LI : LoopInfo) (SE : ScalarEvolution)
    (fuel : Nat) (hwf : F.WellFormed) (hfuel : fuelEnough F LI fuel = true) :
    ∃ a, analyze F LI SE fuel = some a ∧
      ∀ n ∈ a.nodes,
        ((n.tensor ≠ "" ∨ n.index ≠ "") → (n.op = "load" ∨ n.op = "store")) ∧
        (n.redVar ≠ "" → n.op = "phi") := by
  refine ⟨_, analyzeWith_eq F.users F LI SE fuel hwf hfuel, ?_⟩
  intro n hn
  obtain ⟨k, hk⟩ := List.mem_iff_getElem?.mp hn
  obtain ⟨I, hI⟩ := modeled_of_node F.users F LI SE fuel k n hk
  obtain ⟨_, hop, _, hten, hidx⟩ := node_fields F.users F LI SE fuel k I n hI hk
  constructor
  · intro hne
    cases ha : I.addrOperand with
    | some ptr => rw [hop]; exact opKind_of_addrOperand I ptr ha
    | none =>
      exfalso
      rw [specNode_tensor, ha] at hten
      rw [specNode_index, ha] at hidx
      rcases hne with h | h
      · exact h hten
      · exact h hidx
  · intro hred
    obtain ⟨n2, hn2, hiff⟩ := tagged_iff_event F.users F LI SE fuel k I hI
    have hnn : n2 = n := by
      have : some n2 = some n := by rw [← hn2]; exact hk
      exact Option.some.inj this
    subst hnn
    obtain ⟨r, hr⟩ := hiff.mp hred
    obtain ⟨inc, hinc⟩ := event_target_is_phi F.users F LI hwf k r I hI hr
    rw [hop]
    exact opKind_of_phi I inc hinc

/-- C16 on the GEMM kernel. -/
theorem annotations_match_kind_witness :
    Gemm.gemm.WellFormed ∧ fuelEnough Gemm.gemm Gemm.gemmLI 3 = true ∧
    ∃ a, analyze Gemm.gemm Gemm.gemmLI Gemm.noSE 3 = some a ∧
      ∀ n ∈ a.nodes,
        ((n.tensor ≠ "" ∨ n.index ≠ "") → (n.op = "load" ∨ n.op = "store")) ∧
        (n.redVar ≠ "" → n.op = "phi") :=
  ⟨by unfold Function.WellFormed; decide, by decide,
    annotations_match_kind Gemm.gemm Gemm.gemmLI Gemm.noSE 3
      (by unfold Function.WellFormed; decide) (by decide)⟩

/-! ## C18: the order of the edge list -/

theorem dst_of_mem_specEdgesOf (F : Function) (I : Instruction) (e : Edge)
    (he : e ∈ specEdgesOf F I) : specId F I.handle = some e.dst := by
  unfold specEdgesOf at he
  cases hs : specId F I.handle with
  | none => rw [hs] at he; cases he
  | some j =>
    rw [hs] at he
    obtain ⟨v, _, hfv⟩ := List.mem_filterMap.mp he
    cases v with
    | inst d =>
      cases hd : specId F d with
      | none => simp [hd] at hfv
      | some i =>
        simp only [hd, Option.map_some', Option.some.injEq] at hfv
        rw [← hfv]
    | _ => simp at hfv

/-- The edge list of the specification is sorted by destination. -/
theorem specEdges_sorted (F : Function) (hwf : F.WellFormed) :
    (specEdges F).Pairwise (fun e1 e2 => e1.dst ≤ e2.dst) := by
  unfold specEdges
  rw [List.pairwise_flatMap]
  constructor
  · intro I _
    apply List.pairwise_of_forall_mem_list
    intro x hx y hy
    have h1 := dst_of_mem_specEdgesOf F I x hx
    have h2 := dst_of_mem_specEdgesOf F I y hy
    rw [h1] at h2
    exact Nat.le_of_eq (Option.some.inj h2)
  · rw [List.pairwise_iff_getElem]
    intro i j hi hj hij x hx y hy
    have h1 := dst_of_mem_specEdgesOf F _ x hx
    have h2 := dst_of_mem_specEdgesOf F _ y hy
    have e1 : specId F (F.modeled[i]).handle = some i :=
      positionOf_of_getElem? _ _ i _ (modeled_handles_nodup F hwf)
        (List.getElem?_eq_getElem hi) rfl
    have e2 : specId F (F.modeled[j]).handle = some j :=
      positionOf_of_getElem? _ _ j _ (modeled_handles_nodup F hwf)
        (List.getElem?_eq_getElem hj) rfl
    rw [e1] at h1
    rw [e2] at h2
    have hx2 := Option.some.inj h1
    have hy2 := Option.some.inj h2
    omega

theorem mem_specEdges_of_operand (F : Function) (hwf : F.WellFormed) (X Y : Instruction)
    (i j : Nat) (hi : specId F X.handle = some i) (hj : specId F Y.handle = some j)
    (hY : Y ∈ F.modeled) (hop : Value.inst X.handle ∈ Y.operands) :
    { src := i, dst := j, type := "data" } ∈ specEdges F := by
  apply List.count_pos_iff.mp
  rw [count_specEdges F hwf X Y i j hi hj hY]
  exact List.count_pos_iff.mpr hop

theorem phi_operand_of_incoming (P : Instruction) (inc : List (Value × Nat)) (v : Value)
    (hP : P.kind = InstKind.phi inc) (hv : ∃ b, (v, b) ∈ inc) : v ∈ P.operands := by
  obtain ⟨b, hb⟩ := hv
  unfold Instruction.operands
  rw [hP]
  exact List.mem_map.mpr ⟨(v, b), hb, rfl⟩

/-- C18. The edge list is sorted by destination id in non-decreasing order.
Source ids are not bounded by the destination: a phi with an incoming value
that is a modeled instruction later in program order has an edge whose source
is greater than its destination, and a phi that is its own incoming value has
an edge from its node to itself. -/
theorem edges_sorted_by_destination (F : Function) (LI : LoopInfo) (SE : ScalarEvolution)
    (fuel : Nat) (hwf : F.WellFormed) (hfuel : fuelEnough F LI fuel = true) :
    ∃ a, analyze F LI SE fuel = some a ∧
      a.edges.Pairwise (fun e1 e2 => e1.dst ≤ e2.dst) ∧
      (∀ pre P mid X post inc, F.insts = pre ++ P :: (mid ++ X :: post) →
        P.kind = InstKind.phi inc → X.getOpcode ∈ modeledOpcodes →
        (∃ b, (Value.inst X.handle, b) ∈ inc) →
        ∃ i j, a.idOf.lookup X.handle = some i ∧ a.idOf.lookup P.handle = some j ∧
          j < i ∧ { src := i, dst := j, type := "data" } ∈ a.edges) ∧
      (∀ P ∈ F.insts, ∀ inc, P.kind = InstKind.phi inc →
        (∃ b, (Value.inst P.handle, b) ∈ inc) →
        ∃ j, a.idOf.lookup P.handle = some j ∧
          { src := j, dst := j, type := "data" } ∈ a.edges) := by
  refine ⟨_, analyzeWith_eq F.users F LI SE fuel hwf hfuel, ?_, ?_, ?_⟩
  · show (edgePass F (specIdOf F)).Pairwise _
    rw [edgePass_eq_specEdges F hwf]
    exact specEdges_sorted F hwf
  · intro pre P mid X post inc hF hP hX hinc
    have hPint : P.getOpcode.interesting = true := by
      simp [Instruction.getOpcode, hP, Opcode.interesting]
    have hXint := (mem_modeledOpcodes_iff _).mp hX
    have hlP := lookup_specIdOf_split F hwf pre P _ hF hPint
    have hlX := lookup_specIdOf_split F hwf (pre ++ P :: mid) X post (by simp [hF]) hXint
    have hPm : P ∈ F.modeled := List.mem_filter.mpr ⟨by rw [hF]; simp, hPint⟩
    have hsP := hlP
    have hsX := hlX
    rw [lookup_specIdOf_eq_specId F hwf] at hsP hsX
    refine ⟨_, _, hlX, hlP, ?_, ?_⟩
    · rw [List.filter_append, List.filter_cons, if_pos hPint]
      simp only [List.length_append, List.length_cons]
      omega
    · show _ ∈ edgePass F (specIdOf F)
      rw [edgePass_eq_specEdges F hwf]
      exact mem_specEdges_of_operand F hwf X P _ _ hsX hsP hPm
        (phi_operand_of_incoming P inc _ hP hinc)
  · intro P hPF inc hP hinc
    have hPint : P.getOpcode.interesting = true := by
      simp [Instruction.getOpcode, hP, Opcode.interesting]
    have hPm : P ∈ F.modeled := List.mem_filter.mpr ⟨hPF, hPint⟩
    obtain ⟨j, hj, _⟩ := specId_of_mem_modeled F hwf P hPm
    refine ⟨j, ?_, ?_⟩
    · show (specIdOf F).lookup P.handle = some j
      rw [lookup_specIdOf_eq_specId F hwf]; exact hj
    · show _ ∈ edgePass F (specIdOf F)
      rw [edgePass_eq_specEdges F hwf]
      exact mem_specEdges_of_operand F hwf P P j j hj hj hPm
        (phi_operand_of_incoming P inc _ hP hinc)

/-- C18 on the GEMM kernel, whose four phis each have a back-edge value. -/
theorem edges_sorted_by_destination_witness :
    Gemm.gemm.WellFormed ∧ fuelEnough Gemm.gemm Gemm.gemmLI 3 = true ∧
    (analyze Gemm.gemm Gemm.gemmLI Gemm.noSE 3).map
        (fun a => (a.edges.take 4).map (fun e => (e.src, e.dst)))
      = some [(17, 0), (16, 1), (12, 2), (11, 3)] ∧
    ∃ a, analyze Gemm.gemm Gemm.gemmLI Gemm.noSE 3 = some a ∧
      a.edges.Pairwise (fun e1 e2 => e1.dst ≤ e2.dst) ∧
      (∀ pre P mid X post inc, Gemm.gemm.insts = pre ++ P :: (mid ++ X :: post) →
        P.kind = InstKind.phi inc → X.getOpcode ∈ modeledOpcodes →
        (∃ b, (Value.inst X.handle, b) ∈ inc) →
        ∃ i j, a.idOf.lookup X.handle = some i ∧ a.idOf.lookup P.handle = some j ∧
          j < i ∧ { src := i, dst := j, type := "data" } ∈ a.edges) ∧
      (∀ P ∈ Gemm.gemm.insts, ∀ inc, P.kind = InstKind.phi inc →
        (∃ b, (Value.inst P.handle, b) ∈ inc) →
        ∃ j, a.idOf.lookup P.handle = some j ∧
          { src := j, dst := j, type := "data" } ∈ a.edges) :=
  ⟨by unfold Function.WellFormed; decide, by decide, by decide,
    edges_sorted_by_destination Gemm.gemm Gemm.gemmLI Gemm.noSE 3
      (by unfold Function.WellFormed; decide) (by decide)⟩

/-! ## C19: the record order of the loop walker -/

theorem Loop.visitOrderStack_eq_flatMap (Ls : List Loop) :
    Loop.visitOrderStack Ls = Ls.reverse.flatMap Loop.visitOrder := by
  induction Ls with
  | nil => rfl
  | cons L Ls ih => simp [Loop.visitOrderStack, ih, List.flatMap_append]

/-- C19. When the fuel covers the largest tree, the records are those of
`rec(T)` for the top-level loops `T` in the order of the loop provider,
concatenated, where `rec(L) = [L] ++ rec(cn) ++ ... ++ rec(c1)` for the
sub-loops `[c1, ..., cn]` of `L`: the sub-trees follow in reverse sub-loop
order, and what follows `L` in `rec(L)` is a rearrangement of all descendants
of `L`, so each loop is immediately followed by its descendants as one block. -/
theorem loop_record_order (SE : ScalarEvolution) (tops : List Loop) (fuel : Nat)
    (hfuel : ∀ T ∈ tops, Loop.size T ≤ fuel) :
    ∃ w, collectLoops SE fuel tops = some w ∧
      w.loops = (tops.flatMap Loop.visitOrder).map (loopRec SE) ∧
      (∀ L : Loop,
        Loop.visitOrder L = [L] ++ L.subLoops.reverse.flatMap Loop.visitOrder) ∧
      (∀ L : Loop, ∃ ds, Loop.visitOrder L = L :: ds ∧ ds.Perm L.descendants) := by
  refine ⟨_, collectLoops_eq SE fuel tops hfuel, rfl, ?_, ?_⟩
  · intro L
    rw [Loop.visitOrder_eq, Loop.visitOrderStack_eq_flatMap]
    rfl
  · intro L
    exact ⟨Loop.visitOrderStack L.subLoops, Loop.visitOrder_eq L,
      Loop.visitOrderStack_perm L.subLoops⟩

/-- C19 on a forest with two top-level loops, the first with two sub-loops. -/
theorem loop_record_order_witness :
    (∀ T ∈ sampleForest, Loop.size T ≤ 4) ∧
    (collectLoops Gemm.noSE 4 sampleForest).map (fun w => w.loops.map LoopRec.name)
      = some ["outer", "second", "first", "inner", "other"] ∧
    ∃ w, collectLoops Gemm.noSE 4 sampleForest = some w ∧
      w.loops = (sampleForest.flatMap Loop.visitOrder).map (loopRec Gemm.noSE) ∧
      (∀ L : Loop,
        Loop.visitOrder L = [L] ++ L.subLoops.reverse.flatMap Loop.visitOrder) ∧
      (∀ L : Loop, ∃ ds, Loop.visitOrder L = L :: ds ∧ ds.Perm L.descendants) :=
  ⟨by decide, by decide, loop_record_order Gemm.noSE sampleForest 4 (by decide)⟩

/-! ## C17: the tag written by several matching combines -/

theorem phi_of_feedsBack (L : Loop) (P U : Instruction) (h : feedsBack L P U = true) :
    ∃ inc, P.kind = InstKind.phi inc := by
  unfold feedsBack at h
  cases hk : P.kind with
  | phi inc => exact ⟨inc, rfl⟩
  | binary op lhs rhs => rw [hk] at h; cases h
  | load ptr => rw [hk] at h; cases h
  | store val ptr => rw [hk] at h; cases h
  | gep ptr idx => rw [hk] at h; cases h
  | bitcast src => rw [hk] at h; cases h
  | other op ops => rw [hk] at h; cases h

theorem userEvent_of_matching (L : Loop) (idOf : PtrMap Nat) (P U : Instruction) (k : Nat)
    (hk : idOf.lookup P.handle = some k) (hm : MatchingCombine L P U) :
    userEvent L idOf P U = [(k, redName L)] := by
  obtain ⟨op, lhs, rhs, hU, hop, hlr, inc, hkind, hinc⟩ := hm
  have hfb : feedsBack L P U = true := (feedsBack_iff L P U inc hkind).mpr hinc
  have h1 : (op != BinOp.FAdd && op != BinOp.Add) = false := by
    rcases hop with h | h <;> subst h <;> rfl
  have h2 : (lhs != Value.inst P.handle && rhs != Value.inst P.handle) = false := by
    rcases hlr with h | h <;> simp [h]
  unfold userEvent
  rw [hU]
  simp [h1, h2, hfb, hk]

theorem userEvent_of_not_matching (L : Loop) (idOf : PtrMap Nat) (P U : Instruction)
    (hm : ¬ MatchingCombine L P U) : userEvent L idOf P U = [] := by
  apply List.eq_nil_iff_forall_not_mem.mpr
  rintro ⟨k, r⟩ hmem
  obtain ⟨op, lhs, rhs, hU, hop, hlr, hfb, _, _⟩ := (mem_userEvent_iff L idOf P U k r).mp hmem
  obtain ⟨inc, hkind⟩ := phi_of_feedsBack L P U hfb
  exact hm ⟨op, lhs, rhs, hU, hop, hlr, inc, hkind, (feedsBack_iff L P U inc hkind).mp hfb⟩

theorem lookup_of_all_eq {β : Type} (k : Nat) (r : β) :
    ∀ (l : List (Nat × β)), (∀ e ∈ l, e = (k, r)) → l ≠ [] → l.lookup k = some r := by
  intro l hall hne
  cases l with
  | nil => exact absurd rfl hne
  | cons e es =>
    have he := hall e (List.mem_cons_self _ _)
    subst he
    simp

/-- The assignments made for the users `us` of a phi whose node is `k`: none
if no user is a matching combine, and otherwise only assignments of the name
of the loop to node `k`. -/
theorem userEvents_of_phi (L : Loop) (idOf : PtrMap Nat) (P : Instruction) (k : Nat)
    (hk : idOf.lookup P.handle = some k) (us : List Instruction) :
    (∀ e ∈ us.flatMap (userEvent L idOf P), e = (k, redName L)) ∧
    ((∀ U ∈ us, ¬ MatchingCombine L P U) → us.flatMap (userEvent L idOf P) = []) ∧
    ((∃ U ∈ us, MatchingCombine L P U) → us.flatMap (userEvent L idOf P) ≠ []) := by
  refine ⟨?_, ?_, ?_⟩
  · rintro ⟨k2, r⟩ hmem
    obtain ⟨U, _, hU⟩ := List.mem_flatMap.mp hmem
    obtain ⟨_, _, _, _, _, _, _, hk2, hr⟩ := (mem_userEvent_iff L idOf P U k2 r).mp hU
    rw [hk] at hk2
    rw [Option.some.inj hk2, hr]
  · intro hnone
    apply List.flatMap_eq_nil_iff.mpr
    intro U hU
    exact userEvent_of_not_matching L idOf P U (hnone U hU)
  · rintro ⟨U, hU, hm⟩ hnil
    have hmem : (k, redName L) ∈ us.flatMap (userEvent L idOf P) :=
      List.mem_flatMap.mpr ⟨U, hU, by rw [userEvent_of_matching L idOf P U k hk hm]; simp⟩
    rw [hnil] at hmem
    cases hmem

/-- Processing a part `us` of the consumers of a phi leaves the nodes as they
are while no matching combine has been seen, and from the first matching
combine on the node of the phi carries the name of the loop. -/
theorem foldl_tagUser_prefix (L : Loop) (idOf : PtrMap Nat) (P : Instruction) (k : Nat)
    (hk : idOf.lookup P.handle = some k) (us : List Instruction) (ns : List Node) :
    ((∀ U ∈ us, ¬ MatchingCombine L P U) → us.foldl (tagUser L idOf P) ns = ns) ∧
    ((∃ U ∈ us, MatchingCombine L P U) → ∀ m, ns[k]? = some m →
      (us.foldl (tagUser L idOf P) ns)[k]? = some { m with redVar := redName L }) := by
  have hfold := foldl_applyEvents _ _ (tagUser_eq L idOf P) us ns
  obtain ⟨hall, hnone, hsome⟩ := userEvents_of_phi L idOf P k hk us
  constructor
  · intro h
    rw [hfold, hnone h]
    rfl
  · intro h m hm
    rw [hfold, applyEvents_getElem?, hm]
    have hl : (us.flatMap (userEvent L idOf P)).reverse.lookup k = some (redName L) :=
      lookup_of_all_eq k _ _ (fun e he => hall e (List.mem_reverse.mp he))
        (fun hnil => hsome h (List.reverse_eq_nil_iff.mp hnil))
    simp [hl]

/-- Every assignment to the node of a phi writes the name of the loop of the
block of the phi. -/
theorem event_name_eq (users : Nat → List Instruction) (F : Function) (LI : LoopInfo)
    (hwf : F.WellFormed) (k : Nat) (r : String) (B : BasicBlock) (P : Instruction) (L : Loop)
    (hB : B ∈ F.blocks) (hP : P ∈ B.insts) (hk : specId F P.handle = some k)
    (hL : LI.getLoopFor B.handle = some L)
    (hev : (k, r) ∈ tagEvents users F LI (specIdOf F)) : r = redName L := by
  obtain ⟨BB, hBB, L2, hL2, _, I, hI, _, U, _, hue⟩ :=
    (mem_tagEvents_iff users F LI _ k r).mp hev
  obtain ⟨_, _, _, _, _, _, _, hIk, hr⟩ := (mem_userEvent_iff L2 _ I U k r).mp hue
  rw [lookup_specIdOf_eq_specId F hwf] at hIk
  have hh : I.handle = P.handle := specId_inj F _ _ k hIk hk
  have hIP : I = P := eq_of_mem_of_handle_eq F.insts hwf.1 I P
    (mem_insts_of_mem_block F BB hBB I hI) (mem_insts_of_mem_block F B hB P hP) hh
  subst hIP
  have hBeq : BB = B := block_unique F hwf.1 BB B hBB hB I hI hP
  subst hBeq
  rw [hL] at hL2
  rw [hr, ← Option.some.inj hL2]

/-- C17. Let `users` be any enumeration of the consumers of the phis, and call
a consumer `U` of a phi `P` a matching combine for the loop `L` when `U` is an
Add or FAdd binary operator with `P` as operand 0 or operand 1 and some
incoming value of `P` is `U` itself, coming from a block of `L`.  For a phi
`P` in a block whose loop `L` has no sub-loops, with at least one matching
combine among its consumers, the tag finally stored on the node of `P` is the
header name of `L`, or "k" when the header has no name; it is not empty and
does not depend on `users`.  While the consumers of `P` are processed, the
nodes are unchanged as long as no matching combine has been met, and after
any part of the enumeration that contains a matching combine the node of `P`
carries the final tag: the first matching combine sets it and later ones do
not change it. -/
theorem reduction_tag_first_match (users : Nat → List Instruction) (F : Function)
    (LI : LoopInfo) (SE : ScalarEvolution) (fuel : Nat) (hwf : F.WellFormed)
    (hfuel : fuelEnough F LI fuel = true) :
    ∃ a, analyzeWith users F LI SE fuel = some a ∧
      ∀ B ∈ F.blocks, ∀ P ∈ B.insts, ∀ inc, P.kind = InstKind.phi inc →
        ∀ L, LI.getLoopFor B.handle = some L → L.subLoops = [] →
        (∃ U ∈ users P.handle, MatchingCombine L P U) →
        ∃ k n, a.idOf.lookup P.handle = some k ∧ a.nodes[k]? = some n ∧
          n.redVar = (match L.header with
            | some nm => if nm ≠ "" then nm else "k"
            | none => "k") ∧
          n.redVar ≠ "" ∧
          ∀ (us1 us2 : List Instruction) (ns : List Node), users P.handle = us1 ++ us2 →
            ((∀ U ∈ us1, ¬ MatchingCombine L P U) →
              us1.foldl (tagUser L a.idOf P) ns = ns) ∧
            ((∃ U ∈ us1, MatchingCombine L P U) → ∀ m, ns[k]? = some m →
              (us1.foldl (tagUser L a.idOf P) ns)[k]?
                = some { m with redVar := n.redVar }) := by
  refine ⟨_, analyzeWith_eq users F LI SE fuel hwf hfuel, ?_⟩
  intro B hB P hP inc hkind L hL hsub hmatch
  have hPF : P ∈ F.insts := mem_insts_of_mem_block F B hB P hP
  have hPm : P ∈ F.modeled := by
    refine List.mem_filter.mpr ⟨hPF, ?_⟩
    simp [Instruction.getOpcode, hkind, Opcode.interesting]
  obtain ⟨k, hk, hget⟩ := specId_of_mem_modeled F hwf P hPm
  have hlk : (specIdOf F).lookup P.handle = some k := by
    rw [lookup_specIdOf_eq_specId F hwf]; exact hk
  obtain ⟨U, hU, hm⟩ := hmatch
  have hev : (k, redName L) ∈ tagEvents users F LI (specIdOf F) := by
    obtain ⟨op, lhs, rhs, hUk, hop, hlr, inc2, hkind2, hinc⟩ := hm
    exact (mem_tagEvents_iff users F LI _ k _).mpr
      ⟨B, hB, L, hL, hsub, P, hP, ⟨inc, hkind⟩, U, hU,
        (mem_userEvent_iff L _ P U k _).mpr ⟨op, lhs, rhs, hUk, hop, hlr,
          (feedsBack_iff L P U inc2 hkind2).mpr hinc, hlk, rfl⟩⟩
  have hnode : ∃ n, (applyEvents (specNodes F SE fuel)
      (tagEvents users F LI (specIdOf F)))[k]? = some n ∧ n.redVar = redName L := by
    rw [taggedNodes_getElem?, hget]
    cases hl : (tagEvents users F LI (specIdOf F)).reverse.lookup k with
    | none =>
      exfalso
      have h := List.lookup_eq_none_iff.mp hl (k, redName L) (List.mem_reverse.mpr hev)
      simp at h
    | some r =>
      refine ⟨_, rfl, ?_⟩
      exact event_name_eq users F LI hwf k r B P L hB hP hk hL
        (List.mem_reverse.mp (mem_of_lookup_eq_some _ k r hl))
  obtain ⟨n, hn, hred⟩ := hnode
  have hname : redName L = (match L.header with
      | some nm => if nm ≠ "" then nm else "k"
      | none => "k") := by
    unfold redName
    cases L.header with
    | none => rfl
    | some nm => by_cases h : nm = "" <;> simp [h]
  refine ⟨k, n, hlk, hn, by rw [hred, hname], by rw [hred]; exact redName_ne_empty L, ?_⟩
  intro us1 us2 ns _
  rw [hred]
  exact foldl_tagUser_prefix L (specIdOf F) P k hlk us1 ns

/-- C17 on `twoLatches`, whose phi `%s` has the two matching combines `%s.odd`
and `%s.even`, with the consumers enumerated in reverse program order: node 0
of the phi carries the tag "head". -/
theorem reduction_tag_first_match_witness :
    twoLatches.WellFormed ∧ fuelEnough twoLatches twoLI 2 = true ∧
    headBlock ∈ twoLatches.blocks ∧ sumPhi ∈ headBlock.insts ∧
    sumPhi.kind = InstKind.phi [(.const "0", 0), (.inst 14, 2), (.inst 16, 3)] ∧
    twoLI.getLoopFor headBlock.handle = some twoLoop ∧ twoLoop.subLoops = [] ∧
    (twoLatches.users sumPhi.handle).reverse
      = [{ handle := 19, type := Ty.void, kind := .other .Ret [.inst 11] }, addEven, addOdd,
         { handle := 12, type := Ty.integer 1, kind := .other .ICmp [.inst 11, .arg 0] }] ∧
    MatchingCombine twoLoop sumPhi addEven ∧ MatchingCombine twoLoop sumPhi addOdd ∧
    ∃ a, analyzeWith (fun h => (twoLatches.users h).reverse) twoLatches twoLI Gemm.noSE 2
        = some a ∧
      ∃ k n, a.idOf.lookup sumPhi.handle = some k ∧ a.nodes[k]? = some n ∧
        n.redVar = (match twoLoop.header with
          | some nm => if nm ≠ "" then nm else "k"
          | none => "k") ∧
        n.redVar ≠ "" ∧
        ∀ (us1 us2 : List Instruction) (ns : List Node),
          (twoLatches.users sumPhi.handle).reverse = us1 ++ us2 →
          ((∀ U ∈ us1, ¬ MatchingCombine twoLoop sumPhi U) →
            us1.foldl (tagUser twoLoop a.idOf sumPhi) ns = ns) ∧
          ((∃ U ∈ us1, MatchingCombine twoLoop sumPhi U) → ∀ m, ns[k]? = some m →
            (us1.foldl (tagUser twoLoop a.idOf sumPhi) ns)[k]?
              = some { m with redVar := n.redVar }) :=
  have hEven : MatchingCombine twoLoop sumPhi addEven :=
    ⟨.Add, .const "2", .inst 11, rfl, Or.inl rfl, Or.inr rfl, _, rfl, (.inst 16, 3),
      by decide, rfl, by decide⟩
  have hOdd : MatchingCombine twoLoop sumPhi addOdd :=
    ⟨.Add, .inst 11, .const "1", rfl, Or.inl rfl, Or.inl rfl, _, rfl, (.inst 14, 2),
      by decide, rfl, by decide⟩
  ⟨by unfold Function.WellFormed; decide, by decide, by decide, by decide, rfl, rfl, rfl,
    by decide, hEven, hOdd,
    match reduction_tag_first_match (fun h => (twoLatches.users h).reverse) twoLatches twoLI
        Gemm.noSE 2 (by unfold Function.WellFormed; decide) (by decide) with
    | ⟨a, ha, h⟩ =>
      ⟨a, ha, h headBlock (by decide) sumPhi (by decide) _ rfl twoLoop rfl rfl
        ⟨addEven, by decide, hEven⟩⟩⟩

/-! ## C13: node and edge objects of the dump -/

theorem tyBits_ne_empty (t : Ty) : tyBits t ≠ "" := by
  cases t <;>
    first
    | exact toString_nat_ne_empty _
    | (apply string_ne_empty_of_data
       simp [tyBits, String.data_append, toString_nat_data_ne_nil])

theorem bwOf_ne_empty (I : Instruction) : bwOf I ≠ "" := by
  unfold bwOf
  split
  · decide
  · exact tyBits_ne_empty _

theorem opKind_ne_empty (I : Instruction) (h : I.getOpcode.interesting = true) :
    opKind I ≠ "" := by
  have hm := opKind_mem_of_interesting I h
  intro e
  rw [e] at hm
  revert hm
  decide

theorem idText_ne_empty (n : Nat) : "n" ++ toString n ≠ "" := by
  apply string_ne_empty_of_data
  simp [String.data_append]

theorem optional_values_ne_empty (N : Node) (kv : String × String)
    (h : kv ∈ (nodeFields N).drop 3) : kv.2 ≠ "" := by
  unfold nodeFields at h
  by_cases ht : N.tensor = "" <;> by_cases hi : N.index = "" <;> by_cases hr : N.redVar = "" <;>
    simp only [ht, hi, hr, if_true, if_false, List.cons_append, List.nil_append,
      List.append_nil, List.drop_succ_cons, List.drop_zero, List.mem_cons, List.not_mem_nil,
      or_false] at h <;>
    first
    | exact absurd h id
    | (rcases h with rfl | rfl | rfl <;> assumption)

theorem keys_of_nodeFields (N : Node) :
    (nodeFields N).take 3 = [("id", "n" ++ toString N.id), ("op", N.op), ("bw", N.bw)] ∧
    ((nodeFields N).drop 3).map Prod.fst
      = (if N.tensor = "" then [] else ["tensor"]) ++ (if N.index = "" then [] else ["index"])
          ++ (if N.redVar = "" then [] else ["reduction"]) ∧
    (("tensor", N.tensor) ∈ nodeFields N ↔ N.tensor ≠ "") ∧
    (("index", N.index) ∈ nodeFields N ↔ N.index ≠ "") ∧
    (("reduction", N.redVar) ∈ nodeFields N ↔ N.redVar ≠ "") ∧
    ("tensor" ∈ (nodeFields N).map Prod.fst ↔ N.tensor ≠ "") ∧
    ("index" ∈ (nodeFields N).map Prod.fst ↔ N.index ≠ "") ∧
    ("reduction" ∈ (nodeFields N).map Prod.fst ↔ N.redVar ≠ "") := by
  unfold nodeFields
  by_cases ht : N.tensor = "" <;> by_cases hi : N.index = "" <;> by_cases hr : N.redVar = "" <;>
    simp [ht, hi, hr]

theorem emitJson_eq (kernel : String) (loops : List LoopRec) (nodes : List Node)
    (edges : List Edge) :
    emitJson kernel loops nodes edges
      = "\x7b\n" ++ "  \"kernel\": \"" ++ kernel ++ "\",\n" ++ "  \"loops\": [\n"
          ++ emitFrom loopObject loops.length 0 loops
          ++ "  ],\n" ++ "  \"dfg\": \x7b\n" ++ "    \"nodes\": [\n"
          ++ concatStrings (nodes.enum.map (fun p =>
              "      " ++ renderObject (nodeFields p.2) ++ separator p.1 nodes.length))
          ++ "    ],\n" ++ "    \"edges\": [\n"
          ++ concatStrings (edges.enum.map (fun p =>
              "      " ++ renderObject (edgeFields p.2) ++ separator p.1 edges.length))
          ++ "    ]\n" ++ "  \x7d\n" ++ "\x7d\n" := by
  unfold emitJson
  rw [emitFrom_eq nodeObject, emitFrom_eq edgeObject]
  simp only [nodeObject_eq, edgeObject_eq, List.enum]

theorem analysis_values_ne_empty (users : Nat → List Instruction) (F : Function)
    (LI : LoopInfo) (SE : ScalarEvolution) (fuel : Nat) (N : Node)
    (hN : N ∈ applyEvents (specNodes F SE fuel) (tagEvents users F LI (specIdOf F))) :
    N.op ≠ "" ∧ N.bw ≠ "" := by
  obtain ⟨k, hk⟩ := List.mem_iff_getElem?.mp hN
  have hm : ∃ I, F.modeled[k]? = some I := by
    have h := taggedNodes_getElem? users F LI SE fuel k
    rw [hk] at h
    cases hI : F.modeled[k]? with
    | none => rw [hI] at h; cases h
    | some I => exact ⟨I, rfl⟩
  obtain ⟨I, hI⟩ := hm
  obtain ⟨_, hop, hbw, _, _⟩ := node_fields users F LI SE fuel k I N hI hk
  have hmem : I ∈ F.modeled := List.mem_iff_getElem?.mpr ⟨k, hI⟩
  have hint : I.getOpcode.interesting = true := by
    unfold Function.modeled at hmem
    exact (List.mem_filter.mp hmem).2
  rw [hop, hbw]
  exact ⟨opKind_ne_empty I hint, bwOf_ne_empty I⟩

/-- C13. The dump writes, between the brackets of `nodes`, one object per node
in list order, each `\x7b"id":"n<id>","op":"..","bw":".."` followed by the
`tensor`, `index` and `reduction` members, in this order and each exactly when
its value is not empty, and between the brackets of `edges` one object
`\x7b"src":"n<src>","dst":"n<dst>","type":".."\x7d` per edge in list order;
every value is a quoted text, and an optional member is never written with an
empty value. For the lists that the analysis hands to the dump (function with
distinct instruction objects, enough fuel) list order is ascending id order,
the ids counting up from zero, and no member of a node or edge object has an
empty value. -/
theorem dump_node_and_edge_objects (kernel : String) (loops : List LoopRec)
    (nodes : List Node) (edges : List Edge) (F : Function) (LI : LoopInfo)
    (SE : ScalarEvolution) (fuel : Nat) (hwf : F.WellFormed)
    (hfuel : fuelEnough F LI fuel = true) :
    emitJson kernel loops nodes edges
      = "\x7b\n" ++ "  \"kernel\": \"" ++ kernel ++ "\",\n" ++ "  \"loops\": [\n"
          ++ emitFrom loopObject loops.length 0 loops
          ++ "  ],\n" ++ "  \"dfg\": \x7b\n" ++ "    \"nodes\": [\n"
          ++ concatStrings (nodes.enum.map (fun p =>
              "      " ++ renderObject (nodeFields p.2) ++ separator p.1 nodes.length))
          ++ "    ],\n" ++ "    \"edges\": [\n"
          ++ concatStrings (edges.enum.map (fun p =>
              "      " ++ renderObject (edgeFields p.2) ++ separator p.1 edges.length))
          ++ "    ]\n" ++ "  \x7d\n" ++ "\x7d\n" ∧
    (∀ N : Node,
      (nodeFields N).take 3 = [("id", "n" ++ toString N.id), ("op", N.op), ("bw", N.bw)] ∧
      ((nodeFields N).drop 3).map Prod.fst
        = (if N.tensor = "" then [] else ["tensor"])
            ++ (if N.index = "" then [] else ["index"])
            ++ (if N.redVar = "" then [] else ["reduction"]) ∧
      (("tensor", N.tensor) ∈ nodeFields N ↔ N.tensor ≠ "") ∧
      (("index", N.index) ∈ nodeFields N ↔ N.index ≠ "") ∧
      (("reduction", N.redVar) ∈ nodeFields N ↔ N.redVar ≠ "") ∧
      ("tensor" ∈ (nodeFields N).map Prod.fst ↔ N.tensor ≠ "") ∧
      ("index" ∈ (nodeFields N).map Prod.fst ↔ N.index ≠ "") ∧
      ("reduction" ∈ (nodeFields N).map Prod.fst ↔ N.redVar ≠ "")) ∧
    (∀ (N : Node) (kv : String × String), kv ∈ (nodeFields N).drop 3 → kv.2 ≠ "") ∧
    (∀ E : Edge, edgeFields E
      = [("src", "n" ++ toString E.src), ("dst", "n" ++ toString E.dst), ("type", E.type)]) ∧
    ∃ a, analyze F LI SE fuel = some a ∧
      (F.isDeclaration = false →
        run F LI SE fuel false = some (some (emitJson F.name a.loops a.nodes a.edges))) ∧
      a.nodes.map Node.id = List.range a.nodes.length ∧
      (∀ N ∈ a.nodes, ∀ kv ∈ nodeFields N, kv.2 ≠ "") ∧
      (∀ E ∈ a.edges, ∀ kv ∈ edgeFields E, kv.2 ≠ "") := by
  refine ⟨emitJson_eq kernel loops nodes edges, keys_of_nodeFields, optional_values_ne_empty,
    fun _ => rfl, _, analyzeWith_eq F.users F LI SE fuel hwf hfuel, ?_, ?_, ?_, ?_⟩
  · intro hd
    unfold run
    rw [hd]
    unfold analyze
    rw [analyzeWith_eq F.users F LI SE fuel hwf hfuel]
    rfl
  · exact taggedNodes_ids F.users F LI SE fuel
  · intro N hN kv hkv
    obtain ⟨hop, hbw⟩ := analysis_values_ne_empty F.users F LI SE fuel N hN
    rw [← List.take_append_drop 3 (nodeFields N)] at hkv
    rcases List.mem_append.mp hkv with h | h
    · rw [(keys_of_nodeFields N).1] at h
      simp only [List.mem_cons, List.not_mem_nil, or_false] at h
      rcases h with rfl | rfl | rfl
      · exact idText_ne_empty _
      · exact hop
      · exact hbw
    · exact optional_values_ne_empty N kv h
  · intro E hE kv hkv
    have hE2 : E ∈ specEdges F := by
      have h : E ∈ edgePass F (specIdOf F) := hE
      rwa [edgePass_eq_specEdges F hwf] at h
    have hty := type_of_mem_specEdges F E hE2
    unfold edgeFields at hkv
    simp only [List.mem_cons, List.not_mem_nil, or_false] at hkv
    rcases hkv with rfl | rfl | rfl
    · exact idText_ne_empty _
    · exact idText_ne_empty _
    · show E.type ≠ ""
      rw [hty]
      decide

/-- C13 on two sample lists and on the GEMM kernel. -/
theorem dump_node_and_edge_objects_witness :
    Gemm.gemm.WellFormed ∧ fuelEnough Gemm.gemm Gemm.gemmLI 3 = true ∧
    emitJson "k" [] sampleNodes sampleEdges
      = "\x7b\n" ++ "  \"kernel\": \"" ++ "k" ++ "\",\n" ++ "  \"loops\": [\n"
          ++ emitFrom loopObject 0 0 []
          ++ "  ],\n" ++ "  \"dfg\": \x7b\n" ++ "    \"nodes\": [\n"
          ++ concatStrings (sampleNodes.enum.map (fun p =>
              "      " ++ renderObject (nodeFields p.2) ++ separator p.1 sampleNodes.length))
          ++ "    ],\n" ++ "    \"edges\": [\n"
          ++ concatStrings (sampleEdges.enum.map (fun p =>
              "      " ++ renderObject (edgeFields p.2) ++ separator p.1 sampleEdges.length))
          ++ "    ]\n" ++ "  \x7d\n" ++ "\x7d\n" ∧
    (∀ N : Node,
      (nodeFields N).take 3 = [("id", "n" ++ toString N.id), ("op", N.op), ("bw", N.bw)] ∧
      ((nodeFields N).drop 3).map Prod.fst
        = (if N.tensor = "" then [] else ["tensor"])
            ++ (if N.index = "" then [] else ["index"])
            ++ (if N.redVar = "" then [] else ["reduction"]) ∧
      (("tensor", N.tensor) ∈ nodeFields N ↔ N.tensor ≠ "") ∧
      (("index", N.index) ∈ nodeFields N ↔ N.index ≠ "") ∧
      (("reduction", N.redVar) ∈ nodeFields N ↔ N.redVar ≠ "") ∧
      ("tensor" ∈ (nodeFields N).map Prod.fst ↔ N.tensor ≠ "") ∧
      ("index" ∈ (nodeFields N).map Prod.fst ↔ N.index ≠ "") ∧
      ("reduction" ∈ (nodeFields N).map Prod.fst ↔ N.redVar ≠ "")) ∧
    (∀ (N : Node) (kv : String × String), kv ∈ (nodeFields N).drop 3 → kv.2 ≠ "") ∧
    (∀ E : Edge, edgeFields E
      = [("src", "n" ++ toString E.src), ("dst", "n" ++ toString E.dst), ("type", E.type)]) ∧
    ∃ a, analyze Gemm.gemm Gemm.gemmLI Gemm.noSE 3 = some a ∧
      (Gemm.gemm.isDeclaration = false →
        run Gemm.gemm Gemm.gemmLI Gemm.noSE 3 false
          = some (some (emitJson Gemm.gemm.name a.loops a.nodes a.edges))) ∧
      a.nodes.map Node.id = List.range a.nodes.length ∧
      (∀ N ∈ a.nodes, ∀ kv ∈ nodeFields N, kv.2 ≠ "") ∧
      (∀ E ∈ a.edges, ∀ kv ∈ edgeFields E, kv.2 ≠ "") :=
  ⟨by unfold Function.WellFormed; decide, by decide,
    dump_node_and_edge_objects "k" [] sampleNodes sampleEdges Gemm.gemm Gemm.gemmLI Gemm.noSE 3
      (by unfold Function.WellFormed; decide) (by decide)⟩

/-! ## The scanner accepts every well-formed JSON text -/

theorem scan_append (st : ScanState) (a b : List Char) :
    scan st (a ++ b) = (scan st a).bind (fun st2 => scan st2 b) := by
  unfold scan
  rw [List.foldlM_append]
  rfl

theorem scan_cons (st : ScanState) (c : Char) (cs : List Char) :
    scan st (c :: cs) = (scanStep st c).bind (fun st2 => scan st2 cs) := rfl

theorem scan_nil (st : ScanState) : scan st [] = some st := rfl

/-- A text of characters that can stand outside of strings leaves the scan
outside. -/
theorem scan_outside_of_all (w : List Char)
    (h : ∀ c ∈ w, c ≠ dquote ∧ allowedOutside c = true) :
    scan .outside w = some .outside := by
  induction w with
  | nil => rfl
  | cons c w ih =>
    have hc := h c (List.mem_cons_self _ _)
    have hs : scanStep .outside c = some .outside := by
      simp only [scanStep, beq_iff_eq, hc.1, hc.2, if_true, if_false]
    rw [scan_cons, hs]
    exact ih (fun d hd => h d (List.mem_cons_of_mem _ hd))

theorem wsChar_outside (c : Char) (h : wsChar c = true) :
    c ≠ dquote ∧ allowedOutside c = true := by
  refine ⟨?_, by simp [allowedOutside, h]⟩
  intro e
  rw [e] at h
  revert h
  decide

theorem scan_ws (w : List Char) (h : IsWs w) : scan .outside w = some .outside :=
  scan_outside_of_all w (fun c hc => wsChar_outside c (h c hc))

theorem isDigit_outside (c : Char) (h : c.isDigit = true) :
    c ≠ dquote ∧ allowedOutside c = true := by
  refine ⟨?_, by simp [allowedOutside, h]⟩
  intro e
  rw [e] at h
  revert h
  decide

theorem digits_outside (ds : List Char) (h : IsDigits ds) :
    ∀ c ∈ ds, c ≠ dquote ∧ allowedOutside c = true :=
  fun c hc => isDigit_outside c (h.2 c hc)

theorem number_outside (cs : List Char) (h : IsNumber cs) :
    ∀ c ∈ cs, c ≠ dquote ∧ allowedOutside c = true := by
  obtain ⟨i, f, e, hi, hf, he, rfl⟩ := h
  have hminus : '-' ≠ dquote ∧ allowedOutside '-' = true := by decide
  have hplus : '+' ≠ dquote ∧ allowedOutside '+' = true := by decide
  have hdot : '.' ≠ dquote ∧ allowedOutside '.' = true := by decide
  have hlow : 'e' ≠ dquote ∧ allowedOutside 'e' = true := by decide
  have hup : 'E' ≠ dquote ∧ allowedOutside 'E' = true := by decide
  intro c hc
  rcases List.mem_append.mp hc with hc | hc
  · obtain ⟨ds, hds, _, hi2 | hi2⟩ := hi
    · rw [hi2] at hc
      exact digits_outside ds hds c hc
    · rw [hi2] at hc
      rcases List.mem_cons.mp hc with rfl | hc
      · exact hminus
      · exact digits_outside ds hds c hc
  rcases List.mem_append.mp hc with hc | hc
  · rcases hf with rfl | ⟨ds, hds, rfl⟩
    · cases hc
    · rcases List.mem_cons.mp hc with rfl | hc
      · exact hdot
      · exact digits_outside ds hds c hc
  · rcases he with rfl | ⟨s, ds, hs, hds, he⟩
    · cases hc
    · have hsd : ∀ c ∈ s ++ ds, c ≠ dquote ∧ allowedOutside c = true := by
        intro c hc
        rcases List.mem_append.mp hc with hc | hc
        · rcases hs with rfl | rfl | rfl
          · cases hc
          · rw [List.mem_singleton.mp hc]; exact hplus
          · rw [List.mem_singleton.mp hc]; exact hminus
        · exact digits_outside ds hds c hc
      rcases he with rfl | rfl
      · rcases List.mem_cons.mp hc with rfl | hc
        · exact hlow
        · exact hsd c hc
      · rcases List.mem_cons.mp hc with rfl | hc
        · exact hup
        · exact hsd c hc

theorem hexValue_ne (c : Char) (v : Nat) (h : hexValue c = some v) :
    c ≠ dquote ∧ c ≠ backslash := by
  have hq : hexValue dquote = none := by decide
  have hb : hexValue backslash = none := by decide
  constructor
  · intro e
    rw [e, hq] at h
    cases h
  · intro e
    rw [e, hb] at h
    cases h

theorem scanStep_inside (c : Char) (h1 : c ≠ dquote) (h2 : c ≠ backslash) :
    scanStep .inside c = some .inside := by
  simp only [scanStep, beq_iff_eq, h1, h2, if_false]

theorem scanStep_backslash : scanStep .inside backslash = some .escaped := by decide

/-- The text between the quotes of a string leaves the scan inside. -/
theorem scan_chars (t s : List Char) (h : JChars t s) : scan .inside t = some .inside := by
  induction h with
  | nil => rfl
  | plain c t s hc _ ih =>
    have h1 : c ≠ dquote ∧ c ≠ backslash := by
      simp only [plainChar, bne_iff_ne, ne_eq, Bool.and_eq_true, decide_eq_true_eq] at hc
      exact hc.1
    rw [scan_cons, scanStep_inside c h1.1 h1.2]
    exact ih
  | escape e d t s _ _ ih =>
    rw [scan_cons, scanStep_backslash]
    exact ih
  | unicode a b c d va vb vc vd t s ha hb hc hd _ ih =>
    have h1 := hexValue_ne a va ha
    have h2 := hexValue_ne b vb hb
    have h3 := hexValue_ne c vc hc
    have h4 := hexValue_ne d vd hd
    rw [scan_cons, scanStep_backslash]
    show scan .inside (a :: b :: c :: d :: t) = some .inside
    rw [scan_cons, scanStep_inside a h1.1 h1.2]
    show scan .inside (b :: c :: d :: t) = some .inside
    rw [scan_cons, scanStep_inside b h2.1 h2.2]
    show scan .inside (c :: d :: t) = some .inside
    rw [scan_cons, scanStep_inside c h3.1 h3.2]
    show scan .inside (d :: t) = some .inside
    rw [scan_cons, scanStep_inside d h4.1 h4.2]
    exact ih

theorem scan_quoted (t s : List Char) (h : JChars t s) (rest : List Char) :
    scan .outside (dquote :: (t ++ dquote :: rest)) = scan .outside rest := by
  have h0 : scanStep .outside dquote = some .inside := by decide
  have h1 : scanStep .inside dquote = some .outside := by decide
  rw [scan_cons, h0]
  simp only [Option.bind, scan_append, scan_chars t s h, scan_cons, h1]

theorem scan_bracketed (l r : Char) (t : List Char)
    (hl : scanStep .outside l = some .outside) (hr : scanStep .outside r = some .outside)
    (h : scan .outside t = some .outside) : scan .outside (l :: (t ++ [r])) = some .outside := by
  rw [scan_cons, hl]
  simp only [Option.bind, scan_append, h, scan_cons, hr, scan_nil]

theorem scan_seq (a b : List Char) (ha : scan .outside a = some .outside)
    (hb : scan .outside b = some .outside) : scan .outside (a ++ b) = some .outside := by
  rw [scan_append, ha]
  exact hb

theorem scan_sep (c : Char) (b : List Char) (hc : scanStep .outside c = some .outside)
    (hb : scan .outside b = some .outside) : scan .outside (c :: b) = some .outside := by
  rw [scan_cons, hc]
  exact hb

/-- Every text derived from a nonterminal of the grammar leaves the scan
outside of strings. -/
theorem scan_derives (nt : Nonterminal) (t : List Char) (v : Json) (h : Derives nt t v) :
    scan .outside t = some .outside := by
  have hlb : scanStep .outside lbracket = some .outside := by decide
  have hrb : scanStep .outside rbracket = some .outside := by decide
  have hlc : scanStep .outside lbrace = some .outside := by decide
  have hrc : scanStep .outside rbrace = some .outside := by decide
  have hco : scanStep .outside colon = some .outside := by decide
  have hcm : scanStep .outside comma = some .outside := by decide
  induction h with
  | null => decide
  | true => decide
  | false => decide
  | number cs h => exact scan_outside_of_all cs (number_outside cs h)
  | string t s h =>
    have := scan_quoted t s h []
    simpa using this
  | emptyArray w hw => exact scan_bracketed _ _ w hlb hrb (scan_ws w hw)
  | array t vs _ ih => exact scan_bracketed _ _ t hlb hrb ih
  | emptyObject w hw => exact scan_bracketed _ _ w hlc hrc (scan_ws w hw)
  | object t kvs _ ih => exact scan_bracketed _ _ t hlc hrc ih
  | element w1 t w2 v h1 _ h2 ih =>
    exact scan_seq _ _ (scan_ws w1 h1) (scan_seq _ _ ih (scan_ws w2 h2))
  | elementCons w1 t w2 r v vs h1 _ h2 _ ih ihr =>
    exact scan_seq _ _ (scan_ws w1 h1)
      (scan_seq _ _ ih (scan_seq _ _ (scan_ws w2 h2) (scan_sep _ _ hcm ihr)))
  | member w1 kt ks w2 w3 t w4 v h1 hk h2 h3 _ h4 ih =>
    refine scan_seq _ _ (scan_ws w1 h1) ?_
    rw [scan_quoted kt ks hk]
    exact scan_seq _ _ (scan_ws w2 h2)
      (scan_sep _ _ hco (scan_seq _ _ (scan_ws w3 h3) (scan_seq _ _ ih (scan_ws w4 h4))))
  | memberCons w1 kt ks w2 w3 t w4 r v kvs h1 hk h2 h3 _ h4 _ ih ihr =>
    refine scan_seq _ _ (scan_ws w1 h1) ?_
    rw [scan_quoted kt ks hk]
    exact scan_seq _ _ (scan_ws w2 h2)
      (scan_sep _ _ hco (scan_seq _ _ (scan_ws w3 h3)
        (scan_seq _ _ ih (scan_seq _ _ (scan_ws w4 h4) (scan_sep _ _ hcm ihr)))))

/-- A well-formed JSON text leaves the scan outside of strings. -/
theorem scan_wellFormed (text : List Char) (h : WellFormedJson text) :
    scan .outside text = some .outside := by
  obtain ⟨v, w1, t, w2, h1, hd, h2, rfl⟩ := h
  exact scan_seq _ _ (scan_ws w1 h1) (scan_seq _ _ (scan_derives _ t v hd) (scan_ws w2 h2))

/-! ## Derivations for the texts of the dump -/

theorem Derives.cast {nt : Nonterminal} {t u : List Char} {v : Json} (h : Derives nt t v)
    (e : t = u) : Derives nt u v := e ▸ h

theorem isWs_nil : IsWs [] := fun _ h => absurd h (List.not_mem_nil _)

theorem jchars_of_plain (cs : List Char) (h : ∀ c ∈ cs, plainChar c = true) : JChars cs cs := by
  induction cs with
  | nil => exact JChars.nil
  | cons c cs ih =>
    exact JChars.plain c cs cs (h c (List.mem_cons_self _ _))
      (ih (fun d hd => h d (List.mem_cons_of_mem _ hd)))

/-- A clean string between double quotes denotes itself. -/
theorem derives_string (s : String) (h : Clean s) :
    Derives .value (dquote :: (s.data ++ [dquote])) (Json.string s) :=
  Derives.string s.data s.data (jchars_of_plain s.data h)

/-- A last member with a clean key, whitespace only before the key, before the
value and after it. -/
theorem members_last (w1 w3 w4 : List Char) (key : String) (t : List Char) (v : Json)
    (hk : Clean key) (h1 : IsWs w1) (h3 : IsWs w3) (h4 : IsWs w4) (h : Derives .value t v) :
    Derives .members (w1 ++ (dquote :: (key.data ++ dquote :: colon :: (w3 ++ (t ++ w4)))))
      (Json.object [(key, v)]) :=
  Derives.member w1 key.data key.data [] w3 t w4 v h1 (jchars_of_plain key.data hk) isWs_nil
    h3 h h4

/-- A member followed by a comma and further members. -/
theorem members_cons (w1 w3 : List Char) (key : String) (t r : List Char) (v : Json)
    (kvs : List (String × Json)) (hk : Clean key) (h1 : IsWs w1) (h3 : IsWs w3)
    (h : Derives .value t v) (hr : Derives .members r (Json.object kvs)) :
    Derives .members (w1 ++ (dquote :: (key.data ++ dquote :: colon :: (w3 ++ (t ++ comma :: r)))))
      (Json.object ((key, v) :: kvs)) :=
  Derives.memberCons w1 key.data key.data [] w3 t [] r v kvs h1 (jchars_of_plain key.data hk)
    isWs_nil h3 h isWs_nil hr

theorem renderField_data (kv : String × String) :
    (renderField kv).data
      = dquote :: (kv.1.data ++ dquote :: colon :: (dquote :: (kv.2.data ++ [dquote]))) := by
  unfold renderField
  simp only [String.data_append, List.append_assoc]
  rfl

/-- The members of an object whose keys and values are clean strings. -/
theorem members_of_fields (fields : List (String × String)) (hne : fields ≠ [])
    (hc : ∀ kv ∈ fields, Clean kv.1 ∧ Clean kv.2) :
    Derives .members (joinFields (fields.map renderField)).data
      (Json.object (fields.map (fun kv => (kv.1, Json.string kv.2)))) := by
  induction fields with
  | nil => exact absurd rfl hne
  | cons kv rest ih =>
    have hkv := hc kv (List.mem_cons_self _ _)
    cases rest with
    | nil =>
      refine (members_last [] [] [] kv.1 _ _ hkv.1 isWs_nil isWs_nil isWs_nil
        (derives_string kv.2 hkv.2)).cast ?_
      simp only [List.map_cons, List.map_nil, joinFields, renderField_data, List.nil_append,
        List.append_nil]
    | cons kv2 rest =>
      have hr := ih (List.cons_ne_nil _ _) (fun x hx => hc x (List.mem_cons_of_mem _ hx))
      refine (members_cons [] [] kv.1 _ _ _ _ hkv.1 isWs_nil isWs_nil
        (derives_string kv.2 hkv.2) hr).cast ?_
      simp only [List.map_cons, joinFields, renderField_data, String.data_append,
        List.nil_append, List.append_assoc, List.cons_append]
      rfl

/-- The text of an object whose keys and values are clean strings. -/
theorem derives_renderObject (fields : List (String × String)) (hne : fields ≠ [])
    (hc : ∀ kv ∈ fields, Clean kv.1 ∧ Clean kv.2) :
    Derives .value (renderObject fields).data (fieldsJson fields) := by
  refine (Derives.object _ _ (members_of_fields fields hne hc)).cast ?_
  unfold renderObject
  simp only [String.data_append, List.append_assoc]
  rfl

theorem isWs_cons (c : Char) (w : List Char) (hc : wsChar c = true) (hw : IsWs w) :
    IsWs (c :: w) := by
  intro d hd
  rcases List.mem_cons.mp hd with rfl | hd
  · exact hc
  · exact hw d hd

theorem separator_data_last (i size : Nat) (h : i + 1 = size) :
    (separator i size).data = [newline] := by
  unfold separator
  rw [if_pos (by simpa using h)]
  rfl

theorem separator_data_more (i size : Nat) (h : i + 1 ≠ size) :
    (separator i size).data = [comma, newline] := by
  unfold separator
  rw [if_neg (by simpa using h)]
  rfl

/-- The elements that `emitFrom` writes, from the line feed before the first
one to the whitespace before the closing bracket. -/
theorem elements_of_emit {α : Type} (object : α → String) (val : α → Json)
    (lead trail : List Char) (size : Nat) (hl : IsWs lead) (ht : IsWs trail) :
    ∀ (xs : List α) (i : Nat), xs ≠ [] → i + xs.length = size →
      (∀ x ∈ xs, ∃ b, (object x).data = lead ++ b ∧ Derives .value b (val x)) →
      Derives .elements (newline :: ((emitFrom object size i xs).data ++ trail))
        (Json.array (xs.map val)) := by
  have hnl : wsChar newline = true := by decide
  intro xs
  induction xs with
  | nil => intro i hne; exact absurd rfl hne
  | cons x rest ih =>
    intro i _ hlen hx
    obtain ⟨b, hb1, hb2⟩ := hx x (List.mem_cons_self _ _)
    cases rest with
    | nil =>
      have hsep := separator_data_last i size (by simpa using hlen)
      refine (Derives.element (newline :: lead) b (newline :: trail) (val x)
        (isWs_cons _ _ hnl hl) hb2 (isWs_cons _ _ hnl ht)).cast ?_
      simp only [emitFrom, String.data_append, hb1, hsep, List.append_assoc,
        List.cons_append, List.nil_append]
    | cons y rest =>
      have hsep := separator_data_more i size (by simp at hlen; omega)
      have hr := ih (i + 1) (List.cons_ne_nil _ _) (by simp at hlen ⊢; omega)
        (fun z hz => hx z (List.mem_cons_of_mem _ hz))
      refine (Derives.elementCons (newline :: lead) b [] _ (val x) _
        (isWs_cons _ _ hnl hl) hb2 isWs_nil hr).cast ?_
      have e : emitFrom object size i (x :: y :: rest)
          = object x ++ separator i size ++ emitFrom object size (i + 1) (y :: rest) := rfl
      rw [e]
      simp only [String.data_append, hb1, hsep, List.append_assoc,
        List.cons_append, List.nil_append]

/-- The array that the dump writes for a list: an opening bracket, a line
feed, the elements, and whitespace before the closing bracket. -/
theorem derives_array {α : Type} (object : α → String) (val : α → Json)
    (lead trail : List Char) (hl : IsWs lead) (ht : IsWs trail) (xs : List α)
    (hx : ∀ x ∈ xs, ∃ b, (object x).data = lead ++ b ∧ Derives .value b (val x)) :
    Derives .value
      (lbracket :: (newline :: ((emitFrom object xs.length 0 xs).data ++ trail) ++ [rbracket]))
      (Json.array (xs.map val)) := by
  have hnl : wsChar newline = true := by decide
  cases xs with
  | nil => exact Derives.emptyArray (newline :: trail) (isWs_cons _ _ hnl ht)
  | cons x rest =>
    exact Derives.array _ _ (elements_of_emit object val lead trail _ hl ht (x :: rest) 0
      (List.cons_ne_nil _ _) (by simp) hx)

theorem clean_idText (n : Nat) : Clean ("n" ++ toString n) := by
  intro c hc
  rw [String.data_append] at hc
  rcases List.mem_append.mp hc with h | h
  · rw [List.mem_singleton.mp h]; decide
  · exact plainChar_of_isDigit c (toString_nat_isDigit n c h)

theorem clean_nodeFields (N : Node)
    (h : Clean N.op ∧ Clean N.bw ∧ Clean N.tensor ∧ Clean N.index ∧ Clean N.redVar) :
    ∀ kv ∈ nodeFields N, Clean kv.1 ∧ Clean kv.2 := by
  obtain ⟨h1, h2, h3, h4, h5⟩ := h
  have k1 : Clean "id" := by unfold Clean; decide
  have k2 : Clean "op" := by unfold Clean; decide
  have k3 : Clean "bw" := by unfold Clean; decide
  have k4 : Clean "tensor" := by unfold Clean; decide
  have k5 : Clean "index" := by unfold Clean; decide
  have k6 : Clean "reduction" := by unfold Clean; decide
  have hid := clean_idText N.id
  intro kv hkv
  unfold nodeFields at hkv
  simp only [List.mem_append, List.mem_cons, List.not_mem_nil, or_false] at hkv
  rcases hkv with (((rfl | rfl | rfl) | hkv) | hkv) | hkv
  · exact ⟨k1, hid⟩
  · exact ⟨k2, h1⟩
  · exact ⟨k3, h2⟩
  · split at hkv
    · cases hkv
    · rw [List.mem_singleton.mp hkv]; exact ⟨k4, h3⟩
  · split at hkv
    · cases hkv
    · rw [List.mem_singleton.mp hkv]; exact ⟨k5, h4⟩
  · split at hkv
    · cases hkv
    · rw [List.mem_singleton.mp hkv]; exact ⟨k6, h5⟩

theorem clean_edgeFields (E : Edge) (h : Clean E.type) :
    ∀ kv ∈ edgeFields E, Clean kv.1 ∧ Clean kv.2 := by
  have k1 : Clean "src" := by unfold Clean; decide
  have k2 : Clean "dst" := by unfold Clean; decide
  have k3 : Clean "type" := by unfold Clean; decide
  intro kv hkv
  unfold edgeFields at hkv
  simp only [List.mem_cons, List.not_mem_nil, or_false] at hkv
  rcases hkv with rfl | rfl | rfl
  · exact ⟨k1, clean_idText E.src⟩
  · exact ⟨k2, clean_idText E.dst⟩
  · exact ⟨k3, h⟩

theorem nodeFields_ne_nil (N : Node) : nodeFields N ≠ [] := by
  unfold nodeFields
  simp

/-- The object written for a node with clean texts. -/
theorem derives_nodeObject (N : Node)
    (h : Clean N.op ∧ Clean N.bw ∧ Clean N.tensor ∧ Clean N.index ∧ Clean N.redVar) :
    ∃ b, (nodeObject N).data = "      ".data ++ b ∧
      Derives .value b (fieldsJson (nodeFields N)) :=
  ⟨_, by rw [nodeObject_eq, String.data_append],
    derives_renderObject _ (nodeFields_ne_nil N) (clean_nodeFields N h)⟩

/-- The object written for an edge with a clean type. -/
theorem derives_edgeObject (E : Edge) (h : Clean E.type) :
    ∃ b, (edgeObject E).data = "      ".data ++ b ∧
      Derives .value b (fieldsJson (edgeFields E)) :=
  ⟨_, by rw [edgeObject_eq, String.data_append],
    derives_renderObject _ (List.cons_ne_nil _ _) (clean_edgeFields E h)⟩

theorem derives_bool (b : Bool) :
    Derives .value (if b then "true" else "false").data (Json.bool b) := by
  cases b
  · exact Derives.false
  · exact Derives.true

/-- The object written for a loop record with clean texts. -/
theorem derives_loopObject (Lr : LoopRec)
    (h : Clean Lr.name ∧ Clean Lr.lb ∧ Clean Lr.ub ∧ Clean Lr.step) :
    ∃ b, (loopObject Lr).data = "    ".data ++ b ∧ Derives .value b (loopJson Lr) := by
  obtain ⟨h1, h2, h3, h4⟩ := h
  have k1 : Clean "name" := by unfold Clean; decide
  have k2 : Clean "lb" := by unfold Clean; decide
  have k3 : Clean "ub" := by unfold Clean; decide
  have k4 : Clean "step" := by unfold Clean; decide
  have k5 : Clean "innermost" := by unfold Clean; decide
  have m5 := members_last [] [] [] "innermost" _ _ k5 isWs_nil isWs_nil isWs_nil
    (derives_bool Lr.innermost)
  have m4 := members_cons [] [] "step" _ _ _ _ k4 isWs_nil isWs_nil (derives_string _ h4) m5
  have m3 := members_cons [] [] "ub" _ _ _ _ k3 isWs_nil isWs_nil (derives_string _ h3) m4
  have m2 := members_cons [] [] "lb" _ _ _ _ k2 isWs_nil isWs_nil (derives_string _ h2) m3
  have m1 := members_cons [] [] "name" _ _ _ _ k1 isWs_nil isWs_nil (derives_string _ h1) m2
  refine ⟨_, ?_, Derives.object _ _ m1⟩
  unfold loopObject
  simp only [String.data_append, List.append_assoc, List.nil_append, List.append_nil,
    List.cons_append]
  rfl

/-- The dump of clean texts is derived from the start symbol of the grammar
and denotes `dumpJson`. -/
theorem derives_dump (kernel : String) (loops : List LoopRec) (nodes : List Node)
    (edges : List Edge) (hk : Clean kernel)
    (hl : ∀ Lr ∈ loops, Clean Lr.name ∧ Clean Lr.lb ∧ Clean Lr.ub ∧ Clean Lr.step)
    (hn : ∀ N ∈ nodes,
      Clean N.op ∧ Clean N.bw ∧ Clean N.tensor ∧ Clean N.index ∧ Clean N.redVar)
    (he : ∀ E ∈ edges, Clean E.type) :
    JsonText (emitJson kernel loops nodes edges).data (dumpJson kernel loops nodes edges) := by
  have w0 : IsWs " ".data := by unfold IsWs; decide
  have w1 : IsWs "\n".data := by unfold IsWs; decide
  have w2 : IsWs "  ".data := by unfold IsWs; decide
  have w3 : IsWs "\n  ".data := by unfold IsWs; decide
  have w4 : IsWs "    ".data := by unfold IsWs; decide
  have w5 : IsWs "\n    ".data := by unfold IsWs; decide
  have w6 : IsWs "      ".data := by unfold IsWs; decide
  have k1 : Clean "kernel" := by unfold Clean; decide
  have k2 : Clean "loops" := by unfold Clean; decide
  have k3 : Clean "dfg" := by unfold Clean; decide
  have k4 : Clean "nodes" := by unfold Clean; decide
  have k5 : Clean "edges" := by unfold Clean; decide
  have aL := derives_array loopObject loopJson "    ".data "  ".data w4 w2 loops
    (fun Lr h => derives_loopObject Lr (hl Lr h))
  have aN := derives_array nodeObject (fun N => fieldsJson (nodeFields N)) "      ".data
    "    ".data w6 w4 nodes (fun N h => derives_nodeObject N (hn N h))
  have aE := derives_array edgeObject (fun E => fieldsJson (edgeFields E)) "      ".data
    "    ".data w6 w4 edges (fun E h => derives_edgeObject E (he E h))
  have d2 := members_last "\n    ".data " ".data "\n  ".data "edges" _ _ k5 w5 w0 w3 aE
  have d1 := members_cons "\n    ".data " ".data "nodes" _ _ _ _ k4 w5 w0 aN d2
  have t3 := members_last "\n  ".data " ".data "\n".data "dfg" _ _ k3 w3 w0 w1
    (Derives.object _ _ d1)
  have t2 := members_cons "\n  ".data " ".data "loops" _ _ _ _ k2 w3 w0 aL t3
  have t1 := members_cons "\n  ".data " ".data "kernel" _ _ _ _ k1 w3 w0
    (derives_string kernel hk) t2
  refine ⟨[], _, "\n".data, isWs_nil, Derives.object _ _ t1, w1, ?_⟩
  unfold emitJson
  simp only [String.data_append, List.append_assoc, List.nil_append, List.append_nil,
    List.cons_append]
  rfl

/-! ## C14: the dump as a JSON document -/

/-- C14, the claim as stated fails: the dump writes every text between double
quotes as it is, with no escaping. `readQuoted` loads from the global
`?g@@3HA`, whose symbolic expression prints as `@"?g@@3HA"`; the node object of
the load then reads `"index":"@"?g@@3HA""`, and the text of the dump is not
derived from the JSON grammar. -/
theorem quoted_global_breaks_json :
    readQuoted.WellFormed ∧ fuelEnough readQuoted noLoops 1 = true ∧
    run readQuoted noLoops quotingSE 1 false = some (some quotedDump) ∧
    ¬ WellFormedJson quotedDump.data :=
  ⟨by unfold Function.WellFormed; decide, by decide, by decide,
    fun h => absurd (scan_wellFormed _ h) (by decide)⟩

/-- C14 as amended. When the function name, the texts of the loop records and
the texts of the nodes and edges hold no double quote, no backslash and no
control character, the dump is a well-formed JSON document: it is derived from
the start symbol of the JSON grammar and denotes an object with the members
`kernel`, `loops` and `dfg`, where `kernel` is the function name as a string,
`loops` is an array with one object per loop record, and `dfg` is an object
whose members `nodes` and `edges` are arrays with one object per node and per
edge; empty lists give empty arrays. -/
theorem clean_dump_is_json (kernel : String) (loops : List LoopRec) (nodes : List Node)
    (edges : List Edge) (hk : Clean kernel)
    (hl : ∀ Lr ∈ loops, Clean Lr.name ∧ Clean Lr.lb ∧ Clean Lr.ub ∧ Clean Lr.step)
    (hn : ∀ N ∈ nodes,
      Clean N.op ∧ Clean N.bw ∧ Clean N.tensor ∧ Clean N.index ∧ Clean N.redVar)
    (he : ∀ E ∈ edges, Clean E.type) :
    JsonText (emitJson kernel loops nodes edges).data (dumpJson kernel loops nodes edges) ∧
    ∃ ls ns es : List Json,
      dumpJson kernel loops nodes edges
        = Json.object [("kernel", Json.string kernel), ("loops", Json.array ls),
            ("dfg", Json.object [("nodes", Json.array ns), ("edges", Json.array es)])] ∧
      ls.length = loops.length ∧ ns.length = nodes.length ∧ es.length = edges.length :=
  ⟨derives_dump kernel loops nodes edges hk hl hn he,
    _, _, _, rfl, List.length_map _ _, List.length_map _ _, List.length_map _ _⟩

/-- C14 as amended, on sample lists. -/
theorem clean_dump_is_json_witness :
    Clean "gemm" ∧
    (∀ Lr ∈ sampleLoops, Clean Lr.name ∧ Clean Lr.lb ∧ Clean Lr.ub ∧ Clean Lr.step) ∧
    (∀ N ∈ sampleNodes,
      Clean N.op ∧ Clean N.bw ∧ Clean N.tensor ∧ Clean N.index ∧ Clean N.redVar) ∧
    (∀ E ∈ sampleEdges, Clean E.type) ∧
    JsonText (emitJson "gemm" sampleLoops sampleNodes sampleEdges).data
      (dumpJson "gemm" sampleLoops sampleNodes sampleEdges) ∧
    ∃ ls ns es : List Json,
      dumpJson "gemm" sampleLoops sampleNodes sampleEdges
        = Json.object [("kernel", Json.string "gemm"), ("loops", Json.array ls),
            ("dfg", Json.object [("nodes", Json.array ns), ("edges", Json.array es)])] ∧
      ls.length = sampleLoops.length ∧ ns.length = sampleNodes.length ∧
      es.length = sampleEdges.length :=
  ⟨by decide, by decide, by decide, by decide,
    clean_dump_is_json "gemm" sampleLoops sampleNodes sampleEdges (by decide) (by decide)
      (by decide) (by decide)⟩

/-! ## The analysis commutes with a relabelling of identities -/

theorem Loop.relabelList_eq_map (r : Relabel) (Ls : List Loop) :
    Loop.relabelList r Ls = Ls.map (Loop.relabel r) := by
  induction Ls with
  | nil => rfl
  | cons L Ls ih => simp only [Loop.relabelList, List.map_cons, ih]

theorem relabel_insts (r : Relabel) (F : Function) :
    (F.relabel r).insts = F.insts.map (Instruction.relabel r) := by
  unfold Function.insts Function.relabel
  simp only [List.flatMap_map, List.map_flatMap]
  rfl

theorem relabel_getOpcode (r : Relabel) (I : Instruction) :
    (I.relabel r).getOpcode = I.getOpcode := by
  unfold Instruction.getOpcode Instruction.relabel
  cases I.kind <;> rfl

theorem relabel_opKind (r : Relabel) (I : Instruction) : opKind (I.relabel r) = opKind I := by
  unfold opKind
  rw [relabel_getOpcode]

theorem relabel_operands (r : Relabel) (I : Instruction) :
    (I.relabel r).operands = I.operands.map (Value.relabel r) := by
  unfold Instruction.operands Instruction.relabel
  cases I.kind <;> simp [InstKind.relabel, List.map_map, Function.comp_def]

theorem relabel_eq_inst (r : Relabel) (hi : Function.Injective r.inst) (v : Value) (h : Nat) :
    v.relabel r = Value.inst (r.inst h) ↔ v = Value.inst h := by
  cases v <;> simp [Value.relabel]
  exact ⟨fun e => hi e, fun e => by rw [e]⟩

theorem findInst_relabel (r : Relabel) (hi : Function.Injective r.inst) (F : Function)
    (h : Nat) :
    (F.relabel r).findInst (r.inst h) = (F.findInst h).map (Instruction.relabel r) := by
  unfold Function.findInst
  rw [relabel_insts, List.find?_map]
  have hf : ((fun I : Instruction => I.handle == r.inst h) ∘ Instruction.relabel r)
      = (fun I : Instruction => I.handle == h) := by
    funext I
    simp only [Function.comp, Instruction.relabel]
    by_cases e : I.handle = h
    · simp [e]
    · have : r.inst I.handle ≠ r.inst h := fun e2 => e (hi e2)
      simp [e, this]
  rw [hf]

theorem traceStep_relabel (r : Relabel) (hi : Function.Injective r.inst) (F : Function)
    (v : Value) :
    traceStep (F.relabel r) (v.relabel r) = (traceStep F v).map (Value.relabel r) := by
  cases v with
  | inst h =>
    simp only [traceStep, asBitCastOperator, asGEPOperator, asInstruction, Value.relabel,
      findInst_relabel r hi F h]
    cases F.findInst h with
    | none => rfl
    | some I =>
      simp only [Option.map_some', Instruction.relabel]
      cases I.kind <;> rfl
  | arg h => rfl
  | global nm => rfl
  | constBitCast src => rfl
  | constGEP ptr idx => rfl
  | const t => rfl
  | block h => rfl

theorem traceBasePtr_relabel (r : Relabel) (hi : Function.Injective r.inst) (F : Function)
    (fuel : Nat) :
    ∀ v : Value, traceBasePtr (F.relabel r) fuel (v.relabel r)
      = (traceBasePtr F fuel v).map (Value.relabel r) := by
  induction fuel with
  | zero => intro v; rfl
  | succ fuel ih =>
    intro v
    simp only [traceBasePtr, traceStep_relabel r hi F v]
    cases traceStep F v with
    | none => rfl
    | some next => exact ih next

theorem lookup_map_key {β : Type} (f : Nat → Nat) (hf : Function.Injective f)
    (l : List (Nat × β)) (k : Nat) :
    (l.map (fun p => (f p.1, p.2))).lookup (f k) = l.lookup k := by
  induction l with
  | nil => rfl
  | cons p l ih =>
    obtain ⟨a, b⟩ := p
    simp only [List.map_cons, List.lookup_cons]
    by_cases e : k = a
    · simp [e]
    · have e1 : (k == a) = false := by simpa using e
      have e2 : (f k == f a) = false := by simpa using (fun h => e (hf h))
      simp only [e1, e2, ih]

theorem tensorOfArg_relabel (r : Relabel) (args : List Argument) :
    tensorOfArg (args.map (Argument.relabel r))
      = (tensorOfArg args).map (fun p => (r.arg p.1, p.2)) := by
  unfold tensorOfArg
  have hgen : ∀ (xs : List Argument) (st : PtrMap String × Nat),
      (xs.map (Argument.relabel r)).foldl tensorStep (st.1.map (fun p => (r.arg p.1, p.2)), st.2)
        = (((xs.foldl tensorStep st).1).map (fun p => (r.arg p.1, p.2)),
            (xs.foldl tensorStep st).2) := by
    intro xs
    induction xs with
    | nil => intro st; rfl
    | cons a xs ih =>
      intro st
      simp only [List.map_cons, List.foldl_cons]
      have hstep : tensorStep (st.1.map (fun p => (r.arg p.1, p.2)), st.2) (Argument.relabel r a)
          = ((tensorStep st a).1.map (fun p => (r.arg p.1, p.2)), (tensorStep st a).2) := by
        unfold tensorStep
        simp only [Argument.relabel, Argument.hasName]
        split <;> rfl
      rw [hstep, ih]
  have h := hgen args ([], 0)
  simp only [List.map_nil] at h
  rw [h]

theorem tensorOfBase_relabel (r : Relabel) (ha : Function.Injective r.arg)
    (tmap : PtrMap String) (base : Value) :
    tensorOfBase (tmap.map (fun p => (r.arg p.1, p.2))) (base.relabel r)
      = tensorOfBase tmap base := by
  cases base <;> simp only [tensorOfBase, Value.relabel, lookup_map_key r.arg ha]

theorem addNode_relabel (r : Relabel) (hi : Function.Injective r.inst) (I : Instruction)
    (kind : String) (st : BuildState) :
    addNode (I.relabel r) kind (st.relabel r)
      = ((addNode I kind st).1, (addNode I kind st).2.relabel r) := by
  unfold addNode
  have hl : (st.relabel r).idOf.lookup (I.relabel r).handle = st.idOf.lookup I.handle :=
    lookup_map_key r.inst hi st.idOf I.handle
  rw [hl]
  cases st.idOf.lookup I.handle <;> rfl

theorem nodeStep_relabel (r : Relabel) (hi : Function.Injective r.inst)
    (ha : Function.Injective r.arg) (F : Function) (SE SE2 : ScalarEvolution)
    (hS : ∀ v, SE2.getSCEV (v.relabel r) = SE.getSCEV v) (tmap : PtrMap String) (fuel : Nat)
    (st : BuildState) (I : Instruction) :
    nodeStep (F.relabel r) SE2 (tmap.map (fun p => (r.arg p.1, p.2))) fuel (st.relabel r)
        (I.relabel r)
      = (nodeStep F SE tmap fuel st I).map (BuildState.relabel r) := by
  unfold nodeStep
  simp only [relabel_opKind, relabel_getOpcode, addNode_relabel r hi]
  by_cases hint : I.getOpcode.interesting = true
  · simp only [hint, if_true]
    have hk : (I.relabel r).kind = I.kind.relabel r := rfl
    rw [hk]
    cases I.kind with
    | load ptr =>
      simp only [InstKind.relabel, traceBasePtr_relabel r hi F fuel ptr, hS]
      cases traceBasePtr F fuel ptr with
      | none => rfl
      | some base =>
        simp only [Option.map_some', tensorOfBase_relabel r ha]
        rfl
    | store val ptr =>
      simp only [InstKind.relabel, traceBasePtr_relabel r hi F fuel ptr, hS]
      cases traceBasePtr F fuel ptr with
      | none => rfl
      | some base =>
        simp only [Option.map_some', tensorOfBase_relabel r ha]
        rfl
    | binary op lhs rhs => rfl
    | phi incoming => rfl
    | gep ptr idx => rfl
    | bitcast src => rfl
    | other op ops => rfl
  · simp only [hint, if_false, Bool.false_eq_true, Option.map_some']

theorem foldlM_nodeStep_relabel (r : Relabel) (hi : Function.Injective r.inst)
    (ha : Function.Injective r.arg) (F : Function) (SE SE2 : ScalarEvolution)
    (hS : ∀ v, SE2.getSCEV (v.relabel r) = SE.getSCEV v) (tmap : PtrMap String) (fuel : Nat)
    (insts : List Instruction) :
    ∀ st : BuildState,
      (insts.map (Instruction.relabel r)).foldlM
          (nodeStep (F.relabel r) SE2 (tmap.map (fun p => (r.arg p.1, p.2))) fuel)
          (st.relabel r)
        = (insts.foldlM (nodeStep F SE tmap fuel) st).map (BuildState.relabel r) := by
  induction insts with
  | nil => intro st; rfl
  | cons I insts ih =>
    intro st
    simp only [List.map_cons, List.foldlM_cons, nodeStep_relabel r hi ha F SE SE2 hS]
    cases nodeStep F SE tmap fuel st I with
    | none => rfl
    | some st2 => exact ih st2

theorem nodePass_relabel (r : Relabel) (hi : Function.Injective r.inst)
    (ha : Function.Injective r.arg) (F : Function) (SE SE2 : ScalarEvolution)
    (hS : ∀ v, SE2.getSCEV (v.relabel r) = SE.getSCEV v) (tmap : PtrMap String)
    (fuel : Nat) :
    nodePass (F.relabel r) SE2 (tmap.map (fun p => (r.arg p.1, p.2))) fuel
      = (nodePass F SE tmap fuel).map (BuildState.relabel r) := by
  unfold nodePass
  have hgen : ∀ (bs : List BasicBlock) (st : BuildState),
      (bs.map (BasicBlock.relabel r)).foldlM
          (fun (st : BuildState) (BB : BasicBlock) => BB.insts.foldlM
            (nodeStep (F.relabel r) SE2 (tmap.map (fun p => (r.arg p.1, p.2))) fuel) st)
          (st.relabel r)
        = (bs.foldlM (fun (st : BuildState) (BB : BasicBlock) =>
            BB.insts.foldlM (nodeStep F SE tmap fuel) st) st).map
            (BuildState.relabel r) := by
    intro bs
    induction bs with
    | nil => intro st; rfl
    | cons BB bs ih =>
      intro st
      simp only [List.map_cons, List.foldlM_cons]
      have hb : (BasicBlock.relabel r BB).insts = BB.insts.map (Instruction.relabel r) := rfl
      rw [hb, foldlM_nodeStep_relabel r hi ha F SE SE2 hS tmap fuel BB.insts st]
      cases BB.insts.foldlM (nodeStep F SE tmap fuel) st with
      | none => rfl
      | some st2 => exact ih st2
  exact hgen F.blocks { idOf := [], nodes := [], nextId := 0 }

theorem edgeOperand_relabel (r : Relabel) (hi : Function.Injective r.inst) (idOf : PtrMap Nat)
    (j : Nat) (edges : List Edge) (op : Value) :
    edgeOperand (idOf.map (fun p => (r.inst p.1, p.2))) j edges (op.relabel r)
      = edgeOperand idOf j edges op := by
  cases op <;> simp only [edgeOperand, Value.relabel, lookup_map_key r.inst hi]

theorem foldl_map_congr {α β γ : Type} (f : α → β) (g : γ → β → γ) (k : γ → α → γ)
    (h : ∀ s x, g s (f x) = k s x) (xs : List α) :
    ∀ s, (xs.map f).foldl g s = xs.foldl k s := by
  induction xs with
  | nil => intro s; rfl
  | cons x xs ih => intro s; simp only [List.map_cons, List.foldl_cons, h, ih]

theorem edgeStep_relabel (r : Relabel) (hi : Function.Injective r.inst) (idOf : PtrMap Nat)
    (edges : List Edge) (I : Instruction) :
    edgeStep (idOf.map (fun p => (r.inst p.1, p.2))) edges (I.relabel r)
      = edgeStep idOf edges I := by
  unfold edgeStep
  have hl : (idOf.map (fun p => (r.inst p.1, p.2))).lookup (I.relabel r).handle
      = idOf.lookup I.handle := lookup_map_key r.inst hi idOf I.handle
  rw [hl, relabel_operands]
  cases idOf.lookup I.handle with
  | none => rfl
  | some j =>
    exact foldl_map_congr (Value.relabel r) _ _ (edgeOperand_relabel r hi idOf j) I.operands
      edges

theorem edgePass_relabel (r : Relabel) (hi : Function.Injective r.inst) (F : Function)
    (idOf : PtrMap Nat) :
    edgePass (F.relabel r) (idOf.map (fun p => (r.inst p.1, p.2))) = edgePass F idOf := by
  unfold edgePass
  refine foldl_map_congr (BasicBlock.relabel r) _ _ ?_ F.blocks []
  intro es BB
  exact foldl_map_congr (Instruction.relabel r) _ _ (edgeStep_relabel r hi idOf) BB.insts es

theorem users_relabel (r : Relabel) (hi : Function.Injective r.inst) (F : Function) (h : Nat) :
    (F.relabel r).users (r.inst h) = (F.users h).map (Instruction.relabel r) := by
  unfold Function.users
  rw [relabel_insts, List.flatMap_map, List.map_flatMap]
  congr 1
  funext U
  rw [relabel_operands, List.filter_map]
  have hp : ((fun v => v == Value.inst (r.inst h)) ∘ Value.relabel r)
      = (fun v => v == Value.inst h) := by
    funext v
    simp only [Function.comp]
    rw [Bool.eq_iff_iff, beq_iff_eq, beq_iff_eq]
    exact relabel_eq_inst r hi v h
  rw [hp]
  simp only [List.map_map]
  rfl

theorem Loop.relabel_header (r : Relabel) (L : Loop) : (Loop.relabel r L).header = L.header := by
  cases L; simp only [Loop.relabel, Loop.header]

theorem Loop.relabel_blocks (r : Relabel) (L : Loop) :
    (Loop.relabel r L).blocks = L.blocks.map r.block := by
  cases L; simp only [Loop.relabel, Loop.blocks]

theorem Loop.relabel_canonicalIV (r : Relabel) (L : Loop) :
    (Loop.relabel r L).canonicalIV = L.canonicalIV.map r.inst := by
  cases L; simp only [Loop.relabel, Loop.canonicalIV]

theorem Loop.relabel_subLoops (r : Relabel) (L : Loop) :
    (Loop.relabel r L).subLoops = L.subLoops.map (Loop.relabel r) := by
  cases L; simp only [Loop.relabel, Loop.subLoops, Loop.relabelList_eq_map]

theorem contains_relabel (r : Relabel) (hb : Function.Injective r.block) (L : Loop) (b : Nat) :
    (Loop.relabel r L).contains (r.block b) = L.contains b := by
  unfold Loop.contains
  rw [Loop.relabel_blocks, Bool.eq_iff_iff]
  simp only [List.contains_eq_any_beq, List.any_eq_true, beq_iff_eq, List.mem_map]
  constructor
  · rintro ⟨x, ⟨a, ha, e⟩, e2⟩
    have : a = b := hb (e.trans e2.symm)
    rw [← this]
    exact ⟨a, ha, rfl⟩
  · rintro ⟨x, hx, e⟩
    exact ⟨r.block x, ⟨x, hx, rfl⟩, by rw [e]⟩

theorem feedsBack_relabel (r : Relabel) (hi : Function.Injective r.inst)
    (hb : Function.Injective r.block) (L : Loop) (phi add : Instruction) :
    feedsBack (Loop.relabel r L) (phi.relabel r) (add.relabel r) = feedsBack L phi add := by
  unfold feedsBack
  have hk : (phi.relabel r).kind = phi.kind.relabel r := rfl
  rw [hk]
  cases phi.kind with
  | phi incoming =>
    simp only [InstKind.relabel, List.any_map]
    congr 1
    funext vb
    simp only [Function.comp, contains_relabel r hb]
    congr 1
    rw [Bool.eq_iff_iff, beq_iff_eq, beq_iff_eq]
    exact relabel_eq_inst r hi vb.1 add.handle
  | binary op lhs rhs => rfl
  | load ptr => rfl
  | store val ptr => rfl
  | gep ptr idx => rfl
  | bitcast src => rfl
  | other op ops => rfl

theorem isEmpty_map_eq {α β : Type} (f : α → β) (l : List α) :
    (l.map f).isEmpty = l.isEmpty := by
  cases l <;> rfl

theorem redName_relabel (r : Relabel) (L : Loop) : redName (Loop.relabel r L) = redName L := by
  unfold redName
  rw [Loop.relabel_header]

theorem bne_relabel_inst (r : Relabel) (hi : Function.Injective r.inst) (v : Value) (h : Nat) :
    (v.relabel r != Value.inst (r.inst h)) = (v != Value.inst h) := by
  rw [Bool.eq_iff_iff, bne_iff_ne, bne_iff_ne, not_iff_not]
  exact relabel_eq_inst r hi v h

theorem tagUser_relabel (r : Relabel) (hi : Function.Injective r.inst)
    (hb : Function.Injective r.block) (L : Loop) (idOf : PtrMap Nat) (phi : Instruction)
    (nodes : List Node) (U : Instruction) :
    tagUser (Loop.relabel r L) (idOf.map (fun p => (r.inst p.1, p.2))) (phi.relabel r) nodes
        (U.relabel r)
      = tagUser L idOf phi nodes U := by
  unfold tagUser
  have hk : (U.relabel r).kind = U.kind.relabel r := rfl
  have hh : (phi.relabel r).handle = r.inst phi.handle := rfl
  have hf := feedsBack_relabel r hi hb L phi U
  rw [hk]
  cases hkind : U.kind with
  | binary op lhs rhs =>
    simp only [InstKind.relabel, hh, bne_relabel_inst r hi, lookup_map_key r.inst hi,
      redName_relabel]
    have hfb : feedsBack (Loop.relabel r L) (Instruction.relabel r phi) (Instruction.relabel r U)
        = feedsBack L phi U := hf
    rw [hfb]
  | phi incoming => rfl
  | load ptr => rfl
  | store val ptr => rfl
  | gep ptr idx => rfl
  | bitcast src => rfl
  | other op ops => rfl

theorem tagInst_relabel (r : Relabel) (hi : Function.Injective r.inst)
    (hb : Function.Injective r.block) (F : Function) (L : Loop) (idOf : PtrMap Nat)
    (nodes : List Node) (I : Instruction) :
    tagInst (F.relabel r).users (Loop.relabel r L) (idOf.map (fun p => (r.inst p.1, p.2)))
        nodes (I.relabel r)
      = tagInst F.users L idOf nodes I := by
  unfold tagInst
  have hk : (I.relabel r).kind = I.kind.relabel r := rfl
  have hh : (I.relabel r).handle = r.inst I.handle := rfl
  rw [hk]
  cases I.kind with
  | phi incoming =>
    simp only [InstKind.relabel, hh, users_relabel r hi]
    exact foldl_map_congr (Instruction.relabel r) _ _
      (fun s U => tagUser_relabel r hi hb L idOf I s U) (F.users I.handle) nodes
  | binary op lhs rhs => rfl
  | load ptr => rfl
  | store val ptr => rfl
  | gep ptr idx => rfl
  | bitcast src => rfl
  | other op ops => rfl

theorem tagBlock_relabel (r : Relabel) (hi : Function.Injective r.inst)
    (hb : Function.Injective r.block) (F : Function) (LI LI2 : LoopInfo)
    (hFor : ∀ b, LI2.getLoopFor (r.block b) = (LI.getLoopFor b).map (Loop.relabel r))
    (idOf : PtrMap Nat) (nodes : List Node) (BB : BasicBlock) :
    tagBlock (F.relabel r).users LI2 (idOf.map (fun p => (r.inst p.1, p.2))) nodes
        (BB.relabel r)
      = tagBlock F.users LI idOf nodes BB := by
  unfold tagBlock
  have hh : (BB.relabel r).handle = r.block BB.handle := rfl
  have hins : (BB.relabel r).insts = BB.insts.map (Instruction.relabel r) := rfl
  rw [hh, hFor, hins]
  cases LI.getLoopFor BB.handle with
  | none => rfl
  | some L =>
    simp only [Option.map_some', Loop.relabel_subLoops, isEmpty_map_eq]
    split
    · rfl
    · exact foldl_map_congr (Instruction.relabel r) _ _
        (fun s I => tagInst_relabel r hi hb F L idOf s I) BB.insts nodes

theorem reductionPass_relabel (r : Relabel) (hi : Function.Injective r.inst)
    (hb : Function.Injective r.block) (F : Function) (LI LI2 : LoopInfo)
    (hFor : ∀ b, LI2.getLoopFor (r.block b) = (LI.getLoopFor b).map (Loop.relabel r))
    (idOf : PtrMap Nat) (nodes : List Node) :
    reductionPass (F.relabel r).users (F.relabel r) LI2 (idOf.map (fun p => (r.inst p.1, p.2)))
        nodes
      = reductionPass F.users F LI idOf nodes := by
  unfold reductionPass
  exact foldl_map_congr (BasicBlock.relabel r) _ _
    (fun s BB => tagBlock_relabel r hi hb F LI LI2 hFor idOf s BB) F.blocks nodes

theorem loopRec_relabel (r : Relabel) (SE SE2 : ScalarEvolution)
    (hS : ∀ v, SE2.getSCEV (v.relabel r) = SE.getSCEV v)
    (hB : ∀ L, SE2.getBackedgeTakenCount (Loop.relabel r L) = SE.getBackedgeTakenCount L)
    (L : Loop) : loopRec SE2 (Loop.relabel r L) = loopRec SE L := by
  have hstep : loopStep SE2 (Loop.relabel r L) = loopStep SE L := by
    unfold loopStep
    rw [Loop.relabel_canonicalIV]
    cases L.canonicalIV with
    | none => rfl
    | some iv =>
      have := hS (Value.inst iv)
      simp only [Value.relabel] at this
      simp only [Option.map_some', this]
  unfold loopRec
  rw [hstep, hB, Loop.relabel_header]
  unfold isInnermost
  rw [Loop.relabel_subLoops, isEmpty_map_eq]

theorem walkStack_relabel (r : Relabel) (SE SE2 : ScalarEvolution)
    (hS : ∀ v, SE2.getSCEV (v.relabel r) = SE.getSCEV v)
    (hB : ∀ L, SE2.getBackedgeTakenCount (Loop.relabel r L) = SE.getBackedgeTakenCount L)
    (fuel : Nat) :
    ∀ (stk : List Loop) (st st2 : WalkState), st2.loops = st.loops →
      (walkStack SE2 fuel (stk.map (Loop.relabel r)) st2).map WalkState.loops
        = (walkStack SE fuel stk st).map WalkState.loops := by
  induction fuel with
  | zero =>
    intro stk st st2 h
    simp only [walkStack, isEmpty_map_eq]
    split
    · simp only [Option.map_some', h]
    · rfl
  | succ fuel ih =>
    intro stk st st2 h
    simp only [walkStack, List.getLast?_map]
    cases hl : stk.getLast? with
    | none => simp only [Option.map_none', Option.map_some', h]
    | some L =>
      simp only [Option.map_some']
      have hd : (stk.map (Loop.relabel r)).dropLast ++ (Loop.relabel r L).subLoops
          = (stk.dropLast ++ L.subLoops).map (Loop.relabel r) := by
        rw [Loop.relabel_subLoops, List.map_append, List.map_dropLast]
      rw [hd]
      exact ih _ _ _ (by simp only [h, loopRec_relabel r SE SE2 hS hB])

theorem collectLoops_relabel (r : Relabel) (SE SE2 : ScalarEvolution)
    (hS : ∀ v, SE2.getSCEV (v.relabel r) = SE.getSCEV v)
    (hB : ∀ L, SE2.getBackedgeTakenCount (Loop.relabel r L) = SE.getBackedgeTakenCount L)
    (fuel : Nat) (tops : List Loop) :
    (collectLoops SE2 fuel (tops.map (Loop.relabel r))).map WalkState.loops
      = (collectLoops SE fuel tops).map WalkState.loops := by
  unfold collectLoops
  have hgen : ∀ (ts : List Loop) (st st2 : WalkState), st2.loops = st.loops →
      ((ts.map (Loop.relabel r)).foldlM (collectLoopTree SE2 fuel) st2).map WalkState.loops
        = (ts.foldlM (collectLoopTree SE fuel) st).map WalkState.loops := by
    intro ts
    induction ts with
    | nil => intro st st2 h; simp only [List.map_nil, List.foldlM_nil, Option.pure_def,
        Option.map_some', h]
    | cons L ts ih =>
      intro st st2 h
      simp only [List.map_cons, List.foldlM_cons]
      have hw := walkStack_relabel r SE SE2 hS hB fuel [L] st st2 h
      simp only [List.map_cons, List.map_nil] at hw
      unfold collectLoopTree
      cases h1 : walkStack SE fuel [L] st with
      | none =>
        rw [h1] at hw
        cases h2 : walkStack SE2 fuel [Loop.relabel r L] st2 with
        | none => rfl
        | some w2 => rw [h2] at hw; cases hw
      | some w =>
        rw [h1] at hw
        cases h2 : walkStack SE2 fuel [Loop.relabel r L] st2 with
        | none => rw [h2] at hw; cases hw
        | some w2 =>
          rw [h2] at hw
          simp only [Option.map_some', Option.some.injEq] at hw
          exact ih w w2 hw
  exact hgen tops _ _ rfl

/-- The lists that reach the dump are the same for the relabelled function. -/
theorem analyze_relabel (r : Relabel) (hi : Function.Injective r.inst)
    (ha : Function.Injective r.arg) (hb : Function.Injective r.block) (F : Function)
    (LI : LoopInfo) (SE : ScalarEvolution) (LI2 : LoopInfo) (SE2 : ScalarEvolution)
    (hsame : SameAnswers r LI SE LI2 SE2) (fuel : Nat) :
    (analyze (F.relabel r) LI2 SE2 fuel).map (fun a => (a.loops, a.nodes, a.edges))
      = (analyze F LI SE fuel).map (fun a => (a.loops, a.nodes, a.edges)) := by
  unfold analyze analyzeWith
  have hargs : (F.relabel r).args = F.args.map (Argument.relabel r) := rfl
  have hl := collectLoops_relabel r SE SE2 hsame.scev hsame.backedge fuel LI.getTopLevelLoops
  rw [← Loop.relabelList_eq_map, ← hsame.topLevel] at hl
  have hn := nodePass_relabel r hi ha F SE SE2 hsame.scev (tensorOfArg F.args) fuel
  rw [← tensorOfArg_relabel, ← hargs] at hn
  simp only [hn]
  cases h1 : collectLoops SE fuel LI.getTopLevelLoops with
  | none =>
    rw [h1] at hl
    cases h2 : collectLoops SE2 fuel LI2.getTopLevelLoops with
    | none => rfl
    | some w2 => rw [h2] at hl; cases hl
  | some w =>
    rw [h1] at hl
    cases h2 : collectLoops SE2 fuel LI2.getTopLevelLoops with
    | none => rw [h2] at hl; cases hl
    | some w2 =>
      rw [h2] at hl
      simp only [Option.map_some', Option.some.injEq] at hl
      cases nodePass F SE (tensorOfArg F.args) fuel with
      | none => rfl
      | some st =>
        simp only [Option.map_some', BuildState.relabel, hl,
          reductionPass_relabel r hi hb F LI LI2 hsame.loopFor, edgePass_relabel r hi]

/-- The outcome of `run` is the same for the relabelled function. -/
theorem run_relabel (r : Relabel) (hi : Function.Injective r.inst)
    (ha : Function.Injective r.arg) (hb : Function.Injective r.block) (F : Function)
    (LI : LoopInfo) (SE : ScalarEvolution) (LI2 : LoopInfo) (SE2 : ScalarEvolution)
    (hsame : SameAnswers r LI SE LI2 SE2) (fuel : Nat) (openFails : Bool) :
    run (F.relabel r) LI2 SE2 fuel openFails = run F LI SE fuel openFails := by
  have h := analyze_relabel r hi ha hb F LI SE LI2 SE2 hsame fuel
  unfold run
  have hd : (F.relabel r).isDeclaration = F.isDeclaration := by
    unfold Function.isDeclaration
    exact isEmpty_map_eq _ _
  have hname : (F.relabel r).name = F.name := rfl
  rw [hd, hname]
  cases h1 : analyze F LI SE fuel with
  | none =>
    rw [h1] at h
    cases h2 : analyze (F.relabel r) LI2 SE2 fuel with
    | none => rfl
    | some a2 => rw [h2] at h; cases h
  | some a =>
    rw [h1] at h
    cases h2 : analyze (F.relabel r) LI2 SE2 fuel with
    | none => rw [h2] at h; cases h
    | some a2 =>
      rw [h2] at h
      simp only [Option.map_some', Option.some.injEq, Prod.mk.injEq] at h
      simp only [h.1, h.2.1, h.2.2]

/-- With enough fuel, `run` on a function with a body writes a text when the
output file opens. -/
theorem run_writes (F : Function) (LI : LoopInfo) (SE : ScalarEvolution) (fuel : Nat)
    (hwf : F.WellFormed) (hfuel : fuelEnough F LI fuel = true)
    (hbody : F.isDeclaration = false) :
    ∃ text, run F LI SE fuel false = some (some text) := by
  unfold run analyze
  rw [hbody, analyzeWith_eq F.users F LI SE fuel hwf hfuel]
  exact ⟨_, rfl⟩

/-! ## C15: determinism and independence of addresses -/

theorem run_congr (F : Function) (LI : LoopInfo) (SE : ScalarEvolution) (LI3 : LoopInfo)
    (SE3 : ScalarEvolution) (fuel : Nat) (openFails : Bool)
    (h1 : LI3.getTopLevelLoops = LI.getTopLevelLoops)
    (h2 : ∀ b, LI3.getLoopFor b = LI.getLoopFor b)
    (h3 : ∀ v, SE3.getSCEV v = SE.getSCEV v)
    (h4 : ∀ L, SE3.getBackedgeTakenCount L = SE.getBackedgeTakenCount L) :
    run F LI3 SE3 fuel openFails = run F LI SE fuel openFails := by
  have e1 : LI3 = LI := by
    cases LI3; cases LI
    simp only [LoopInfo.mk.injEq]
    exact ⟨h1, funext h2⟩
  have e2 : SE3 = SE := by
    cases SE3; cases SE
    simp only [ScalarEvolution.mk.injEq]
    exact ⟨funext h3, funext h4⟩
  rw [e1, e2]

theorem shift_injective (k : Nat) : Function.Injective (fun h : Nat => h + k) :=
  fun _ _ h => Nat.add_right_cancel h

theorem shiftedLI_getLoopFor (b : Nat) :
    shiftedLI.getLoopFor (b + 500)
      = (Gemm.gemmLI.getLoopFor b).map (Loop.relabel shiftLabels) := by
  unfold shiftedLI
  simp only [Nat.add_sub_cancel]

theorem shifted_sameAnswers :
    SameAnswers shiftLabels Gemm.gemmLI Gemm.noSE shiftedLI Gemm.noSE :=
  { topLevel := rfl
    loopFor := shiftedLI_getLoopFor
    scev := fun _ => rfl
    backedge := fun _ => rfl }

/-- C15. The outcome of `run` is a function of its inputs: two runs on the
same function with loop structures and symbolic engines that give the same
answers have the same outcome, byte for byte. Moreover the outcome does not
depend on the addresses of the objects: when the addresses of instructions,
arguments and basic blocks are renamed injectively (those of loops in any
way), argument order, block order, instruction order and operand order being
kept, and the analyses give for the renamed objects the answers they gave for
the original ones, `run` has the same outcome; for a function with a body,
distinct instruction objects and enough fuel, both runs write the same text. -/
theorem output_independent_of_handles (r : Relabel) (F : Function) (LI : LoopInfo)
    (SE : ScalarEvolution) (LI2 : LoopInfo) (SE2 : ScalarEvolution) (fuel : Nat)
    (openFails : Bool) (hi : Function.Injective r.inst) (ha : Function.Injective r.arg)
    (hb : Function.Injective r.block) (hsame : SameAnswers r LI SE LI2 SE2) :
    run (F.relabel r) LI2 SE2 fuel openFails = run F LI SE fuel openFails ∧
    (∀ (LI3 : LoopInfo) (SE3 : ScalarEvolution),
      LI3.getTopLevelLoops = LI.getTopLevelLoops →
      (∀ b, LI3.getLoopFor b = LI.getLoopFor b) →
      (∀ v, SE3.getSCEV v = SE.getSCEV v) →
      (∀ L, SE3.getBackedgeTakenCount L = SE.getBackedgeTakenCount L) →
      run F LI3 SE3 fuel openFails = run F LI SE fuel openFails) ∧
    (F.WellFormed → fuelEnough F LI fuel = true → F.isDeclaration = false →
      ∃ text, run F LI SE fuel false = some (some text) ∧
        run (F.relabel r) LI2 SE2 fuel false = some (some text)) := by
  refine ⟨run_relabel r hi ha hb F LI SE LI2 SE2 hsame fuel openFails,
    fun LI3 SE3 h1 h2 h3 h4 => run_congr F LI SE LI3 SE3 fuel openFails h1 h2 h3 h4, ?_⟩
  intro hwf hfuel hbody
  obtain ⟨text, ht⟩ := run_writes F LI SE fuel hwf hfuel hbody
  exact ⟨text, ht, by rw [run_relabel r hi ha hb F LI SE LI2 SE2 hsame fuel false, ht]⟩

/-- C15 on the GEMM kernel with every address moved. -/
theorem output_independent_of_handles_witness :
    Function.Injective shiftLabels.inst ∧ Function.Injective shiftLabels.arg ∧
    Function.Injective shiftLabels.block ∧
    SameAnswers shiftLabels Gemm.gemmLI Gemm.noSE shiftedLI Gemm.noSE ∧
    run (Gemm.gemm.relabel shiftLabels) shiftedLI Gemm.noSE 3 false
      = run Gemm.gemm Gemm.gemmLI Gemm.noSE 3 false ∧
    (∀ (LI3 : LoopInfo) (SE3 : ScalarEvolution),
      LI3.getTopLevelLoops = Gemm.gemmLI.getTopLevelLoops →
      (∀ b, LI3.getLoopFor b = Gemm.gemmLI.getLoopFor b) →
      (∀ v, SE3.getSCEV v = Gemm.noSE.getSCEV v) →
      (∀ L, SE3.getBackedgeTakenCount L = Gemm.noSE.getBackedgeTakenCount L) →
      run Gemm.gemm LI3 SE3 3 false = run Gemm.gemm Gemm.gemmLI Gemm.noSE 3 false) ∧
    (Gemm.gemm.WellFormed → fuelEnough Gemm.gemm Gemm.gemmLI 3 = true →
      Gemm.gemm.isDeclaration = false →
      ∃ text, run Gemm.gemm Gemm.gemmLI Gemm.noSE 3 false = some (some text) ∧
        run (Gemm.gemm.relabel shiftLabels) shiftedLI Gemm.noSE 3 false
          = some (some text)) :=
  ⟨shift_injective 1000, shift_injective 50, shift_injective 500, shifted_sameAnswers,
    output_independent_of_handles shiftLabels Gemm.gemm Gemm.gemmLI Gemm.noSE shiftedLI
      Gemm.noSE 3 false (shift_injective 1000) (shift_injective 50) (shift_injective 500)
      shifted_sameAnswers⟩

end KernelDFG
